import Mathlib

/-!
Verification of the graph-reconciliation core of `exhale` (`src/exhale/graph.py`)
against its natural-language specification.

The Python object graph is shallowly embedded with an arena: every `ExhaleNode`
object is a `Node` record stored in `Root.nodes`, and Python object references
(object identity) become arena indices (`Nat`).  Python lists of node objects
become lists of indices; the `node_by_refid` dict becomes an association list
with in-place overwrite, matching dict assignment semantics.  Python string
comparison (`<` on code points) and `str.lower()` (ASCII range, which is all
the comparator's theorems depend on) are given executable models on `List Char`
because the built-in `String` order does not reduce in the kernel.
-/

/-- Code-point lexicographic order on character lists: the model of Python's
string `<` used by `ExhaleNode.__lt__`. -/
def strListLt : List Char → List Char → Bool
  | [], [] => false
  | [], _ :: _ => true
  | _ :: _, [] => false
  | a :: as, b :: bs =>
      if a.toNat < b.toNat then true
      else if b.toNat < a.toNat then false
      else strListLt as bs

/-- Python `a < b` on strings. -/
def pyStrLt (a b : String) : Bool := strListLt a.data b.data

/-- Python `s.lower()` (ASCII case folding, via `Char.toLower`). -/
def pyLower (s : String) : String := String.mk (s.data.map Char.toLower)

/-- One `ExhaleNode` object.  `parent` and `def_in_file` are arena indices of
the referenced node objects (`None` becomes `none`); `children`,
`namespaces_used` are lists of arena indices.  The file-only extra fields
(`location`, `program_listing`, `def_in_file_location`) are carried by every
node, mirroring how the Python object simply lacks them for other kinds (they
are never read for non-files). -/
structure Node where
  name : String
  kind : String
  refid : String
  parent : Option Nat
  def_in_file : Option Nat
  children : List Nat
  location : String
  namespaces_used : List Nat
  program_listing : List String
  def_in_file_location : Option String
deriving Repr, DecidableEq

/-- `ExhaleNode.__init__(name, kind, refid)`. -/
def mkNode (name kind refid : String) : Node :=
  ⟨name, kind, refid, none, none, [], "", [], [], none⟩

/-- `ExhaleNode.__lt__` (graph.py lines 194-222), verbatim branch structure. -/
def nodeLt (a b : Node) : Bool :=
  if a.kind == b.kind then
    pyStrLt (pyLower a.name) (pyLower b.name)
  else if a.kind == "struct" || a.kind == "class" then
    if b.kind != "struct" && b.kind != "class" then
      true
    else
      if a.kind == "struct" && b.kind == "class" then
        true
      else if a.kind == "class" && b.kind == "struct" then
        false
      else
        pyStrLt (pyLower a.name) (pyLower b.name)
  else
    pyStrLt a.kind b.kind

/-- Stable insertion into an already-sorted accumulator: the element goes after
every element it is not strictly less than.  Folding it left over a list gives
exactly the result of Python's stable ascending sort for the strict weak orders
used here. -/
def stableInsert {α : Type} (lt : α → α → Bool) (x : α) : List α → List α
  | [] => [x]
  | y :: ys => if lt x y then x :: y :: ys else y :: stableInsert lt x ys

/-- Python `list.sort()` / `sorted()`: stable ascending sort driven by `__lt__`. -/
def pySort {α : Type} (lt : α → α → Bool) (l : List α) : List α :=
  l.foldl (fun acc x => stableInsert lt x acc) []

/-- A kind is class-like when it is `struct` or `class`. -/
def classLikeKind (k : String) : Bool := k == "struct" || k == "class"

/-- The spec's comparator contract for two class-like nodes of different kinds:
struct first on case-insensitively equal names, otherwise case-insensitive
name order (spec 4.5, rule 2).  Stated from the spec's words, for comparison
with `nodeLt`. -/
def specStructClassLt (a b : Node) : Bool :=
  if pyLower a.name == pyLower b.name then a.kind == "struct"
  else pyStrLt (pyLower a.name) (pyLower b.name)


/-- The `ExhaleRoot` registry (graph.py lines 825-890): the node arena plus
`all_nodes`, the refid dictionary, and the per-kind top-level collections. -/
structure Root where
  nodes : List Node
  all_nodes : List Nat
  node_by_refid : List (String × Nat)
  class_like : List Nat
  defines : List Nat
  enums : List Nat
  enum_values : List Nat
  functions : List Nat
  dirs : List Nat
  files : List Nat
  groups : List Nat
  namespaces : List Nat
  typedefs : List Nat
  unions : List Nat
  variables_list : List Nat
deriving Repr, DecidableEq

/-- `ExhaleRoot.__init__`: every collection starts empty. -/
def emptyRoot : Root := ⟨[], [], [], [], [], [], [], [], [], [], [], [], [], [], []⟩

/-- Dereference an arena index (out-of-range yields an inert dummy node;
well-formed states never do this). -/
def getNode (r : Root) (i : Nat) : Node := r.nodes.getD i (mkNode "" "" "")

/-- Replace the node stored at index `i`. -/
def setNode (r : Root) (i : Nat) (n : Node) : Root := { r with nodes := r.nodes.set i n }

/-- Mutate one field of the node object at index `i`. -/
def modifyNode (r : Root) (i : Nat) (f : Node → Node) : Root := setNode r i (f (getNode r i))

/-- `node.parent = p`. -/
def setParent (r : Root) (i : Nat) (p : Option Nat) : Root :=
  modifyNode r i (fun n => { n with parent := p })

/-- `node.def_in_file = f`. -/
def setDefInFile (r : Root) (i : Nat) (f : Option Nat) : Root :=
  modifyNode r i (fun n => { n with def_in_file := f })

/-- `node.name = s`. -/
def setNodeName (r : Root) (i : Nat) (s : String) : Root :=
  modifyNode r i (fun n => { n with name := s })

/-- `parentNode.children.append(child)`. -/
def appendChild (r : Root) (p c : Nat) : Root :=
  modifyNode r p (fun n => { n with children := n.children ++ [c] })

/-- Allocate a fresh `ExhaleNode` object: its identity is the old arena size. -/
def pushNode (r : Root) (n : Node) : Root := { r with nodes := r.nodes ++ [n] }

/-- Python dict assignment `d[k] = v`: overwrite in place or append. -/
def dictInsert : List (String × Nat) → String → Nat → List (String × Nat)
  | [], k, v => [(k, v)]
  | (k1, v1) :: rest, k, v =>
      if k1 == k then (k, v) :: rest else (k1, v1) :: dictInsert rest k v

/-- Python dict lookup `d[k]` (`none` when the key is absent). -/
def dictLookup (d : List (String × Nat)) (k : String) : Option Nat :=
  (d.find? (fun p => p.1 == k)).map (fun p => p.2)

/-- The bookkeeping shared by every registration in
`ExhaleRoot.trackNodeIfUnseen`: append the object to `all_nodes` and record
it in `node_by_refid`. -/
def registerNode (r : Root) (i : Nat) : Root :=
  { r with
    all_nodes := r.all_nodes ++ [i],
    node_by_refid := dictInsert r.node_by_refid (getNode r i).refid i }

/-- The kind-dispatch chain of `ExhaleRoot.trackNodeIfUnseen` (graph.py lines
1148-1171): append the object to the top-level collection of its kind. -/
def addByKind (r : Root) (k : String) (i : Nat) : Root :=
  if k == "class" || k == "struct" then { r with class_like := r.class_like ++ [i] }
  else if k == "namespace" then { r with namespaces := r.namespaces ++ [i] }
  else if k == "enum" then { r with enums := r.enums ++ [i] }
  else if k == "enumvalue" then { r with enum_values := r.enum_values ++ [i] }
  else if k == "define" then { r with defines := r.defines ++ [i] }
  else if k == "file" then { r with files := r.files ++ [i] }
  else if k == "dir" then { r with dirs := r.dirs ++ [i] }
  else if k == "function" then { r with functions := r.functions ++ [i] }
  else if k == "variable" then { r with variables_list := r.variables_list ++ [i] }
  else if k == "group" then { r with groups := r.groups ++ [i] }
  else if k == "typedef" then { r with typedefs := r.typedefs ++ [i] }
  else if k == "union" then { r with unions := r.unions ++ [i] }
  else r

/-- `ExhaleRoot.trackNodeIfUnseen` (graph.py lines 1135-1171).  The Python
membership test `node not in self.all_nodes` compares object identity (no
`__eq__` is defined on `ExhaleNode`), which the arena embedding renders as
index membership. -/
def trackNodeIfUnseen (r : Root) (i : Nat) : Root :=
  if i ∈ r.all_nodes then r
  else addByKind (registerNode r i) (getNode r i).kind i

/-- One `<member>` element of an index `<compound>` (name text, kind attr,
refid attr all present; elements missing one of them are skipped by the guard
in the source and never reach the logic modelled here). -/
structure Member where
  name : String
  kind : String
  refid : String
deriving Repr, DecidableEq

/-- One `<compound>` element of `index.xml`. -/
structure Compound where
  name : String
  kind : String
  refid : String
  members : List Member
deriving Repr, DecidableEq

/-- Body of the member loop in `ExhaleRoot.discoverAllNodes` (graph.py lines
968-981): a fresh node is constructed and registered for every member, the
namespace owner becomes its `parent`, a file owner becomes its `def_in_file`,
and it is appended to the owner compound node's `children` — uniformly for
every member kind. -/
def discoverMember (ckind : String) (cid : Nat) (r : Root) (m : Member) : Root :=
  let mid := r.nodes.length
  let r2 := trackNodeIfUnseen (pushNode r (mkNode m.name m.kind m.refid)) mid
  let r3 := if ckind == "namespace" then setParent r2 mid (some cid)
            else setDefInFile r2 mid (some cid)
  appendChild r3 cid mid

/-- Body of the compound loop in `ExhaleRoot.discoverAllNodes` (graph.py lines
955-981). -/
def discoverCompound (r : Root) (c : Compound) : Root :=
  let cid := r.nodes.length
  let r2 := trackNodeIfUnseen (pushNode r (mkNode c.name c.kind c.refid)) cid
  if c.kind == "namespace" || c.kind == "file" then
    c.members.foldl (discoverMember c.kind cid) r2
  else r2

/-- The index traversal of `ExhaleRoot.discoverAllNodes`. -/
def discoverIndex (r : Root) (idx : List Compound) : Root :=
  idx.foldl discoverCompound r

/-- Every identity registered in `all_nodes` refers into the arena. -/
def idsValid (r : Root) : Prop := ∀ i ∈ r.all_nodes, i < r.nodes.length

instance (r : Root) : Decidable (idsValid r) := by
  unfold idsValid; infer_instance

/-- Concrete registry used by the C1 witness: one class compound with refid
`r1` has already been registered. -/
def c1WitnessRoot : Root := discoverIndex emptyRoot [⟨"A", "class", "r1", []⟩]


/-- Concrete index (C5): a namespace whose member list holds an enumvalue. -/
def c5Index : List Compound := [⟨"ns", "namespace", "r0", [⟨"ns::E::A", "enumvalue", "r1"⟩]⟩]

/-- Concrete registry used by the C5 witness: one namespace compound. -/
def c5WitnessRoot : Root := discoverIndex emptyRoot [⟨"ns", "namespace", "r0", []⟩]


/-- Substring occurrence on character lists: the model of Python's
`pat in hay` for strings. -/
def strContainsSub (pat : List Char) : List Char → Bool
  | [] => pat.isPrefixOf []
  | c :: t => pat.isPrefixOf (c :: t) || strContainsSub pat t

/-- Python `pat in hay` on strings (substring containment). -/
def pyInStr (pat hay : String) : Bool := strContainsSub pat.data hay.data

/-- Body of the child loop of `ExhaleRoot.renameToNamespaceScopes` (graph.py
lines 1410-1414): prepend `nsname` unless it already occurs in the child's
name — the source tests substring containment (`not in`), not prefix. -/
def renameChild (nsname : String) (r : Root) (c : Nat) : Root :=
  if pyInStr nsname (getNode r c).name then r
  else setNodeName r c (nsname ++ (getNode r c).name)

/-- One iteration of the namespace loop of
`ExhaleRoot.renameToNamespaceScopes`: `namespace_name` is computed once from
the namespace's current name, then every direct child is visited. -/
def renameNamespaceChildren (r : Root) (n : Nat) : Root :=
  (getNode r n).children.foldl (renameChild ((getNode r n).name ++ "::")) r

/-- `ExhaleRoot.renameToNamespaceScopes` (graph.py lines 1398-1414). -/
def renameToNamespaceScopes (r : Root) : Root :=
  r.namespaces.foldl renameNamespaceChildren r

/-- Concrete registry for the C6 counterexample: a top-level namespace `A`
whose direct child is named `B::A::C` — a name that contains `A::` as a
substring but does not begin with it. -/
def c6Root : Root :=
  ⟨[⟨"A", "namespace", "r0", none, none, [1], "", [], [], none⟩,
    ⟨"B::A::C", "function", "r1", some 0, none, [], "", [], [], none⟩],
   [0, 1], [("r0", 0), ("r1", 1)],
   [], [], [], [], [1], [], [], [], [0], [], [], []⟩


/-- Concrete registry for the C6 witness: namespace `A` with child `MAX`. -/
def c6WitnessRoot : Root :=
  ⟨[⟨"A", "namespace", "r0", none, none, [1], "", [], [], none⟩,
    ⟨"MAX", "variable", "r1", some 0, none, [], "", [], [], none⟩],
   [0, 1], [("r0", 0), ("r1", 1)],
   [], [], [], [], [], [], [], [], [0], [], [], [1]⟩


/-- Body of the `def_in_file` consistency loop at the end of
`ExhaleRoot.fileRefDiscovery` (graph.py lines 1618-1629): an unset
`def_in_file` is set to the current file; a different existing file triggers a
conflict diagnostic (child name, existing file name, offending file name) and
leaves the assignment untouched; the loop never raises. -/
def checkChildStep (fid : Nat) (acc : Root × List (String × String × String))
    (cid : Nat) : Root × List (String × String × String) :=
  match (getNode acc.1 cid).def_in_file with
  | none => (setDefInFile acc.1 cid (some fid), acc.2)
  | some g =>
      if g ≠ fid then
        (acc.1, acc.2 ++ [((getNode acc.1 cid).name, (getNode acc.1 g).name,
          (getNode acc.1 fid).name)])
      else acc

/-- The per-file inner loop of the consistency check. -/
def checkFileChildren (acc : Root × List (String × String × String)) (fid : Nat) :
    Root × List (String × String × String) :=
  (getNode acc.1 fid).children.foldl (checkChildStep fid) acc

/-- The full consistency check: `for f in self.files: for child in f.children`,
accumulating the emitted conflict diagnostics instead of printing them. -/
def fileDefConsistency (r : Root) : Root × List (String × String × String) :=
  r.files.foldl checkFileChildren (r, [])


/-- Concrete registry for the C9 witness: file `a.h` lists children `x`
(unset `def_in_file`) and `y` (already defined in file `b.h`). -/
def c9WitnessRoot : Root :=
  ⟨[⟨"a.h", "file", "f0", none, none, [2, 3], "", [], [], none⟩,
    ⟨"b.h", "file", "f1", none, none, [], "", [], [], none⟩,
    ⟨"x", "function", "r2", none, none, [], "", [], [], none⟩,
    ⟨"y", "enum", "r3", none, some 1, [], "", [], [], none⟩],
   [0, 1, 2, 3], [("f0", 0), ("f1", 1), ("r2", 2), ("r3", 3)],
   [], [], [3], [], [2], [], [0, 1], [], [], [], [], []⟩


/-- The collection loop for unresolved nodes (graph.py lines 1091-1097): every
`node_by_refid` entry whose node has no `def_in_file` and whose kind is not
file/dir/group/namespace. -/
def missingPairs (r : Root) : List (String × Nat) :=
  r.node_by_refid.filter (fun p =>
    (getNode r p.2).def_in_file.isNone
      && !(["file", "dir", "group", "namespace"].contains (getNode r p.2).kind))

/-- Lookup in the candidate dictionary (entries are initialised for every
missing refid, so a missing key simply reads as the empty list). -/
def candGet (cand : List (String × List Nat)) (k : String) : List Nat :=
  ((cand.find? (fun p => p.1 == k)).map (fun p => p.2)).getD []

/-- Assignment in the candidate dictionary. -/
def candSet : List (String × List Nat) → String → List Nat → List (String × List Nat)
  | [], k, v => [(k, v)]
  | (k1, v1) :: rest, k, v =>
      if k1 == k then (k, v) :: rest else (k1, v1) :: candSet rest k v

/-- One `<ref>` element of a file's program listing (graph.py lines
1104-1109): a member-kind reference to a missing refid appends the file to
that refid's candidate list unless it is already there. -/
def refStep (missing : List String) (fid : Nat)
    (cand : List (String × List Nat)) (rp : String × String) :
    List (String × List Nat) :=
  if rp.2 == "member" then
    if missing.contains rp.1 && !(candGet cand rp.1).contains fid then
      candSet cand rp.1 (candGet cand rp.1 ++ [fid])
    else cand
  else cand

/-- The candidate-collection loops (graph.py lines 1091-1109): initialise an
empty candidate list per missing refid, then scan every file's program-listing
references.  `listings` carries, per file node, the `(refid, kindref)`
attribute pairs of its `<ref>` tags — the deserialized form of `f.soup`. -/
def buildCandidates (missing : List String)
    (listings : List (Nat × List (String × String))) : List (String × List Nat) :=
  listings.foldl (fun cand fl => fl.2.foldl (refStep missing fl.1) cand)
    (missing.map (fun k => (k, ([] : List Nat))))

/-- The assignment loop (graph.py lines 1114-1119): exactly one candidate
resolves the node; zero or several leave it unresolved. -/
def assignLoop (cand : List (String × List Nat)) (pairs : List (String × Nat))
    (r : Root) : Root :=
  pairs.foldl (fun r2 p =>
    if (candGet cand p.1).length = 1 then
      setDefInFile r2 p.2 (some ((candGet cand p.1).headD 0))
    else r2) r

/-- The whole ambiguous-ownership resolution step of
`ExhaleRoot.discoverAllNodes` (graph.py lines 1091-1122). -/
def resolveMissingFileDefs (r : Root)
    (listings : List (Nat × List (String × String))) : Root :=
  assignLoop (buildCandidates ((missingPairs r).map Prod.fst) listings)
    (missingPairs r) r

/-- The specification-side candidate list: the files whose program listing
holds at least one member-kind reference to `k`, in file order. -/
def candFiles (listings : List (Nat × List (String × String))) (k : String) :
    List Nat :=
  (listings.filter (fun fl => fl.2.any (fun rp => rp.2 == "member" && rp.1 == k))).map
    Prod.fst


/-- Specification-side helper describing incremental candidate collection:
extend `acc` with each file not already present. -/
def dedupExtend (acc : List Nat) : List Nat → List Nat
  | [] => acc
  | f :: fs => if acc.contains f then dedupExtend acc fs else dedupExtend (acc ++ [f]) fs

/-- Concrete registry for the C8 witness: `x` (refid `r1`) is referenced from
one file's listing, `y` (refid `r2`) from two. -/
def c8WitnessRoot : Root :=
  ⟨[⟨"a.h", "file", "f0", none, none, [], "", [], [], none⟩,
    ⟨"x", "function", "r1", none, none, [], "", [], [], none⟩,
    ⟨"b.h", "file", "f1", none, none, [], "", [], [], none⟩,
    ⟨"y", "enum", "r2", none, none, [], "", [], [], none⟩],
   [0, 1, 2, 3], [("f0", 0), ("r1", 1), ("f1", 2), ("r2", 3)],
   [], [], [3], [], [1], [], [0, 2], [], [], [], [], []⟩

/-- Program-listing reference data for the C8 witness. -/
def c8Listings : List (Nat × List (String × String)) :=
  [(0, [("r1", "member"), ("r2", "member")]), (2, [("r2", "member")])]


/-- Python `s.split("::")` on character lists. -/
def splitCCAux : List Char → List Char → List (List Char)
  | [], acc => [acc.reverse]
  | ':' :: ':' :: rest, acc => acc.reverse :: splitCCAux rest []
  | c :: rest, acc => splitCCAux rest (c :: acc)

/-- Python `name.split("::")`. -/
def pySplitCC (s : String) : List String := (splitCCAux s.data []).map String.mk

/-- Python `"::".join(parts)`. -/
def joinCC : List String → String
  | [] => ""
  | [p] => p
  | p :: rest => p ++ "::" ++ joinCC rest

/-- Python `s.split("/")` on character lists. -/
def splitSlashAux : List Char → List Char → List (List Char)
  | [], acc => [acc.reverse]
  | '/' :: rest, acc => acc.reverse :: splitSlashAux rest []
  | c :: rest, acc => splitSlashAux rest (c :: acc)

/-- Python `name.split("/")`. -/
def pySplitSlash (s : String) : List String := (splitSlashAux s.data []).map String.mk

/-- Python `"/".join(parts)`. -/
def joinSlash : List String → String
  | [] => ""
  | [p] => p
  | p :: rest => p ++ "/" ++ joinSlash rest

/-- The class-like search of `ExhaleRoot.reparentUnions` (graph.py lines
1262-1274 and 1288-1298): for three or more segments the *bare* second-to-last
segment (`parts[-2]`) is compared against class names; for exactly two
segments the joined prefix is. -/
def unionClassMatch (r : Root) (cl_list : List Nat) (u : Nat) : Option Nat :=
  let parts := pySplitCC (getNode r u).name
  if parts.length > 1 then
    if parts.length > 2 then
      cl_list.find? (fun cl => (getNode r cl).name == parts.getD (parts.length - 2) "")
    else
      cl_list.find? (fun cl => (getNode r cl).name == joinCC parts.dropLast)
  else none

/-- The namespace search of `ExhaleRoot.reparentUnions` (graph.py lines
1280-1286 and 1304-1309): for three or more segments the prefix without the
last two segments, or that prefix re-extended with the second-to-last segment,
is compared against namespace names. -/
def unionNsMatch (r : Root) (ns_list : List Nat) (u : Nat) : Option Nat :=
  let parts := pySplitCC (getNode r u).name
  if parts.length > 1 then
    if parts.length > 2 then
      let nsname := joinCC parts.dropLast.dropLast
      let alt := nsname ++ "::" ++ parts.getD (parts.length - 2) ""
      ns_list.find? (fun n => nsname == (getNode r n).name || alt == (getNode r n).name)
    else
      ns_list.find? (fun n => (getNode r n).name == joinCC parts.dropLast)
  else none

/-- One iteration of the union loop of `ExhaleRoot.reparentUnions`: a
class-like match adopts the union and marks it for removal from the top-level
collection; otherwise a namespace match adopts it without removal. -/
def reparentUnionStep (cl_list ns_list : List Nat) (acc : Root × List Nat)
    (u : Nat) : Root × List Nat :=
  match unionClassMatch acc.1 cl_list u with
  | some cl => (setParent (appendChild acc.1 cl u) u (some cl), acc.2 ++ [u])
  | none =>
      match unionNsMatch acc.1 ns_list u with
      | some n => (setParent (appendChild acc.1 n u) u (some n), acc.2)
      | none => acc

/-- `ExhaleRoot.reparentUnions` (graph.py lines 1244-1313). -/
def reparentUnions (r : Root) : Root :=
  let res := r.unions.foldl (reparentUnionStep r.class_like r.namespaces) (r, [])
  { res.1 with unions := res.2.foldl (fun l rm => l.erase rm) res.1.unions }

/-- Concrete registry for the C4 counterexample: namespace `A`, class `A::B`,
union `A::B::U`. -/
def c4Root : Root :=
  ⟨[⟨"A", "namespace", "r0", none, none, [], "", [], [], none⟩,
    ⟨"A::B", "class", "r1", none, none, [], "", [], [], none⟩,
    ⟨"A::B::U", "union", "r2", none, none, [], "", [], [], none⟩],
   [0, 1, 2], [("r0", 0), ("r1", 1), ("r2", 2)],
   [1], [], [], [], [], [], [], [], [0], [], [2], []⟩


/-- Concrete registry for the C4 witness: a class literally named `B` (the
bare second-to-last segment) does get the union. -/
def c4WitnessRoot : Root :=
  ⟨[⟨"A", "namespace", "r0", none, none, [], "", [], [], none⟩,
    ⟨"B", "class", "r1", none, none, [], "", [], [], none⟩,
    ⟨"A::B::U", "union", "r2", none, none, [], "", [], [], none⟩],
   [0, 1, 2], [("r0", 0), ("r1", 1), ("r2", 2)],
   [1], [], [], [], [], [], [], [], [0], [], [2], []⟩


/-- The parent search of `ExhaleRoot.reparentClassLike` (graph.py lines
1349-1353): a multi-segment class name whose full prefix exactly equals
another class-like node's name. -/
def classLikeMatch (r : Root) (cl_list : List Nat) (cl : Nat) : Option Nat :=
  let parts := pySplitCC (getNode r cl).name
  if parts.length > 1 then
    cl_list.find? (fun pcl => (getNode r pcl).name == joinCC parts.dropLast)
  else none

/-- One iteration of the class-like loop of `ExhaleRoot.reparentClassLike`
(graph.py lines 1348-1357): a matched class becomes the prefix class's child
and is marked for removal from the top-level collection. -/
def reparentClassLikeStep (cl_list : List Nat) (acc : Root × List Nat)
    (cl : Nat) : Root × List Nat :=
  match classLikeMatch acc.1 cl_list cl with
  | some pcl => (setParent (appendChild acc.1 pcl cl) cl (some pcl), acc.2 ++ [cl])
  | none => acc

/-- `ExhaleRoot.reparentClassLike` (graph.py lines 1315-1361). -/
def reparentClassLike (r : Root) : Root :=
  let res := r.class_like.foldl (reparentClassLikeStep r.class_like) (r, [])
  { res.1 with class_like :=
      res.2.foldl (fun l rm => if rm ∈ l then l.erase rm else l) res.1.class_like }

/-- Rank of a directory: its number of path segments. -/
def dirRank (r : Root) (d : Nat) : Nat := (pySplitSlash (getNode r d).name).length

/-- Python tuple comparison on `(rank, directory)` pairs as used by
`sorted(dir_ranks)`: rank first, then `ExhaleNode.__lt__`. -/
def dirRankLt (r : Root) (a b : Nat × Nat) : Bool :=
  if a.1 < b.1 then true
  else if b.1 < a.1 then false
  else nodeLt (getNode r a.2) (getNode r b.2)

/-- The parent search of `ExhaleRoot.reparentDirectories` (graph.py lines
1386-1388): the first traversal entry one rank up whose path equals this
directory's path without its last segment. -/
def dirMatch (r : Root) (trav : List (Nat × Nat)) (p : Nat × Nat) : Option (Nat × Nat) :=
  trav.find? (fun q => q.1 == p.1 - 1 && (getNode r q.2).name
    == joinSlash (pySplitSlash (getNode r p.2).name).dropLast)

/-- One iteration of the directory loop of `ExhaleRoot.reparentDirectories`
(graph.py lines 1386-1393). -/
def reparentDirsStep (trav : List (Nat × Nat)) (acc : Root × List Nat)
    (p : Nat × Nat) : Root × List Nat :=
  match dirMatch acc.1 trav p with
  | some q => (setParent (appendChild acc.1 q.2 p.2) p.2 (some q.2),
      if p.2 ∈ acc.2 then acc.2 else acc.2 ++ [p.2])
  | none => acc

/-- `ExhaleRoot.reparentDirectories` (graph.py lines 1363-1396): ranks are
computed and sorted up front, the traversal runs deepest-first and stops at
the first rank-1 entry (`break`), matched directories are reparented and
removed from the top-level directory collection. -/
def reparentDirectories (r : Root) : Root :=
  let ranks := r.dirs.map (fun d => (dirRank r d, d))
  let trav := (pySort (dirRankLt r) ranks).reverse
  let res := (trav.takeWhile (fun p => !(decide (p.1 < 2)))).foldl
      (reparentDirsStep trav) (r, [])
  { res.1 with dirs := res.2.foldl (fun l rm => l.erase rm) res.1.dirs }

/-- `ExhaleRoot.reparentNamespaces` (graph.py lines 1416-1456): a namespace
whose parent is a namespace node leaves the top-level namespace collection. -/
def reparentNamespaces (r : Root) : Root :=
  let removals := r.namespaces.foldl (fun rem n =>
    match (getNode r n).parent with
    | some p =>
        if (getNode r p).kind == "namespace" && !(rem.contains n) then rem ++ [n]
        else rem
    | none => rem) []
  { r with namespaces := removals.foldl (fun l rm => l.erase rm) r.namespaces }

/-- The child de-duplication at the end of `ExhaleRoot.reparentAll` (graph.py
lines 1241-1242): `node.children = list(set(node.children))` for every
registered node.  `list(set(..))` keeps one copy of each object in an
unspecified order; the embedding fixes the first-occurrence order
(`List.dedup`), which is equal as a set. -/
def dedupChildrenAll (r : Root) : Root :=
  r.all_nodes.foldl (fun r2 i => modifyNode r2 i (fun n =>
    { n with children := n.children.dedup })) r

/-- `ExhaleRoot.reparentAll` (graph.py lines 1223-1242): the five sub-passes
in source order, then child de-duplication. -/
def reparentAll (r : Root) : Root :=
  dedupChildrenAll (reparentNamespaces (renameToNamespaceScopes
    (reparentDirectories (reparentClassLike (reparentUnions r)))))


/-- Concrete registry for the C7 counterexample: namespace `A`, nested
namespace `A::B` (child of `A`, listed first in the namespace collection),
and union `A::B::U`.  The first engine run attaches the union to `A::B` and
collapses `A::B` out of the namespace collection; the second run re-attaches
the union to `A`. -/
def c7Root : Root :=
  ⟨[⟨"A", "namespace", "r0", none, none, [1], "", [], [], none⟩,
    ⟨"A::B", "namespace", "r1", some 0, none, [], "", [], [], none⟩,
    ⟨"A::B::U", "union", "r2", none, none, [], "", [], [], none⟩],
   [0, 1, 2], [("r0", 0), ("r1", 1), ("r2", 2)],
   [], [], [], [], [], [], [], [], [1, 0], [], [2], []⟩

/-- Concrete registry for the C7 idempotence witness: namespace `A` whose one
child already carries the `A::` scope, an unrelated class `C` and directory
`d`, and no unions.  All the conditional-idempotence hypotheses hold here by
computation. -/
def c7WitnessRoot : Root :=
  ⟨[⟨"A", "namespace", "r0", none, none, [1], "", [], [], none⟩,
    ⟨"A::x", "function", "r1", some 0, none, [], "", [], [], none⟩,
    ⟨"C", "class", "r2", none, none, [], "", [], [], none⟩,
    ⟨"d", "dir", "r3", none, none, [], "", [], [], none⟩],
   [0, 1, 2, 3], [("r0", 0), ("r1", 1), ("r2", 2), ("r3", 3)],
   [2], [], [], [], [], [3], [], [], [0], [], [], []⟩

/-- The parent/child edge-consistency invariant implicit throughout the
pipeline: every registered node whose `parent` field is set appears in that
parent's `children` list. -/
def parentChildInv (r : Root) : Prop :=
  ∀ i, i < r.nodes.length → ∀ p ∈ (getNode r i).parent, i ∈ (getNode r p).children

instance (r : Root) : Decidable (parentChildInv r) := by
  unfold parentChildInv; infer_instance

/-- Every child index recorded by a registered node refers into the arena. -/
def childrenBound (r : Root) : Prop :=
  ∀ i, i < r.nodes.length → ∀ c ∈ (getNode r i).children, c < r.nodes.length

instance (r : Root) : Decidable (childrenBound r) := by
  unfold childrenBound; infer_instance

/-- The directory-search loop of `ExhaleRoot.filePostProcess` (graph.py lines
1648-1661).  `nodes_remaining.pop()` removes the LAST element of the Python
list, so the embedding keeps the pending stack reversed (head = next pop).
On a name match the file is appended to the directory's children and adopts
it as parent (`break`); on a strict-substring match the stack is replaced by
the directory-kind children of the candidate.  The Python `while` loop can
diverge on a cyclic child graph, so the embedding is fuel-indexed: every
theorem below holds for every fuel value, hence for whatever number of
iterations the source loop actually performs. -/
def fppLoop (f : Nat) (dirPath : String) : Nat → Root → List Nat → Root
  | 0, r, _ => r
  | _ + 1, r, [] => r
  | fuel + 1, r, d :: stack =>
    if pyInStr (getNode r d).name dirPath then
      if (getNode r d).name == dirPath then
        setParent (appendChild r d f) f d
      else
        fppLoop f dirPath fuel r
          (((getNode r d).children.filter (fun c => (getNode r c).kind == "dir")).reverse)
    else
      fppLoop f dirPath fuel r stack

/-- One file of `ExhaleRoot.filePostProcess` (graph.py lines 1639-1661): the
directory part of the file's location is isolated; a file at the top level is
skipped, otherwise the directory search runs over the top-level directory
collection. -/
def filePostProcessStep (fuel : Nat) (r : Root) (f : Nat) : Root :=
  let dirLocParts := (pySplitSlash (getNode r f).location).dropLast
  if dirLocParts.length = 0 then r
  else fppLoop f (joinSlash dirLocParts) fuel r r.dirs.reverse

/-- `ExhaleRoot.filePostProcess` (graph.py lines 1631-1661). -/
def filePostProcess (fuel : Nat) (r : Root) : Root :=
  r.files.foldl (filePostProcessStep fuel) r

/-- `list.sort()` on a list of node identities, comparing the underlying
nodes with `ExhaleNode.__lt__`. -/
def sortIdxList (r : Root) (l : List Nat) : List Nat :=
  pySort (fun a b => nodeLt (getNode r a) (getNode r b)) l

/-- `ExhaleNode.typeSort` (graph.py lines 378-386): sort `self.children` in
place, then have each child sort its own children.  The recursion is
fuel-indexed because the Python object graph may contain cycles. -/
def typeSortGo : Nat → Root → Nat → Root
  | 0, r, _ => r
  | fuel + 1, r, i =>
    let r1 := modifyNode r i (fun n => { n with children := sortIdxList r n.children })
    (getNode r1 i).children.foldl (typeSortGo fuel) r1

/-- `ExhaleRoot.deepSortList` (graph.py lines 1688-1700): sort the collection
list itself, then type-sort every element; returns the updated arena and the
sorted collection. -/
def deepSortList (fuel : Nat) (r : Root) (l : List Nat) : Root × List Nat :=
  let sorted := sortIdxList r l
  (sorted.foldl (typeSortGo fuel) r, sorted)

/-- `ExhaleRoot.sortInternals` (graph.py lines 1663-1686): the leaf-like
collections are sorted, the hierarchical collections are deep sorted, in
source order. -/
def sortInternals (fuel : Nat) (r : Root) : Root :=
  let r0 := { r with
    defines := sortIdxList r r.defines,
    enums := sortIdxList r r.enums,
    enum_values := sortIdxList r r.enum_values,
    functions := sortIdxList r r.functions,
    groups := sortIdxList r r.groups,
    typedefs := sortIdxList r r.typedefs,
    variables_list := sortIdxList r r.variables_list }
  let p1 := deepSortList fuel r0 r0.class_like
  let r1 := { p1.1 with class_like := p1.2 }
  let p2 := deepSortList fuel r1 r1.namespaces
  let r2 := { p2.1 with namespaces := p2.2 }
  let p3 := deepSortList fuel r2 r2.unions
  let r3 := { p3.1 with unions := p3.2 }
  let p4 := deepSortList fuel r3 r3.files
  let r4 := { p4.1 with files := p4.2 }
  let p5 := deepSortList fuel r4 r4.dirs
  { p5.1 with dirs := p5.2 }

/-- Concrete registry for the C10 witness: directory `d`, file `d/a.h`
located under it, a namespace `A` with child `A::x` recorded consistently,
and a nested class pair so the reparenting passes do real work. -/
def c10WitnessRoot : Root :=
  ⟨[⟨"d", "dir", "r0", none, none, [], "", [], [], none⟩,
    ⟨"a.h", "file", "r1", none, none, [3], "d/a.h", [], [], none⟩,
    ⟨"A", "namespace", "r2", none, none, [3], "", [], [], none⟩,
    ⟨"A::x", "function", "r3", some 2, none, [], "", [], [], none⟩,
    ⟨"B", "class", "r4", none, none, [], "", [], [], none⟩,
    ⟨"B::C", "class", "r5", none, none, [], "", [], [], none⟩],
   [0, 1, 2, 3, 4, 5],
   [("r0", 0), ("r1", 1), ("r2", 2), ("r3", 3), ("r4", 4), ("r5", 5)],
   [4, 5], [], [], [], [3], [0], [1], [], [2], [], [], []⟩

-- ### THEOREMS ###

theorem strListLt_irrefl (l : List Char) : strListLt l l = false := by
  induction l with
  | nil => rfl
  | cons a as ih => simp [strListLt, ih]

theorem strListLt_asymm (a b : List Char) (h : strListLt a b = true) :
    strListLt b a = false := by
  induction a generalizing b with
  | nil =>
    cases b with
    | nil => simp [strListLt] at h
    | cons x xs => simp [strListLt]
  | cons x xs ih =>
    cases b with
    | nil => simp [strListLt] at h
    | cons y ys =>
      simp only [strListLt] at h ⊢
      rcases Nat.lt_trichotomy x.toNat y.toNat with hlt | heq | hgt
      · simp [hlt, Nat.not_lt.mpr (Nat.le_of_lt hlt), Nat.lt_irrefl]
      · simp [heq, Nat.lt_irrefl] at h ⊢
        exact ih _ h
      · simp [hgt, Nat.not_lt.mpr (Nat.le_of_lt hgt)] at h

theorem pyStrLt_irrefl (s : String) : pyStrLt s s = false := strListLt_irrefl s.data

theorem pyStrLt_asymm (a b : String) (h : pyStrLt a b = true) : pyStrLt b a = false :=
  strListLt_asymm a.data b.data h

theorem nodeLt_self (a : Node) : nodeLt a a = false := by
  simp [nodeLt, pyStrLt_irrefl]

/-- If two kinds agree on class-likeness and `nodeLt` holds one way, it fails
the other way. -/
theorem nodeLt_asymm_of_classLike_eq (a b : Node)
    (hk : classLikeKind a.kind = classLikeKind b.kind)
    (h : nodeLt a b = true) : nodeLt b a = false := by
  by_cases hab : a.kind = b.kind
  · simp only [nodeLt, hab, beq_self_eq_true, if_true] at h ⊢
    exact pyStrLt_asymm _ _ h
  · have hba : ¬ b.kind = a.kind := fun hh => hab hh.symm
    rcases hcl : classLikeKind a.kind with _ | _
    · -- neither is class-like: both comparisons fall to the kind-tag order
      have hclb : classLikeKind b.kind = false := by rw [← hk, hcl]
      simp only [classLikeKind, Bool.or_eq_false_iff] at hcl hclb
      simp only [nodeLt, beq_eq_false_iff_ne, ne_eq, hab, hba,
        if_neg, hcl.1, hcl.2, hclb.1, hclb.2, Bool.or_self, if_false,
        beq_iff_eq, if_neg hab, if_neg hba] at h ⊢
      exact pyStrLt_asymm _ _ h
    · -- both are class-like and the kinds differ: one is struct, one is class
      have hclb : classLikeKind b.kind = true := by rw [← hk, hcl]
      simp only [classLikeKind, Bool.or_eq_true, beq_iff_eq] at hcl hclb
      rcases hcl with ha | ha <;> rcases hclb with hb | hb <;>
        simp_all [nodeLt]

/-- C2 counterexample: the comparator is not asymmetric.  For
`A = Struct("a")` and `B = Define("b")`, both `A < B` (a class-like node
compares less than any non-class-like node) and `B < A` (the kind-tag order
`"define" < "struct"`) hold, refuting the claimed strict-total-order contract. -/
theorem C2_counterexample :
    ¬ (∀ a b : Node, ¬ (nodeLt a b = true ∧ nodeLt b a = true)) := by
  intro h
  exact h (mkNode "a" "struct" "r1") (mkNode "b" "define" "r2") (by decide)

/-- C2 (amended): `ExhaleNode.__lt__` is irreflexive; it is asymmetric whenever
the two kinds agree on being class-like (both in `{struct, class}` or both
outside); when neither kind is class-like and the kinds differ, `A < B` holds
exactly when `A`'s kind tag is lexicographically smaller; but when `A` is
class-like and `B` is not, `A < B` always returns true regardless of the kind
tags (which is why asymmetry fails on mixed pairs). -/
theorem C2_amended :
    (∀ a : Node, nodeLt a a = false) ∧
    (∀ a b : Node, classLikeKind a.kind = classLikeKind b.kind →
      nodeLt a b = true → nodeLt b a = false) ∧
    (∀ a b : Node, classLikeKind a.kind = false → classLikeKind b.kind = false →
      a.kind ≠ b.kind → nodeLt a b = pyStrLt a.kind b.kind) ∧
    (∀ a b : Node, classLikeKind a.kind = true → classLikeKind b.kind = false →
      nodeLt a b = true) := by
  refine ⟨nodeLt_self, nodeLt_asymm_of_classLike_eq, ?_, ?_⟩
  · intro a b ha hb hab
    simp only [classLikeKind, Bool.or_eq_false_iff, beq_eq_false_iff_ne, ne_eq] at ha hb
    simp only [nodeLt, beq_iff_eq, if_neg hab, classLikeKind]
    rw [if_neg]
    simp [ha.1, ha.2]
  · intro a b ha hb
    have hab : a.kind ≠ b.kind := by
      intro hh
      rw [hh, hb] at ha
      exact Bool.false_ne_true ha
    simp only [classLikeKind, Bool.or_eq_false_iff, beq_eq_false_iff_ne, ne_eq] at hb
    simp only [classLikeKind, Bool.or_eq_true, beq_iff_eq] at ha
    simp only [nodeLt, beq_iff_eq, if_neg hab]
    rw [if_pos, if_pos]
    · simp [bne_iff_ne, hb.1, hb.2]
    · rcases ha with h | h <;> simp [h]

/-- C2 witness: the amended kind-tag rule evaluated on a typedef/variable pair. -/
theorem C2_witness :
    nodeLt (mkNode "zz" "typedef" "r1") (mkNode "aa" "variable" "r2")
      = pyStrLt "typedef" "variable" :=
  C2_amended.2.2.1 (mkNode "zz" "typedef" "r1") (mkNode "aa" "variable" "r2")
    (by decide) (by decide) (by decide)

/-- C3 counterexample: for `Struct("b")` vs `Class("a")` the code returns
true (struct always sorts before class), while the claimed case-insensitive
name order would return false (`"b" > "a"`). -/
theorem C3_counterexample :
    ¬ (∀ a b : Node, classLikeKind a.kind = true → classLikeKind b.kind = true →
        a.kind ≠ b.kind → nodeLt a b = specStructClassLt a b) := by
  intro h
  have hh := h (mkNode "b" "struct" "r1") (mkNode "a" "class" "r2")
    (by decide) (by decide) (by decide)
  exact absurd hh (by decide)

/-- C3 (amended): a struct node always compares less than a class node and a
class node never compares less than a struct node, regardless of either name;
the case-insensitive name order only applies between two nodes of the same
kind.  The claimed concrete sort is nevertheless correct: sorting
`[Class("Foo"), Struct("Foo")]` yields `[Struct("Foo"), Class("Foo")]`. -/
theorem C3_amended :
    (∀ a b : Node, a.kind = "struct" → b.kind = "class" →
      nodeLt a b = true ∧ nodeLt b a = false) ∧
    (∀ a b : Node, a.kind = b.kind →
      nodeLt a b = pyStrLt (pyLower a.name) (pyLower b.name)) ∧
    (pySort nodeLt [mkNode "Foo" "class" "c1", mkNode "Foo" "struct" "s1"]
      = [mkNode "Foo" "struct" "s1", mkNode "Foo" "class" "c1"]) := by
  refine ⟨?_, ?_, by decide⟩
  · intro a b ha hb
    constructor <;> simp [nodeLt, ha, hb]
  · intro a b h
    simp [nodeLt, h]

/-- C3 witness: struct-before-class evaluated on names in the opposite
alphabetical order. -/
theorem C3_witness :
    nodeLt (mkNode "Zeta" "struct" "s1") (mkNode "Alpha" "class" "c1") = true ∧
    nodeLt (mkNode "Alpha" "class" "c1") (mkNode "Zeta" "struct" "s1") = false :=
  C3_amended.1 (mkNode "Zeta" "struct" "s1") (mkNode "Alpha" "class" "c1") rfl rfl

theorem getNode_pushNode_self (r : Root) (n : Node) :
    getNode (pushNode r n) r.nodes.length = n := by
  simp [getNode, pushNode, List.getD_append_right]

theorem getNode_pushNode_lt (r : Root) (n : Node) (i : Nat) (h : i < r.nodes.length) :
    getNode (pushNode r n) i = getNode r i := by
  simp only [getNode, pushNode, List.getD, List.get?_eq_getElem?]
  rw [List.getElem?_append_left h]

theorem getNode_setNode_self (r : Root) (i : Nat) (n : Node) (h : i < r.nodes.length) :
    getNode (setNode r i n) i = n := by
  simp only [getNode, setNode, List.getD, List.get?_eq_getElem?]
  rw [List.getElem?_set_self]
  · simp
  · exact h

theorem getNode_setNode_ne (r : Root) (i j : Nat) (n : Node) (h : j ≠ i) :
    getNode (setNode r i n) j = getNode r j := by
  simp only [getNode, setNode, List.getD, List.get?_eq_getElem?]
  rw [List.getElem?_set_ne]
  exact fun hh => h hh.symm

theorem nodes_length_setNode (r : Root) (i : Nat) (n : Node) :
    (setNode r i n).nodes.length = r.nodes.length := by
  simp [setNode]

theorem nodes_length_pushNode (r : Root) (n : Node) :
    (pushNode r n).nodes.length = r.nodes.length + 1 := by
  simp [pushNode]

theorem addByKind_nodes (r : Root) (k : String) (i : Nat) :
    (addByKind r k i).nodes = r.nodes := by
  unfold addByKind
  simp [apply_ite Root.nodes]

theorem addByKind_all_nodes (r : Root) (k : String) (i : Nat) :
    (addByKind r k i).all_nodes = r.all_nodes := by
  unfold addByKind
  simp [apply_ite Root.all_nodes]

theorem addByKind_node_by_refid (r : Root) (k : String) (i : Nat) :
    (addByKind r k i).node_by_refid = r.node_by_refid := by
  unfold addByKind
  simp [apply_ite Root.node_by_refid]

theorem trackNodeIfUnseen_nodes (r : Root) (i : Nat) :
    (trackNodeIfUnseen r i).nodes = r.nodes := by
  unfold trackNodeIfUnseen
  split
  · rfl
  · rw [addByKind_nodes]
    rfl

theorem trackNodeIfUnseen_all_nodes_of_not_mem (r : Root) (i : Nat) (h : i ∉ r.all_nodes) :
    (trackNodeIfUnseen r i).all_nodes = r.all_nodes ++ [i] := by
  unfold trackNodeIfUnseen
  rw [if_neg h, addByKind_all_nodes]
  rfl

theorem trackNodeIfUnseen_refid_of_not_mem (r : Root) (i : Nat) (h : i ∉ r.all_nodes) :
    (trackNodeIfUnseen r i).node_by_refid
      = dictInsert r.node_by_refid (getNode r i).refid i := by
  unfold trackNodeIfUnseen
  rw [if_neg h, addByKind_node_by_refid]
  rfl

theorem dictLookup_dictInsert_self (d : List (String × Nat)) (k : String) (v : Nat) :
    dictLookup (dictInsert d k v) k = some v := by
  induction d with
  | nil => simp [dictInsert, dictLookup, List.find?]
  | cons p rest ih =>
    by_cases h : p.1 == k
    · cases p
      simp_all [dictInsert, dictLookup, List.find?]
    · cases p
      simp only at h
      simp_all [dictInsert, dictLookup, List.find?, h]

theorem getNode_trackNodeIfUnseen (r : Root) (j i : Nat) :
    getNode (trackNodeIfUnseen r j) i = getNode r i := by
  unfold getNode
  rw [trackNodeIfUnseen_nodes]

theorem all_nodes_setNode (r : Root) (i : Nat) (n : Node) :
    (setNode r i n).all_nodes = r.all_nodes := rfl

theorem all_nodes_modifyNode (r : Root) (i : Nat) (f : Node → Node) :
    (modifyNode r i f).all_nodes = r.all_nodes := rfl

theorem nodes_length_modifyNode (r : Root) (i : Nat) (f : Node → Node) :
    (modifyNode r i f).nodes.length = r.nodes.length := nodes_length_setNode _ _ _

theorem getNode_modifyNode_self (r : Root) (i : Nat) (f : Node → Node)
    (h : i < r.nodes.length) : getNode (modifyNode r i f) i = f (getNode r i) :=
  getNode_setNode_self _ _ _ h

theorem getNode_modifyNode_ne (r : Root) (i j : Nat) (f : Node → Node)
    (h : j ≠ i) : getNode (modifyNode r i f) j = getNode r j :=
  getNode_setNode_ne _ _ _ _ h

theorem all_nodes_appendChild (r : Root) (p c : Nat) :
    (appendChild r p c).all_nodes = r.all_nodes := rfl

theorem all_nodes_setParent (r : Root) (i : Nat) (p : Option Nat) :
    (setParent r i p).all_nodes = r.all_nodes := rfl

theorem all_nodes_setDefInFile (r : Root) (i : Nat) (p : Option Nat) :
    (setDefInFile r i p).all_nodes = r.all_nodes := rfl

theorem nodes_length_appendChild (r : Root) (p c : Nat) :
    (appendChild r p c).nodes.length = r.nodes.length := nodes_length_setNode _ _ _

theorem nodes_length_setParent (r : Root) (i : Nat) (p : Option Nat) :
    (setParent r i p).nodes.length = r.nodes.length := nodes_length_setNode _ _ _

theorem nodes_length_setDefInFile (r : Root) (i : Nat) (p : Option Nat) :
    (setDefInFile r i p).nodes.length = r.nodes.length := nodes_length_setNode _ _ _

theorem getNode_appendChild_self (r : Root) (p c : Nat) (h : p < r.nodes.length) :
    getNode (appendChild r p c) p
      = { getNode r p with children := (getNode r p).children ++ [c] } :=
  getNode_modifyNode_self _ _ _ h

theorem getNode_appendChild_ne (r : Root) (p c j : Nat) (h : j ≠ p) :
    getNode (appendChild r p c) j = getNode r j :=
  getNode_modifyNode_ne _ _ _ _ h

theorem getNode_setParent_self (r : Root) (i : Nat) (p : Option Nat)
    (h : i < r.nodes.length) :
    getNode (setParent r i p) i = { getNode r i with parent := p } :=
  getNode_modifyNode_self _ _ _ h

theorem getNode_setParent_ne (r : Root) (i : Nat) (p : Option Nat) (j : Nat) (h : j ≠ i) :
    getNode (setParent r i p) j = getNode r j :=
  getNode_modifyNode_ne _ _ _ _ h

theorem getNode_setDefInFile_self (r : Root) (i : Nat) (p : Option Nat)
    (h : i < r.nodes.length) :
    getNode (setDefInFile r i p) i = { getNode r i with def_in_file := p } :=
  getNode_modifyNode_self _ _ _ h

theorem getNode_setDefInFile_ne (r : Root) (i : Nat) (p : Option Nat) (j : Nat) (h : j ≠ i) :
    getNode (setDefInFile r i p) j = getNode r j :=
  getNode_modifyNode_ne _ _ _ _ h

/-- C1 counterexample: two index compounds with the same refid `r1` produce
two distinct registered nodes that share that refid.  `trackNodeIfUnseen`'s
membership test compares object identity and every call site passes a freshly
constructed node, so the "unseen" guard never suppresses a registration. -/
theorem C1_counterexample :
    ¬ (∀ idx : List Compound,
        ∀ i ∈ (discoverIndex emptyRoot idx).all_nodes,
        ∀ j ∈ (discoverIndex emptyRoot idx).all_nodes,
        i ≠ j →
        (getNode (discoverIndex emptyRoot idx) i).refid
          ≠ (getNode (discoverIndex emptyRoot idx) j).refid) := by
  intro h
  exact h [⟨"A", "class", "r1", []⟩, ⟨"B", "class", "r1", []⟩]
    0 (by decide) 1 (by decide) (by decide) (by decide)

/-- C1 (amended): registering a freshly created node always appends it to
`all_nodes`, even when its refid was already seen — so `all_nodes` can hold
two distinct nodes with one refid — while `node_by_refid` always maps the
refid to the most recently registered node. -/
theorem C1_amended (r : Root) (n : Node) (h : idsValid r) :
    r.nodes.length ∈ (trackNodeIfUnseen (pushNode r n) r.nodes.length).all_nodes ∧
    dictLookup (trackNodeIfUnseen (pushNode r n) r.nodes.length).node_by_refid n.refid
      = some r.nodes.length := by
  have hpush : (pushNode r n).all_nodes = r.all_nodes := rfl
  have hmem : r.nodes.length ∉ (pushNode r n).all_nodes := by
    rw [hpush]
    intro hm
    exact absurd (h _ hm) (Nat.lt_irrefl _)
  constructor
  · rw [trackNodeIfUnseen_all_nodes_of_not_mem _ _ hmem, hpush]
    simp
  · rw [trackNodeIfUnseen_refid_of_not_mem _ _ hmem, getNode_pushNode_self]
    exact dictLookup_dictInsert_self _ _ _

/-- C1 witness: registering a second node with the already-seen refid `r1`. -/
theorem C1_witness :
    c1WitnessRoot.nodes.length
      ∈ (trackNodeIfUnseen (pushNode c1WitnessRoot (mkNode "B" "class" "r1"))
          c1WitnessRoot.nodes.length).all_nodes ∧
    dictLookup (trackNodeIfUnseen (pushNode c1WitnessRoot (mkNode "B" "class" "r1"))
          c1WitnessRoot.nodes.length).node_by_refid (mkNode "B" "class" "r1").refid
      = some c1WitnessRoot.nodes.length :=
  C1_amended c1WitnessRoot (mkNode "B" "class" "r1") (by decide)

/-- C5 counterexample: an enumvalue member of a namespace compound does have
its `parent` set by the Discovery pass — the member loop links every member
kind uniformly, contradicting the claim that enumvalues stay unlinked. -/
theorem C5_counterexample :
    ¬ (∀ idx : List Compound,
        ∀ i ∈ (discoverIndex emptyRoot idx).all_nodes,
        (getNode (discoverIndex emptyRoot idx) i).kind = "enumvalue" →
        (getNode (discoverIndex emptyRoot idx) i).parent = none) := by
  intro h
  have hh := h c5Index 1 (by decide) (by decide)
  exact absurd hh (by decide)

/-- C5 (amended): the member loop of the Discovery pass registers every member
— enumvalues included — and links it structurally exactly like any other
member: the member is appended to the owner's `children`; a namespace owner
becomes its `parent`; a non-namespace (file) owner becomes its `def_in_file`
and leaves `parent` unset. -/
theorem C5_amended (r : Root) (cid : Nat) (ckind : String) (m : Member)
    (hv : idsValid r) (hcid : cid < r.nodes.length) :
    r.nodes.length ∈ (discoverMember ckind cid r m).all_nodes ∧
    r.nodes.length ∈ (getNode (discoverMember ckind cid r m) cid).children ∧
    (ckind = "namespace" →
      (getNode (discoverMember ckind cid r m) r.nodes.length).parent = some cid) ∧
    (ckind ≠ "namespace" →
      (getNode (discoverMember ckind cid r m) r.nodes.length).def_in_file = some cid ∧
      (getNode (discoverMember ckind cid r m) r.nodes.length).parent = none) := by
  have hne : cid ≠ r.nodes.length := Nat.ne_of_lt hcid
  have hmem : r.nodes.length ∉ (pushNode r (mkNode m.name m.kind m.refid)).all_nodes := by
    intro hm
    exact absurd (hv _ hm) (Nat.lt_irrefl _)
  have h2all : (trackNodeIfUnseen (pushNode r (mkNode m.name m.kind m.refid))
      r.nodes.length).all_nodes = r.all_nodes ++ [r.nodes.length] :=
    trackNodeIfUnseen_all_nodes_of_not_mem _ _ hmem
  have h2len : (trackNodeIfUnseen (pushNode r (mkNode m.name m.kind m.refid))
      r.nodes.length).nodes.length = r.nodes.length + 1 := by
    rw [trackNodeIfUnseen_nodes, nodes_length_pushNode]
  have h2mid : getNode (trackNodeIfUnseen (pushNode r (mkNode m.name m.kind m.refid))
      r.nodes.length) r.nodes.length = mkNode m.name m.kind m.refid := by
    rw [getNode_trackNodeIfUnseen, getNode_pushNode_self]
  have h2cid : getNode (trackNodeIfUnseen (pushNode r (mkNode m.name m.kind m.refid))
      r.nodes.length) cid = getNode r cid := by
    rw [getNode_trackNodeIfUnseen, getNode_pushNode_lt _ _ _ hcid]
  simp only [discoverMember]
  by_cases hck : ckind = "namespace"
  · rw [if_pos (by simp [hck])]
    refine ⟨?_, ?_, fun _ => ?_, fun hc => absurd hck hc⟩
    · rw [all_nodes_appendChild, all_nodes_setParent, h2all]
      simp
    · rw [getNode_appendChild_self]
      · simp
      · rw [nodes_length_setParent, h2len]
        exact Nat.lt_succ_of_lt hcid
    · rw [getNode_appendChild_ne _ _ _ _ hne.symm, getNode_setParent_self, h2mid]
      rw [h2len]
      exact Nat.lt_succ_self _
  · rw [if_neg (by simp [hck])]
    refine ⟨?_, ?_, fun hc => absurd hc hck, fun _ => ?_⟩
    · rw [all_nodes_appendChild, all_nodes_setDefInFile, h2all]
      simp
    · rw [getNode_appendChild_self]
      · simp
      · rw [nodes_length_setDefInFile, h2len]
        exact Nat.lt_succ_of_lt hcid
    · rw [getNode_appendChild_ne _ _ _ _ hne.symm, getNode_setDefInFile_self, h2mid]
      · constructor <;> rfl
      · rw [h2len]
        exact Nat.lt_succ_self _

/-- C5 witness: an enumvalue member registered under a namespace owner. -/
theorem C5_witness :
    c5WitnessRoot.nodes.length
      ∈ (discoverMember "namespace" 0 c5WitnessRoot ⟨"ns::E::A", "enumvalue", "r1"⟩).all_nodes ∧
    c5WitnessRoot.nodes.length
      ∈ (getNode (discoverMember "namespace" 0 c5WitnessRoot ⟨"ns::E::A", "enumvalue", "r1"⟩)
          0).children ∧
    ("namespace" = "namespace" →
      (getNode (discoverMember "namespace" 0 c5WitnessRoot ⟨"ns::E::A", "enumvalue", "r1"⟩)
        c5WitnessRoot.nodes.length).parent = some 0) ∧
    ("namespace" ≠ "namespace" →
      (getNode (discoverMember "namespace" 0 c5WitnessRoot ⟨"ns::E::A", "enumvalue", "r1"⟩)
        c5WitnessRoot.nodes.length).def_in_file = some 0 ∧
      (getNode (discoverMember "namespace" 0 c5WitnessRoot ⟨"ns::E::A", "enumvalue", "r1"⟩)
        c5WitnessRoot.nodes.length).parent = none) :=
  C5_amended c5WitnessRoot 0 "namespace" ⟨"ns::E::A", "enumvalue", "r1"⟩ (by decide) (by decide)

theorem getNode_setNodeName_self (r : Root) (i : Nat) (s : String)
    (h : i < r.nodes.length) :
    getNode (setNodeName r i s) i = { getNode r i with name := s } :=
  getNode_modifyNode_self _ _ _ h

theorem nodes_length_renameChild (p : String) (r : Root) (c : Nat) :
    (renameChild p r c).nodes.length = r.nodes.length := by
  unfold renameChild
  split
  · rfl
  · exact nodes_length_modifyNode _ _ _

theorem getNode_renameChild_ne (p : String) (r : Root) (c j : Nat) (h : j ≠ c) :
    getNode (renameChild p r c) j = getNode r j := by
  unfold renameChild
  split
  · rfl
  · exact getNode_modifyNode_ne _ _ _ _ h

theorem getNode_renameChild_self (p : String) (r : Root) (c : Nat)
    (h : c < r.nodes.length) :
    getNode (renameChild p r c) c
      = { getNode r c with
          name := if pyInStr p (getNode r c).name then (getNode r c).name
                  else p ++ (getNode r c).name } := by
  by_cases hcond : pyInStr p (getNode r c).name = true
  · rw [renameChild, if_pos hcond, if_pos hcond]
  · rw [renameChild, if_neg hcond, if_neg hcond, getNode_setNodeName_self _ _ _ h]

theorem nodes_length_renameFold (p : String) (l : List Nat) (r : Root) :
    (l.foldl (renameChild p) r).nodes.length = r.nodes.length := by
  induction l generalizing r with
  | nil => rfl
  | cons c rest ih =>
    rw [List.foldl_cons, ih, nodes_length_renameChild]

/-- Effect of one namespace's child-rename loop: every child's node keeps all
fields except the name, which gains the prefix exactly when the prefix did not
already occur in it; every non-child node is untouched. -/
theorem renameFold_spec (p : String) (l : List Nat) (r : Root)
    (hnd : l.Nodup) (hv : ∀ c ∈ l, c < r.nodes.length) :
    (∀ j, j ∉ l → getNode (l.foldl (renameChild p) r) j = getNode r j) ∧
    (∀ c ∈ l, getNode (l.foldl (renameChild p) r) c
      = { getNode r c with
          name := if pyInStr p (getNode r c).name then (getNode r c).name
                  else p ++ (getNode r c).name }) := by
  induction l generalizing r with
  | nil => exact ⟨fun j _ => rfl, fun c hc => absurd hc (List.not_mem_nil c)⟩
  | cons c0 rest ih =>
    have hnd0 : c0 ∉ rest := (List.nodup_cons.mp hnd).1
    have hndr : rest.Nodup := (List.nodup_cons.mp hnd).2
    have hv0 : c0 < r.nodes.length := hv c0 (List.mem_cons_self _ _)
    have hvr : ∀ c ∈ rest, c < (renameChild p r c0).nodes.length := by
      intro c hc
      rw [nodes_length_renameChild]
      exact hv c (List.mem_cons_of_mem _ hc)
    obtain ⟨ihf, ihm⟩ := ih (renameChild p r c0) hndr hvr
    rw [List.foldl_cons]
    constructor
    · intro j hj
      have hj0 : j ≠ c0 := fun hh => hj (hh ▸ List.mem_cons_self _ _)
      have hjr : j ∉ rest := fun hh => hj (List.mem_cons_of_mem _ hh)
      rw [ihf j hjr, getNode_renameChild_ne _ _ _ _ hj0]
    · intro c hc
      rcases List.mem_cons.mp hc with hc0 | hcr
      · subst hc0
        rw [ihf c hnd0, getNode_renameChild_self _ _ _ hv0]
      · have hne : c ≠ c0 := fun hh => hnd0 (by rw [← hh]; exact hcr)
        rw [ihm c hcr, getNode_renameChild_ne _ _ _ _ hne]

/-- Effect of the whole renaming pass on a family of namespaces whose child
sets are disjoint, duplicate-free, and do not contain any of the namespaces
themselves: every namespace child's name gains its owner's prefix exactly when
the prefix did not already occur as a substring, everything else is untouched. -/
theorem renamePass_spec (ns : List Nat) (r : Root)
    (hnodupns : ns.Nodup)
    (hvalid : ∀ n ∈ ns, ∀ c ∈ (getNode r n).children, c < r.nodes.length)
    (hndchild : ∀ n ∈ ns, (getNode r n).children.Nodup)
    (hdisj : ∀ n1 ∈ ns, ∀ n2 ∈ ns, n1 ≠ n2 →
      ∀ c ∈ (getNode r n1).children, c ∉ (getNode r n2).children)
    (hnotchild : ∀ n ∈ ns, ∀ p ∈ ns, n ∉ (getNode r p).children) :
    (∀ j, (∀ n ∈ ns, j ∉ (getNode r n).children) →
      getNode (ns.foldl renameNamespaceChildren r) j = getNode r j) ∧
    (∀ n ∈ ns, ∀ c ∈ (getNode r n).children,
      getNode (ns.foldl renameNamespaceChildren r) c
        = { getNode r c with
            name := if pyInStr ((getNode r n).name ++ "::") (getNode r c).name
                    then (getNode r c).name
                    else ((getNode r n).name ++ "::") ++ (getNode r c).name }) := by
  induction ns generalizing r with
  | nil => exact ⟨fun j _ => rfl, fun n hn => absurd hn (List.not_mem_nil n)⟩
  | cons m0 rest ih =>
    have hmrest : m0 ∉ rest := (List.nodup_cons.mp hnodupns).1
    have hndrest : rest.Nodup := (List.nodup_cons.mp hnodupns).2
    have hmem : m0 ∈ m0 :: rest := List.mem_cons_self _ _
    obtain ⟨f1, m1⟩ := renameFold_spec ((getNode r m0).name ++ "::")
      (getNode r m0).children r (hndchild m0 hmem) (hvalid m0 hmem)
    have hr1 : ∀ n ∈ rest, getNode (renameNamespaceChildren r m0) n = getNode r n := by
      intro n hn
      rw [renameNamespaceChildren]
      exact f1 n (hnotchild n (List.mem_cons_of_mem _ hn) m0 hmem)
    have hlen1 : (renameNamespaceChildren r m0).nodes.length = r.nodes.length := by
      rw [renameNamespaceChildren]
      exact nodes_length_renameFold _ _ _
    have hvalid1 : ∀ n ∈ rest, ∀ c ∈ (getNode (renameNamespaceChildren r m0) n).children,
        c < (renameNamespaceChildren r m0).nodes.length := by
      intro n hn c hc
      rw [hr1 n hn] at hc
      rw [hlen1]
      exact hvalid n (List.mem_cons_of_mem _ hn) c hc
    have hndchild1 : ∀ n ∈ rest, (getNode (renameNamespaceChildren r m0) n).children.Nodup := by
      intro n hn
      rw [hr1 n hn]
      exact hndchild n (List.mem_cons_of_mem _ hn)
    have hdisj1 : ∀ n1 ∈ rest, ∀ n2 ∈ rest, n1 ≠ n2 →
        ∀ c ∈ (getNode (renameNamespaceChildren r m0) n1).children,
        c ∉ (getNode (renameNamespaceChildren r m0) n2).children := by
      intro n1 h1 n2 h2 hne c hc
      rw [hr1 n1 h1] at hc
      rw [hr1 n2 h2]
      exact hdisj n1 (List.mem_cons_of_mem _ h1) n2 (List.mem_cons_of_mem _ h2) hne c hc
    have hnotchild1 : ∀ n ∈ rest, ∀ p ∈ rest,
        n ∉ (getNode (renameNamespaceChildren r m0) p).children := by
      intro n hn p hp
      rw [hr1 p hp]
      exact hnotchild n (List.mem_cons_of_mem _ hn) p (List.mem_cons_of_mem _ hp)
    obtain ⟨ihf, ihm⟩ := ih (renameNamespaceChildren r m0) hndrest hvalid1 hndchild1 hdisj1 hnotchild1
    rw [List.foldl_cons]
    constructor
    · intro j hj
      have hjrest : ∀ n ∈ rest, j ∉ (getNode (renameNamespaceChildren r m0) n).children := by
        intro n hn
        rw [hr1 n hn]
        exact hj n (List.mem_cons_of_mem _ hn)
      rw [ihf j hjrest, renameNamespaceChildren]
      exact f1 j (hj m0 hmem)
    · intro n hn c hc
      rcases List.mem_cons.mp hn with hnm | hnr
      · subst hnm
        have hcnotrest : ∀ p ∈ rest, c ∉ (getNode (renameNamespaceChildren r n) p).children := by
          intro p hp
          rw [hr1 p hp]
          exact hdisj n hmem p (List.mem_cons_of_mem _ hp)
            (fun hh => hmrest (hh ▸ hp)) c hc
        rw [ihf c hcnotrest, renameNamespaceChildren]
        exact m1 c hc
      · have hnm : n ≠ m0 := fun hh => hmrest (hh ▸ hnr)
        have hc1 : c ∈ (getNode (renameNamespaceChildren r m0) n).children := by
          rw [hr1 n hnr]
          exact hc
        have hcm : getNode (renameNamespaceChildren r m0) c = getNode r c := by
          rw [renameNamespaceChildren]
          exact f1 c (hdisj n hn m0 hmem hnm c hc)
        rw [ihm n hnr c hc1, hcm, hr1 n hnr]

/-- C6 counterexample: namespace `A` has a child named `B::A::C`.  The name
does not begin with `A::`, so the claim requires the prefix to be prepended;
but the code tests substring containment (`not in`), finds `A::` inside the
name, and leaves it unchanged. -/
theorem C6_counterexample :
    ¬ (∀ r : Root, ∀ n ∈ r.namespaces, ∀ c ∈ (getNode r n).children,
        (getNode (renameToNamespaceScopes r) c).name =
          (if ((getNode r n).name ++ "::").data.isPrefixOf (getNode r c).name.data
           then (getNode r c).name
           else ((getNode r n).name ++ "::") ++ (getNode r c).name)) := by
  intro h
  have hh := h c6Root 0 (by decide) 1 (by decide)
  exact absurd hh (by decide)

/-- C6 (amended): after the renaming pass — on a registry whose namespace
collection is duplicate-free with duplicate-free, pairwise-disjoint child
lists that contain no namespace of the collection (so no owner name shifts
mid-pass) — each direct child of each namespace has the prefix `name::`
prepended exactly when that prefix did not already occur as a substring of
the child's name; a child whose name contains the prefix anywhere (not just
as a leading prefix) is left unchanged. -/
theorem C6_amended (r : Root)
    (hnodupns : r.namespaces.Nodup)
    (hvalid : ∀ n ∈ r.namespaces, ∀ c ∈ (getNode r n).children, c < r.nodes.length)
    (hndchild : ∀ n ∈ r.namespaces, (getNode r n).children.Nodup)
    (hdisj : ∀ n1 ∈ r.namespaces, ∀ n2 ∈ r.namespaces, n1 ≠ n2 →
      ∀ c ∈ (getNode r n1).children, c ∉ (getNode r n2).children)
    (hnotchild : ∀ n ∈ r.namespaces, ∀ p ∈ r.namespaces, n ∉ (getNode r p).children) :
    ∀ n ∈ r.namespaces, ∀ c ∈ (getNode r n).children,
      (getNode (renameToNamespaceScopes r) c).name =
        if pyInStr ((getNode r n).name ++ "::") (getNode r c).name then (getNode r c).name
        else ((getNode r n).name ++ "::") ++ (getNode r c).name := by
  intro n hn c hc
  rw [renameToNamespaceScopes,
    (renamePass_spec r.namespaces r hnodupns hvalid hndchild hdisj hnotchild).2 n hn c hc]

/-- C6 witness: namespace `A` with child `MAX`, renamed to `A::MAX`. -/
theorem C6_witness :
    (getNode (renameToNamespaceScopes c6WitnessRoot) 1).name =
      (if pyInStr ((getNode c6WitnessRoot 0).name ++ "::") (getNode c6WitnessRoot 1).name
       then (getNode c6WitnessRoot 1).name
       else ((getNode c6WitnessRoot 0).name ++ "::") ++ (getNode c6WitnessRoot 1).name) :=
  C6_amended c6WitnessRoot (by decide) (by decide) (by decide) (by decide) (by decide)
    0 (by decide) 1 (by decide)

theorem checkChildStep_name (fid : Nat) (acc : Root × List (String × String × String))
    (cid i : Nat) : (getNode (checkChildStep fid acc cid).1 i).name = (getNode acc.1 i).name := by
  unfold checkChildStep
  split
  · by_cases hi : i = cid
    · subst hi
      by_cases hlt : i < acc.1.nodes.length
      · rw [getNode_setDefInFile_self _ _ _ hlt]
      · unfold setDefInFile modifyNode setNode getNode
        rw [List.set_eq_of_length_le (Nat.le_of_not_lt hlt)]
    · rw [getNode_setDefInFile_ne _ _ _ _ hi]
  · split <;> rfl

theorem checkChildStep_children (fid : Nat) (acc : Root × List (String × String × String))
    (cid i : Nat) :
    (getNode (checkChildStep fid acc cid).1 i).children = (getNode acc.1 i).children := by
  unfold checkChildStep
  split
  · by_cases hi : i = cid
    · subst hi
      by_cases hlt : i < acc.1.nodes.length
      · rw [getNode_setDefInFile_self _ _ _ hlt]
      · unfold setDefInFile modifyNode setNode getNode
        rw [List.set_eq_of_length_le (Nat.le_of_not_lt hlt)]
    · rw [getNode_setDefInFile_ne _ _ _ _ hi]
  · split <;> rfl

theorem checkChildStep_files (fid : Nat) (acc : Root × List (String × String × String))
    (cid : Nat) : (checkChildStep fid acc cid).1.files = acc.1.files := by
  unfold checkChildStep
  split
  · rfl
  · split <;> rfl

theorem checkChildStep_def_preserved (fid : Nat) (acc : Root × List (String × String × String))
    (cid i g : Nat) (h : (getNode acc.1 i).def_in_file = some g) :
    (getNode (checkChildStep fid acc cid).1 i).def_in_file = some g := by
  unfold checkChildStep
  split
  · by_cases hi : i = cid
    · subst hi
      simp_all
    · rw [getNode_setDefInFile_ne _ _ _ _ hi]
      exact h
  · split
    · exact h
    · exact h

theorem checkChildStep_diag_mono (fid : Nat) (acc : Root × List (String × String × String))
    (cid : Nat) (d : String × String × String) (h : d ∈ acc.2) :
    d ∈ (checkChildStep fid acc cid).2 := by
  unfold checkChildStep
  split
  · exact h
  · split
    · exact List.mem_append_left _ h
    · exact h

/-- Inner-loop invariants of the consistency check: names, children and files
are untouched; a set `def_in_file` is never overwritten; diagnostics only
accumulate; and each child already assigned to a different file yields its
conflict diagnostic. -/
theorem checkFold_spec (fid : Nat) (cs : List Nat)
    (acc : Root × List (String × String × String)) :
    (∀ i, (getNode (cs.foldl (checkChildStep fid) acc).1 i).name = (getNode acc.1 i).name) ∧
    (∀ i, (getNode (cs.foldl (checkChildStep fid) acc).1 i).children
      = (getNode acc.1 i).children) ∧
    ((cs.foldl (checkChildStep fid) acc).1.files = acc.1.files) ∧
    (∀ i g, (getNode acc.1 i).def_in_file = some g →
      (getNode (cs.foldl (checkChildStep fid) acc).1 i).def_in_file = some g) ∧
    (∀ d ∈ acc.2, d ∈ (cs.foldl (checkChildStep fid) acc).2) ∧
    (∀ cid ∈ cs, ∀ g, (getNode acc.1 cid).def_in_file = some g → g ≠ fid →
      ((getNode acc.1 cid).name, (getNode acc.1 g).name, (getNode acc.1 fid).name)
        ∈ (cs.foldl (checkChildStep fid) acc).2) := by
  induction cs generalizing acc with
  | nil =>
    exact ⟨fun i => rfl, fun i => rfl, rfl, fun i g h => h, fun d h => h,
      fun cid h => absurd h (List.not_mem_nil cid)⟩
  | cons c0 rest ih =>
    obtain ⟨ihn, ihc, ihfl, ihd, ihm, ihconf⟩ := ih (checkChildStep fid acc c0)
    rw [List.foldl_cons]
    refine ⟨?_, ?_, ?_, ?_, ?_, ?_⟩
    · intro i
      rw [ihn i, checkChildStep_name]
    · intro i
      rw [ihc i, checkChildStep_children]
    · rw [ihfl, checkChildStep_files]
    · intro i g h
      exact ihd i g (checkChildStep_def_preserved _ _ _ _ _ h)
    · intro d hd
      exact ihm d (checkChildStep_diag_mono _ _ _ _ hd)
    · intro cid hcid g hg hne
      rcases List.mem_cons.mp hcid with hc0 | hcr
      · subst hc0
        have hstep : (checkChildStep fid acc cid).2
            = acc.2 ++ [((getNode acc.1 cid).name, (getNode acc.1 g).name,
                (getNode acc.1 fid).name)] := by
          unfold checkChildStep
          rw [hg]
          simp [hne]
        have hmem : ((getNode acc.1 cid).name, (getNode acc.1 g).name,
            (getNode acc.1 fid).name) ∈ (checkChildStep fid acc cid).2 := by
          rw [hstep]
          simp
        exact ihm _ hmem
      · have hg1 : (getNode (checkChildStep fid acc c0).1 cid).def_in_file = some g :=
          checkChildStep_def_preserved _ _ _ _ _ hg
        have := ihconf cid hcr g hg1 hne
        rwa [checkChildStep_name, checkChildStep_name, checkChildStep_name] at this

/-- Outer-loop invariants of the consistency check, mirroring
`checkFold_spec` over the file list. -/
theorem consistencyFold_spec (fs : List Nat)
    (acc : Root × List (String × String × String)) :
    (∀ i, (getNode (fs.foldl checkFileChildren acc).1 i).name = (getNode acc.1 i).name) ∧
    (∀ i, (getNode (fs.foldl checkFileChildren acc).1 i).children
      = (getNode acc.1 i).children) ∧
    (∀ i g, (getNode acc.1 i).def_in_file = some g →
      (getNode (fs.foldl checkFileChildren acc).1 i).def_in_file = some g) ∧
    (∀ d ∈ acc.2, d ∈ (fs.foldl checkFileChildren acc).2) ∧
    (∀ fid ∈ fs, ∀ cid ∈ (getNode acc.1 fid).children, ∀ g,
      (getNode acc.1 cid).def_in_file = some g → g ≠ fid →
      ((getNode acc.1 cid).name, (getNode acc.1 g).name, (getNode acc.1 fid).name)
        ∈ (fs.foldl checkFileChildren acc).2) := by
  induction fs generalizing acc with
  | nil =>
    exact ⟨fun i => rfl, fun i => rfl, fun i g h => h, fun d h => h,
      fun fid h => absurd h (List.not_mem_nil fid)⟩
  | cons f0 rest ih =>
    obtain ⟨sn, sc, sfl, sd, sm, sconf⟩ := checkFold_spec f0 (getNode acc.1 f0).children acc
    obtain ⟨ihn, ihc, ihd, ihm, ihconf⟩ := ih (checkFileChildren acc f0)
    rw [List.foldl_cons]
    refine ⟨?_, ?_, ?_, ?_, ?_⟩
    · intro i
      rw [ihn i]
      exact sn i
    · intro i
      rw [ihc i]
      exact sc i
    · intro i g h
      exact ihd i g (sd i g h)
    · intro d hd
      exact ihm d (sm d hd)
    · intro fid hfid cid hcid g hg hne
      rcases List.mem_cons.mp hfid with hf0 | hfr
      · subst hf0
        exact ihm _ (sconf cid hcid g hg hne)
      · have hcid1 : cid ∈ (getNode (checkFileChildren acc f0).1 fid).children := by
          show cid ∈ (getNode ((getNode acc.1 f0).children.foldl (checkChildStep f0) acc).1 fid).children
          rw [sc fid]
          exact hcid
        have hg1 : (getNode (checkFileChildren acc f0).1 cid).def_in_file = some g := sd cid g hg
        have hh := ihconf fid hfr cid hcid1 g hg1 hne
        show ((getNode acc.1 cid).name, (getNode acc.1 g).name, (getNode acc.1 fid).name)
          ∈ (rest.foldl checkFileChildren (checkFileChildren acc f0)).2
        have e1 : (getNode (checkFileChildren acc f0).1 cid).name = (getNode acc.1 cid).name := sn cid
        have e2 : (getNode (checkFileChildren acc f0).1 g).name = (getNode acc.1 g).name := sn g
        have e3 : (getNode (checkFileChildren acc f0).1 fid).name = (getNode acc.1 fid).name := sn fid
        rw [e1, e2, e3] at hh
        exact hh

/-- C9 (confirmed): in the file-children consistency check, a child with unset
`def_in_file` gets it set to the current file; a child already assigned to a
different file keeps its assignment — across the whole pass, a set
`def_in_file` is never overwritten — and the conflict diagnostic for it is
emitted; the check is a total function that only accumulates diagnostics, so
the pipeline continues rather than aborting. -/
theorem C9_conflict_atomicity :
    (∀ (r : Root) (diags : List (String × String × String)) (fid cid : Nat),
      (getNode r cid).def_in_file = none →
      checkChildStep fid (r, diags) cid = (setDefInFile r cid (some fid), diags)) ∧
    (∀ (r : Root) (diags : List (String × String × String)) (fid cid g : Nat),
      (getNode r cid).def_in_file = some g → g ≠ fid →
      checkChildStep fid (r, diags) cid
        = (r, diags ++ [((getNode r cid).name, (getNode r g).name, (getNode r fid).name)])) ∧
    (∀ (r : Root) (i g : Nat), (getNode r i).def_in_file = some g →
      (getNode (fileDefConsistency r).1 i).def_in_file = some g) ∧
    (∀ (r : Root), ∀ fid ∈ r.files, ∀ cid ∈ (getNode r fid).children, ∀ g : Nat,
      (getNode r cid).def_in_file = some g → g ≠ fid →
      ((getNode r cid).name, (getNode r g).name, (getNode r fid).name)
        ∈ (fileDefConsistency r).2) := by
  refine ⟨?_, ?_, ?_, ?_⟩
  · intro r diags fid cid h
    unfold checkChildStep
    rw [h]
  · intro r diags fid cid g h hne
    unfold checkChildStep
    rw [h]
    simp [hne]
  · intro r i g h
    exact (consistencyFold_spec r.files (r, [])).2.2.1 i g h
  · intro r fid hf cid hc g hg hne
    exact (consistencyFold_spec r.files (r, [])).2.2.2.2 fid hf cid hc g hg hne

/-- C9 witness: the conflict diagnostic for child `y` of file `a.h`, already
defined in `b.h`, is present in the pass output. -/
theorem C9_witness :
    ((getNode c9WitnessRoot 3).name, (getNode c9WitnessRoot 1).name,
      (getNode c9WitnessRoot 0).name) ∈ (fileDefConsistency c9WitnessRoot).2 :=
  C9_conflict_atomicity.2.2.2 c9WitnessRoot 0 (by decide) 3 (by decide) 1
    (by decide) (by decide)

theorem candGet_candSet_self (c : List (String × List Nat)) (k : String) (v : List Nat) :
    candGet (candSet c k v) k = v := by
  induction c with
  | nil => simp [candSet, candGet, List.find?]
  | cons p rest ih =>
    by_cases h : p.1 == k
    · cases p
      simp_all [candSet, candGet, List.find?]
    · cases p
      simp only at h
      simp_all [candSet, candGet, List.find?, h]

theorem candGet_candSet_ne (c : List (String × List Nat)) (k k1 : String) (v : List Nat)
    (h : k1 ≠ k) : candGet (candSet c k v) k1 = candGet c k1 := by
  have hkf : (k == k1) = false := beq_eq_false_iff_ne.mpr (Ne.symm h)
  induction c with
  | nil => simp [candSet, candGet, List.find?, hkf]
  | cons p rest ih =>
    cases p with
    | mk pk pv =>
      by_cases hp : (pk == k) = true
      · have hpk : pk = k := by simpa using hp
        subst hpk
        simp only [candSet, beq_self_eq_true, if_pos]
        simp [candGet, List.find?, hkf]
      · simp only [candSet, if_neg hp]
        by_cases hk1 : (pk == k1) = true
        · simp [candGet, List.find?, hk1]
        · simp only [candGet, List.find?, hk1] at ih ⊢
          exact ih

/-- Effect of one file's reference scan on one refid's candidate list: the
file is appended once when the listing holds a member-kind reference to a
missing refid and the file is not yet a candidate. -/
theorem refFold_effect (missing : List String) (fid : Nat)
    (refs : List (String × String)) (cand : List (String × List Nat)) (k : String) :
    candGet (refs.foldl (refStep missing fid) cand) k
      = if missing.contains k
            && refs.any (fun rp => rp.2 == "member" && rp.1 == k)
            && !(candGet cand k).contains fid
        then candGet cand k ++ [fid] else candGet cand k := by
  induction refs generalizing cand with
  | nil => simp
  | cons rp rest ih =>
    rw [List.foldl_cons]
    by_cases hmem : (rp.2 == "member") = true
    · by_cases hk : (rp.1 == k) = true
      · have hk1 : rp.1 = k := by simpa using hk
        by_cases hmiss : missing.contains k = true
        · by_cases hcont : (candGet cand k).contains fid = true
          · have hstep : refStep missing fid cand rp = cand := by
              unfold refStep
              rw [if_pos hmem, if_neg]
              rw [hk1]
              simp only [hcont, Bool.not_true, Bool.and_false]
              exact Bool.false_ne_true
            rw [hstep, ih]
            simp only [hcont, Bool.not_true, Bool.and_false]
          · have hstep : refStep missing fid cand rp
                = candSet cand k (candGet cand k ++ [fid]) := by
              unfold refStep
              rw [if_pos hmem, if_pos]
              · rw [hk1]
              · rw [hk1]
                simp only [hmiss, hcont, Bool.not_false, Bool.true_and]
            have hc0 : (candGet cand k).contains fid = false := by
              simpa using hcont
            have hc2 : ((candGet cand k ++ [fid]).contains fid) = true := by simp
            have hrp : (rp.2 == "member" && rp.1 == k) = true := by
              simp [hmem, hk]
            rw [hstep, ih, candGet_candSet_self]
            rw [if_neg (by simp [hc2]), if_pos (by simp only [hmiss, List.any_cons, hrp,
              Bool.true_or, Bool.true_and, hc0, Bool.not_false])]
        · have hstep : refStep missing fid cand rp = cand := by
            unfold refStep
            rw [if_pos hmem, if_neg]
            rw [hk1]
            simp only [hmiss, Bool.false_and]
            exact Bool.false_ne_true
          rw [hstep, ih]
          simp only [hmiss, Bool.false_and]
      · have hne : k ≠ rp.1 := fun hh => by simp [hh] at hk
        have hcand : candGet (refStep missing fid cand rp) k = candGet cand k := by
          unfold refStep
          rw [if_pos hmem]
          split
          · exact candGet_candSet_ne _ _ _ _ hne
          · rfl
        rw [ih, hcand]
        have hrp : (rp.2 == "member" && rp.1 == k) = false := by
          simp [hk]
        simp only [List.any_cons, hrp, Bool.false_or]
    · have hstep : refStep missing fid cand rp = cand := by
        unfold refStep
        rw [if_neg hmem]
      rw [hstep, ih]
      have hrp : (rp.2 == "member" && rp.1 == k) = false := by
        simp [hmem]
      simp only [List.any_cons, hrp, Bool.false_or]

/-- Effect of the whole candidate-collection scan on one missing refid:
candidate files accumulate in file order, each file at most once. -/
theorem buildFold_effect (missing : List String)
    (listings : List (Nat × List (String × String)))
    (cand : List (String × List Nat)) (k : String)
    (hk : missing.contains k = true) :
    candGet (listings.foldl (fun c fl => fl.2.foldl (refStep missing fl.1) c) cand) k
      = dedupExtend (candGet cand k) (candFiles listings k) := by
  induction listings generalizing cand with
  | nil => rfl
  | cons fl rest ih =>
    rw [List.foldl_cons, ih]
    have heff := refFold_effect missing fl.1 fl.2 cand k
    by_cases hany : (fl.2.any fun rp => rp.2 == "member" && rp.1 == k) = true
    · have hcf : candFiles (fl :: rest) k = fl.1 :: candFiles rest k := by
        unfold candFiles
        rw [List.filter_cons, if_pos hany]
        rfl
      rw [hcf]
      by_cases hcont : (candGet cand k).contains fl.1 = true
      · rw [heff]
        simp only [hk, hany, hcont, Bool.not_true, Bool.and_false, Bool.true_and]
        rw [if_neg Bool.false_ne_true]
        conv_rhs => rw [dedupExtend]
        rw [if_pos hcont]
      · have hc0 : (candGet cand k).contains fl.1 = false := by simpa using hcont
        rw [heff]
        simp only [hk, hany, hc0, Bool.not_false, Bool.and_true, Bool.true_and]
        rw [if_pos trivial]
        conv_rhs => rw [dedupExtend]
        rw [if_neg (by rw [hc0]; exact Bool.false_ne_true)]
    · have hnany : (fl.2.any fun rp => rp.2 == "member" && rp.1 == k) = false := by
        simpa using hany
      have hcf : candFiles (fl :: rest) k = candFiles rest k := by
        unfold candFiles
        rw [List.filter_cons, if_neg (by simp [hnany])]
      rw [hcf, heff]
      simp only [hnany, Bool.and_false, Bool.false_and, Bool.and_true]
      rw [if_neg Bool.false_ne_true]

theorem dedupExtend_eq_append (l acc : List Nat) (hnd : l.Nodup)
    (hdisj : ∀ x ∈ l, x ∉ acc) : dedupExtend acc l = acc ++ l := by
  induction l generalizing acc with
  | nil => simp [dedupExtend]
  | cons f fs ih =>
    rw [dedupExtend, if_neg (by simpa using hdisj f (List.mem_cons_self _ _))]
    rw [ih (acc ++ [f]) (List.nodup_cons.mp hnd).2]
    · simp
    · intro x hx
      simp only [List.mem_append, List.mem_singleton]
      rintro (hxa | hxf)
      · exact hdisj x (List.mem_cons_of_mem _ hx) hxa
      · exact (List.nodup_cons.mp hnd).1 (hxf ▸ hx)

theorem candGet_init (missing : List String) (k : String) :
    candGet (missing.map (fun k1 => (k1, ([] : List Nat)))) k = [] := by
  induction missing with
  | nil => rfl
  | cons m rest ih =>
    simp only [List.map_cons, candGet, List.find?]
    by_cases h : (m == k) = true
    · simp [h]
    · simp only [h]
      exact ih

theorem assignLoop_frame (cand : List (String × List Nat)) (pairs : List (String × Nat))
    (r : Root) (j : Nat) (h : ∀ p ∈ pairs, p.2 ≠ j) :
    getNode (assignLoop cand pairs r) j = getNode r j := by
  induction pairs generalizing r with
  | nil => rfl
  | cons q rest ih =>
    rw [assignLoop, List.foldl_cons]
    have hstep : ∀ r2 : Root, getNode
        (if (candGet cand q.1).length = 1 then
          setDefInFile r2 q.2 (some ((candGet cand q.1).headD 0))
        else r2) j = getNode r2 j := by
      intro r2
      split
      · exact getNode_setDefInFile_ne _ _ _ _ (fun hh => h q (List.mem_cons_self _ _) hh.symm)
      · rfl
    rw [show (rest.foldl _ _) = assignLoop cand rest
        (if (candGet cand q.1).length = 1 then
          setDefInFile r q.2 (some ((candGet cand q.1).headD 0)) else r) from rfl]
    rw [ih _ (fun p hp => h p (List.mem_cons_of_mem _ hp)), hstep]

/-- Effect of the assignment loop on each missing node: resolved exactly when
its candidate list is a singleton, otherwise untouched. -/
theorem assignLoop_spec (cand : List (String × List Nat)) (pairs : List (String × Nat))
    (r : Root) (hnd : (pairs.map Prod.snd).Nodup)
    (hvalid : ∀ p ∈ pairs, p.2 < r.nodes.length) :
    ∀ p ∈ pairs, (getNode (assignLoop cand pairs r) p.2).def_in_file
      = if (candGet cand p.1).length = 1 then some ((candGet cand p.1).headD 0)
        else (getNode r p.2).def_in_file := by
  induction pairs generalizing r with
  | nil => exact fun p hp => absurd hp (List.not_mem_nil p)
  | cons q rest ih =>
    have hnd2 : (q.2 :: rest.map Prod.snd).Nodup := by
      rw [List.map_cons] at hnd
      exact hnd
    have hq : q.2 ∉ rest.map Prod.snd := (List.nodup_cons.mp hnd2).1
    have hndr : (rest.map Prod.snd).Nodup := (List.nodup_cons.mp hnd2).2
    intro p hp
    rw [assignLoop, List.foldl_cons]
    rw [show (rest.foldl _ _) = assignLoop cand rest
        (if (candGet cand q.1).length = 1 then
          setDefInFile r q.2 (some ((candGet cand q.1).headD 0)) else r) from rfl]
    rcases List.mem_cons.mp hp with hpq | hpr
    · subst hpq
      have hframe : ∀ p1 ∈ rest, p1.2 ≠ p.2 := by
        intro p1 h1 hh
        exact hq (hh ▸ List.mem_map_of_mem Prod.snd h1)
      rw [assignLoop_frame _ _ _ _ hframe]
      split
      · rw [getNode_setDefInFile_self _ _ _ (hvalid p (List.mem_cons_self _ _))]
      · rfl
    · have hvalid1 : ∀ p1 ∈ rest, p1.2 <
          (if (candGet cand q.1).length = 1 then
            setDefInFile r q.2 (some ((candGet cand q.1).headD 0)) else r).nodes.length := by
        intro p1 h1
        split
        · rw [nodes_length_setDefInFile]
          exact hvalid p1 (List.mem_cons_of_mem _ h1)
        · exact hvalid p1 (List.mem_cons_of_mem _ h1)
      rw [ih _ hndr hvalid1 p hpr]
      have hne : p.2 ≠ q.2 := by
        intro hh
        exact hq (hh ▸ List.mem_map_of_mem Prod.snd hpr)
      have hbase : getNode (if (candGet cand q.1).length = 1 then
          setDefInFile r q.2 (some ((candGet cand q.1).headD 0)) else r) p.2
          = getNode r p.2 := by
        split
        · exact getNode_setDefInFile_ne _ _ _ _ hne
        · rfl
      rw [hbase]

/-- C8 (confirmed): for every node with unresolved `def_in_file` whose kind is
outside {file, dir, group, namespace}, the resolver assigns the unique file
whose program listing holds a member-kind reference to its refid when exactly
one such file exists, and leaves `def_in_file` unset when zero or several
exist — it never guesses among candidates. -/
theorem C8_ambiguous_ownership (r : Root)
    (listings : List (Nat × List (String × String)))
    (hvals : (r.node_by_refid.map Prod.snd).Nodup)
    (hfnodup : (listings.map Prod.fst).Nodup)
    (hvalid : ∀ p ∈ r.node_by_refid, p.2 < r.nodes.length) :
    ∀ p ∈ missingPairs r,
      ((candFiles listings p.1).length = 1 →
        (getNode (resolveMissingFileDefs r listings) p.2).def_in_file
          = some ((candFiles listings p.1).headD 0)) ∧
      ((candFiles listings p.1).length ≠ 1 →
        (getNode (resolveMissingFileDefs r listings) p.2).def_in_file = none) := by
  intro p hp
  have hsub : List.Sublist (missingPairs r) r.node_by_refid := List.filter_sublist _
  have hnd : ((missingPairs r).map Prod.snd).Nodup :=
    List.Nodup.sublist (hsub.map Prod.snd) hvals
  have hvalid2 : ∀ q ∈ missingPairs r, q.2 < r.nodes.length :=
    fun q hq => hvalid q (hsub.subset hq)
  have hkmem : p.1 ∈ (missingPairs r).map Prod.fst := List.mem_map_of_mem Prod.fst hp
  have hk : ((missingPairs r).map Prod.fst).contains p.1 = true := by
    simpa using hkmem
  have hcfnd : (candFiles listings p.1).Nodup :=
    List.Nodup.sublist ((List.filter_sublist listings).map Prod.fst) hfnodup
  have hcand : candGet (buildCandidates ((missingPairs r).map Prod.fst) listings) p.1
      = candFiles listings p.1 := by
    rw [buildCandidates, buildFold_effect _ _ _ _ hk, candGet_init,
      dedupExtend_eq_append _ _ hcfnd (fun x _ => List.not_mem_nil x)]
    rfl
  have hspec := assignLoop_spec
    (buildCandidates ((missingPairs r).map Prod.fst) listings)
    (missingPairs r) r hnd hvalid2 p hp
  rw [hcand] at hspec
  constructor
  · intro h1
    rw [resolveMissingFileDefs, hspec, if_pos h1]
  · intro h1
    rw [resolveMissingFileDefs, hspec, if_neg h1]
    have hcond := List.of_mem_filter hp
    have hnone : (getNode r p.2).def_in_file.isNone = true := by
      have := Bool.and_eq_true _ _ |>.mp hcond
      exact this.1
    exact Option.isNone_iff_eq_none.mp hnone

/-- C8 witness: refid `r1` is referenced from exactly one file's listing and
gets resolved to it. -/
theorem C8_witness :
    (getNode (resolveMissingFileDefs c8WitnessRoot c8Listings) 1).def_in_file
      = some ((candFiles c8Listings "r1").headD 0) :=
  (C8_ambiguous_ownership c8WitnessRoot c8Listings (by decide) (by decide)
    (by decide) ("r1", 1) (by decide)).1 (by decide)

/-- A field left untouched by a node mutation is unchanged on every node,
in or out of range. -/
theorem getNode_modifyNode_field {β : Type} (g : Node → β) (r : Root) (j : Nat)
    (f : Node → Node) (hf : ∀ n, g (f n) = g n) (i : Nat) :
    g (getNode (modifyNode r j f) i) = g (getNode r i) := by
  by_cases hij : i = j
  · subst hij
    by_cases hlt : i < r.nodes.length
    · rw [getNode_modifyNode_self _ _ _ hlt, hf]
    · unfold modifyNode setNode getNode
      rw [List.set_eq_of_length_le (Nat.le_of_not_lt hlt)]
  · rw [getNode_modifyNode_ne _ _ _ _ hij]

theorem appendChild_name (r : Root) (p c i : Nat) :
    (getNode (appendChild r p c) i).name = (getNode r i).name :=
  getNode_modifyNode_field Node.name r p (fun n => { n with children := n.children ++ [c] }) (fun n => rfl) i

theorem appendChild_kind (r : Root) (p c i : Nat) :
    (getNode (appendChild r p c) i).kind = (getNode r i).kind :=
  getNode_modifyNode_field Node.kind r p (fun n => { n with children := n.children ++ [c] }) (fun n => rfl) i

theorem appendChild_parent (r : Root) (p c i : Nat) :
    (getNode (appendChild r p c) i).parent = (getNode r i).parent :=
  getNode_modifyNode_field Node.parent r p (fun n => { n with children := n.children ++ [c] }) (fun n => rfl) i

theorem appendChild_def_in_file (r : Root) (p c i : Nat) :
    (getNode (appendChild r p c) i).def_in_file = (getNode r i).def_in_file :=
  getNode_modifyNode_field Node.def_in_file r p (fun n => { n with children := n.children ++ [c] }) (fun n => rfl) i

theorem setParent_name (r : Root) (j : Nat) (q : Option Nat) (i : Nat) :
    (getNode (setParent r j q) i).name = (getNode r i).name :=
  getNode_modifyNode_field Node.name r j (fun n => { n with parent := q }) (fun n => rfl) i

theorem setParent_kind (r : Root) (j : Nat) (q : Option Nat) (i : Nat) :
    (getNode (setParent r j q) i).kind = (getNode r i).kind :=
  getNode_modifyNode_field Node.kind r j (fun n => { n with parent := q }) (fun n => rfl) i

theorem setParent_children (r : Root) (j : Nat) (q : Option Nat) (i : Nat) :
    (getNode (setParent r j q) i).children = (getNode r i).children :=
  getNode_modifyNode_field Node.children r j (fun n => { n with parent := q }) (fun n => rfl) i

theorem setParent_def_in_file (r : Root) (j : Nat) (q : Option Nat) (i : Nat) :
    (getNode (setParent r j q) i).def_in_file = (getNode r i).def_in_file :=
  getNode_modifyNode_field Node.def_in_file r j (fun n => { n with parent := q }) (fun n => rfl) i

theorem setDefInFile_children (r : Root) (j : Nat) (q : Option Nat) (i : Nat) :
    (getNode (setDefInFile r j q) i).children = (getNode r i).children :=
  getNode_modifyNode_field Node.children r j (fun n => { n with def_in_file := q }) (fun n => rfl) i

theorem setDefInFile_parent (r : Root) (j : Nat) (q : Option Nat) (i : Nat) :
    (getNode (setDefInFile r j q) i).parent = (getNode r i).parent :=
  getNode_modifyNode_field Node.parent r j (fun n => { n with def_in_file := q }) (fun n => rfl) i

theorem appendChild_children_mono (r : Root) (p c i x : Nat)
    (h : x ∈ (getNode r i).children) : x ∈ (getNode (appendChild r p c) i).children := by
  by_cases hip : i = p
  · subst hip
    by_cases hlt : i < r.nodes.length
    · rw [getNode_appendChild_self _ _ _ hlt]
      exact List.mem_append_left _ h
    · unfold appendChild modifyNode setNode getNode
      rw [List.set_eq_of_length_le (Nat.le_of_not_lt hlt)]
      exact h
  · rw [getNode_appendChild_ne _ _ _ _ hip]
    exact h

/-- `find?` only depends on the predicate's values on the list. -/
theorem find?_congr {α : Type} (l : List α) (p q : α → Bool)
    (h : ∀ a ∈ l, p a = q a) : l.find? p = l.find? q := by
  induction l with
  | nil => rfl
  | cons x rest ih =>
    rw [List.find?, List.find?, h x (List.mem_cons_self _ _)]
    split
    · rfl
    · exact ih (fun a ha => h a (List.mem_cons_of_mem _ ha))

/-- The union searches depend only on node names. -/
theorem unionClassMatch_congr (r1 r2 : Root) (cl_list : List Nat) (u : Nat)
    (h : ∀ i, (getNode r1 i).name = (getNode r2 i).name) :
    unionClassMatch r1 cl_list u = unionClassMatch r2 cl_list u := by
  simp only [unionClassMatch, h u]
  split
  · split
    · exact find?_congr _ _ _ (fun a _ => by rw [h a])
    · exact find?_congr _ _ _ (fun a _ => by rw [h a])
  · rfl

theorem unionNsMatch_congr (r1 r2 : Root) (ns_list : List Nat) (u : Nat)
    (h : ∀ i, (getNode r1 i).name = (getNode r2 i).name) :
    unionNsMatch r1 ns_list u = unionNsMatch r2 ns_list u := by
  simp only [unionNsMatch, h u]
  split
  · split
    · exact find?_congr _ _ _ (fun a _ => by rw [h a])
    · exact find?_congr _ _ _ (fun a _ => by rw [h a])
  · rfl

theorem unionStep_name (cl_list ns_list : List Nat) (acc : Root × List Nat) (u i : Nat) :
    (getNode (reparentUnionStep cl_list ns_list acc u).1 i).name
      = (getNode acc.1 i).name := by
  unfold reparentUnionStep
  split
  · rw [setParent_name, appendChild_name]
  · split
    · rw [setParent_name, appendChild_name]
    · rfl

theorem unionStep_len (cl_list ns_list : List Nat) (acc : Root × List Nat) (u : Nat) :
    (reparentUnionStep cl_list ns_list acc u).1.nodes.length = acc.1.nodes.length := by
  unfold reparentUnionStep
  split
  · rw [nodes_length_setParent, nodes_length_appendChild]
  · split
    · rw [nodes_length_setParent, nodes_length_appendChild]
    · rfl

theorem unionStep_parent_ne (cl_list ns_list : List Nat) (acc : Root × List Nat)
    (u i : Nat) (h : i ≠ u) :
    (getNode (reparentUnionStep cl_list ns_list acc u).1 i).parent
      = (getNode acc.1 i).parent := by
  unfold reparentUnionStep
  split
  · rw [getNode_setParent_ne _ _ _ _ h, appendChild_parent]
  · split
    · rw [getNode_setParent_ne _ _ _ _ h, appendChild_parent]
    · rfl

theorem unionStep_children_mono (cl_list ns_list : List Nat) (acc : Root × List Nat)
    (u i x : Nat) (h : x ∈ (getNode acc.1 i).children) :
    x ∈ (getNode (reparentUnionStep cl_list ns_list acc u).1 i).children := by
  unfold reparentUnionStep
  split
  · rw [setParent_children]
    exact appendChild_children_mono _ _ _ _ _ h
  · split
    · rw [setParent_children]
      exact appendChild_children_mono _ _ _ _ _ h
    · exact h

theorem unionStep_removals (cl_list ns_list : List Nat) (acc : Root × List Nat) (u : Nat) :
    (reparentUnionStep cl_list ns_list acc u).2
      = if (unionClassMatch acc.1 cl_list u).isSome then acc.2 ++ [u] else acc.2 := by
  unfold reparentUnionStep
  split
  · rename_i cl0 hm
    rw [hm]
    rfl
  · rename_i hm
    rw [hm]
    split <;> rfl

theorem unionStep_self_class (cl_list ns_list : List Nat) (acc : Root × List Nat)
    (u cl0 : Nat) (hu : u < acc.1.nodes.length) (hcl0 : cl0 < acc.1.nodes.length)
    (hm : unionClassMatch acc.1 cl_list u = some cl0) :
    (getNode (reparentUnionStep cl_list ns_list acc u).1 u).parent = some cl0 ∧
    u ∈ (getNode (reparentUnionStep cl_list ns_list acc u).1 cl0).children := by
  unfold reparentUnionStep
  rw [hm]
  constructor
  · rw [getNode_setParent_self]
    rw [nodes_length_appendChild]
    exact hu
  · rw [setParent_children, getNode_appendChild_self _ _ _ hcl0]
    simp

theorem unionStep_self_ns (cl_list ns_list : List Nat) (acc : Root × List Nat)
    (u n0 : Nat) (hu : u < acc.1.nodes.length) (hn0 : n0 < acc.1.nodes.length)
    (hmc : unionClassMatch acc.1 cl_list u = none)
    (hm : unionNsMatch acc.1 ns_list u = some n0) :
    (getNode (reparentUnionStep cl_list ns_list acc u).1 u).parent = some n0 ∧
    u ∈ (getNode (reparentUnionStep cl_list ns_list acc u).1 n0).children := by
  unfold reparentUnionStep
  rw [hmc, hm]
  constructor
  · rw [getNode_setParent_self]
    rw [nodes_length_appendChild]
    exact hu
  · rw [setParent_children, getNode_appendChild_self _ _ _ hn0]
    simp

theorem unionStep_self_none (cl_list ns_list : List Nat) (acc : Root × List Nat)
    (u : Nat) (hmc : unionClassMatch acc.1 cl_list u = none)
    (hm : unionNsMatch acc.1 ns_list u = none) :
    reparentUnionStep cl_list ns_list acc u = acc := by
  unfold reparentUnionStep
  rw [hmc, hm]

theorem unionClassMatch_mem (r : Root) (cl_list : List Nat) (u cl0 : Nat)
    (h : unionClassMatch r cl_list u = some cl0) : cl0 ∈ cl_list := by
  simp only [unionClassMatch] at h
  split at h
  · split at h
    · exact List.mem_of_find?_eq_some h
    · exact List.mem_of_find?_eq_some h
  · exact absurd h (by simp)

theorem unionNsMatch_mem (r : Root) (ns_list : List Nat) (u n0 : Nat)
    (h : unionNsMatch r ns_list u = some n0) : n0 ∈ ns_list := by
  simp only [unionNsMatch] at h
  split at h
  · split at h
    · exact List.mem_of_find?_eq_some h
    · exact List.mem_of_find?_eq_some h
  · exact absurd h (by simp)

/-- Full effect of the union loop: names and sizes are stable, non-union
parents are stable, children only grow, the removal list collects exactly the
class-matched unions, and each union is adopted according to its match. -/
theorem unionFold_spec (cl_list ns_list : List Nat) (us : List Nat)
    (acc : Root × List Nat) (hnd : us.Nodup)
    (hvu : ∀ u ∈ us, u < acc.1.nodes.length)
    (hvcl : ∀ c ∈ cl_list, c < acc.1.nodes.length)
    (hvns : ∀ n ∈ ns_list, n < acc.1.nodes.length) :
    (∀ i, (getNode (us.foldl (reparentUnionStep cl_list ns_list) acc).1 i).name
      = (getNode acc.1 i).name) ∧
    ((us.foldl (reparentUnionStep cl_list ns_list) acc).1.nodes.length
      = acc.1.nodes.length) ∧
    (∀ i, i ∉ us →
      (getNode (us.foldl (reparentUnionStep cl_list ns_list) acc).1 i).parent
        = (getNode acc.1 i).parent) ∧
    (∀ i x, x ∈ (getNode acc.1 i).children →
      x ∈ (getNode (us.foldl (reparentUnionStep cl_list ns_list) acc).1 i).children) ∧
    ((us.foldl (reparentUnionStep cl_list ns_list) acc).2
      = acc.2 ++ us.filter (fun u => (unionClassMatch acc.1 cl_list u).isSome)) ∧
    (∀ u ∈ us,
      (∀ cl0, unionClassMatch acc.1 cl_list u = some cl0 →
        (getNode (us.foldl (reparentUnionStep cl_list ns_list) acc).1 u).parent = some cl0 ∧
        u ∈ (getNode (us.foldl (reparentUnionStep cl_list ns_list) acc).1 cl0).children) ∧
      (unionClassMatch acc.1 cl_list u = none →
        (∀ n0, unionNsMatch acc.1 ns_list u = some n0 →
          (getNode (us.foldl (reparentUnionStep cl_list ns_list) acc).1 u).parent = some n0 ∧
          u ∈ (getNode (us.foldl (reparentUnionStep cl_list ns_list) acc).1 n0).children) ∧
        (unionNsMatch acc.1 ns_list u = none →
          (getNode (us.foldl (reparentUnionStep cl_list ns_list) acc).1 u).parent
            = (getNode acc.1 u).parent))) := by
  induction us generalizing acc with
  | nil =>
    refine ⟨fun i => rfl, rfl, fun i _ => rfl, fun i x h => h, by simp, ?_⟩
    exact fun u hu => absurd hu (List.not_mem_nil u)
  | cons u0 rest ih =>
    have hu0rest : u0 ∉ rest := (List.nodup_cons.mp hnd).1
    have hndr : rest.Nodup := (List.nodup_cons.mp hnd).2
    have hlen1 : (reparentUnionStep cl_list ns_list acc u0).1.nodes.length
        = acc.1.nodes.length := unionStep_len _ _ _ _
    have hname1 : ∀ i, (getNode (reparentUnionStep cl_list ns_list acc u0).1 i).name
        = (getNode acc.1 i).name := unionStep_name _ _ _ _
    have hcongc : ∀ u, unionClassMatch (reparentUnionStep cl_list ns_list acc u0).1 cl_list u
        = unionClassMatch acc.1 cl_list u :=
      fun u => unionClassMatch_congr _ _ _ _ hname1
    have hcongn : ∀ u, unionNsMatch (reparentUnionStep cl_list ns_list acc u0).1 ns_list u
        = unionNsMatch acc.1 ns_list u :=
      fun u => unionNsMatch_congr _ _ _ _ hname1
    obtain ⟨ihn, ihl, ihp, ihc, ihr, ihm⟩ := ih (reparentUnionStep cl_list ns_list acc u0) hndr
      (fun u hu => hlen1 ▸ hvu u (List.mem_cons_of_mem _ hu))
      (fun c hc => hlen1 ▸ hvcl c hc)
      (fun n hn => hlen1 ▸ hvns n hn)
    rw [List.foldl_cons]
    refine ⟨?_, ?_, ?_, ?_, ?_, ?_⟩
    · intro i
      rw [ihn i, hname1 i]
    · rw [ihl, hlen1]
    · intro i hi
      rw [ihp i (fun hh => hi (List.mem_cons_of_mem _ hh)),
        unionStep_parent_ne _ _ _ _ _ (fun hh => hi (by rw [hh]; exact List.mem_cons_self _ _))]
    · intro i x hx
      exact ihc i x (unionStep_children_mono _ _ _ _ _ _ hx)
    · rw [ihr, unionStep_removals]
      have hfc : (u0 :: rest).filter (fun u => (unionClassMatch acc.1 cl_list u).isSome)
          = if (unionClassMatch acc.1 cl_list u0).isSome then
              u0 :: rest.filter (fun u => (unionClassMatch acc.1 cl_list u).isSome)
            else rest.filter (fun u => (unionClassMatch acc.1 cl_list u).isSome) := by
        rw [List.filter_cons]
      have hfr : rest.filter
            (fun u => (unionClassMatch (reparentUnionStep cl_list ns_list acc u0).1 cl_list u).isSome)
          = rest.filter (fun u => (unionClassMatch acc.1 cl_list u).isSome) :=
        List.filter_congr (fun u _ => by rw [hcongc u])
      rw [hfr, hfc]
      split
      · simp
      · simp
    · intro u hu
      rcases List.mem_cons.mp hu with hu0 | hur
      · subst hu0
        constructor
        · intro cl0 hm
          have hcl0 : cl0 < acc.1.nodes.length := hvcl cl0 (unionClassMatch_mem _ _ _ _ hm)
          obtain ⟨hpar, hmem⟩ := unionStep_self_class cl_list ns_list acc u cl0
            (hvu u (List.mem_cons_self _ _)) hcl0 hm
          exact ⟨(ihp u hu0rest).trans hpar, ihc cl0 u hmem⟩
        · intro hmc
          constructor
          · intro n0 hm
            have hn0 : n0 < acc.1.nodes.length := hvns n0 (unionNsMatch_mem _ _ _ _ hm)
            obtain ⟨hpar, hmem⟩ := unionStep_self_ns cl_list ns_list acc u n0
              (hvu u (List.mem_cons_self _ _)) hn0 hmc hm
            exact ⟨(ihp u hu0rest).trans hpar, ihc n0 u hmem⟩
          · intro hmn
            rw [unionStep_self_none cl_list ns_list acc u hmc hmn] at ihp ⊢
            exact ihp u hu0rest
      · obtain ⟨ihm1, ihm2⟩ := ihm u hur
        constructor
        · intro cl0 hm
          exact ihm1 cl0 ((hcongc u).trans hm)
        · intro hmc
          obtain ⟨ihm21, ihm22⟩ := ihm2 ((hcongc u).trans hmc)
          refine ⟨fun n0 hm => ihm21 n0 ((hcongn u).trans hm), fun hmn => ?_⟩
          rw [ihm22 ((hcongn u).trans hmn), unionStep_parent_ne]
          intro hh
          exact hu0rest (by rw [← hh]; exact hur)

theorem eraseFold_subset (rems l : List Nat) (x : Nat)
    (h : x ∈ rems.foldl (fun l2 rm => l2.erase rm) l) : x ∈ l := by
  induction rems generalizing l with
  | nil => exact h
  | cons rm rest ih =>
    rw [List.foldl_cons] at h
    exact List.mem_of_mem_erase (ih _ h)

theorem eraseFold_not_mem (rems l : List Nat) (u : Nat) (hnd : l.Nodup)
    (hu : u ∈ rems) : u ∉ rems.foldl (fun l2 rm => l2.erase rm) l := by
  induction rems generalizing l with
  | nil => exact absurd hu (List.not_mem_nil u)
  | cons rm rest ih =>
    rw [List.foldl_cons]
    rcases List.mem_cons.mp hu with hru | hrr
    · subst hru
      intro hmem
      exact hnd.not_mem_erase (eraseFold_subset _ _ _ hmem)
    · exact ih (l.erase rm) (hnd.erase rm) hrr

theorem eraseFold_mem (rems l : List Nat) (u : Nat) (hu : u ∈ l)
    (hnr : u ∉ rems) : u ∈ rems.foldl (fun l2 rm => l2.erase rm) l := by
  induction rems generalizing l with
  | nil => exact hu
  | cons rm rest ih =>
    rw [List.foldl_cons]
    have hne : u ≠ rm := fun hh => hnr (hh ▸ List.mem_cons_self _ _)
    exact ih (l.erase rm) ((List.mem_erase_of_ne hne).mpr hu)
      (fun hh => hnr (List.mem_cons_of_mem _ hh))

theorem unionStep_root_unions (cl_list ns_list : List Nat) (acc : Root × List Nat)
    (u : Nat) : (reparentUnionStep cl_list ns_list acc u).1.unions = acc.1.unions := by
  unfold reparentUnionStep
  split
  · rfl
  · split <;> rfl

theorem unionFold_root_unions (cl_list ns_list us : List Nat) (acc : Root × List Nat) :
    (us.foldl (reparentUnionStep cl_list ns_list) acc).1.unions = acc.1.unions := by
  induction us generalizing acc with
  | nil => rfl
  | cons u rest ih =>
    rw [List.foldl_cons, ih, unionStep_root_unions]

/-- C4 (amended): the class-like search of the union pass compares only the
*bare second-to-last segment* of the union's name against class names (so a
class named `A::B` is never matched for a union `A::B::U`; only a class named
`B` is).  A class match adopts the union and removes it from the top-level
union collection; in all other cases the union stays top-level, and if the
namespace search matches (prefix `A`, or alternate `A::B`, against namespace
names), the namespace adopts it without removal. -/
theorem C4_amended (r : Root) (hnd : r.unions.Nodup)
    (hvu : ∀ u ∈ r.unions, u < r.nodes.length)
    (hvcl : ∀ c ∈ r.class_like, c < r.nodes.length)
    (hvns : ∀ n ∈ r.namespaces, n < r.nodes.length) :
    ∀ u ∈ r.unions,
      (∀ cl0, unionClassMatch r r.class_like u = some cl0 →
        (getNode (reparentUnions r) u).parent = some cl0 ∧
        u ∈ (getNode (reparentUnions r) cl0).children ∧
        u ∉ (reparentUnions r).unions) ∧
      (unionClassMatch r r.class_like u = none →
        u ∈ (reparentUnions r).unions ∧
        (∀ n0, unionNsMatch r r.namespaces u = some n0 →
          (getNode (reparentUnions r) u).parent = some n0 ∧
          u ∈ (getNode (reparentUnions r) n0).children)) := by
  intro u hu
  obtain ⟨sn, sl, sp, sc, sr, sm⟩ := unionFold_spec r.class_like r.namespaces r.unions
    (r, []) hnd hvu hvcl hvns
  obtain ⟨sm1, sm2⟩ := sm u hu
  have hgn : ∀ i, getNode (reparentUnions r) i
      = getNode (r.unions.foldl (reparentUnionStep r.class_like r.namespaces) (r, [])).1 i :=
    fun i => rfl
  have hru : (reparentUnions r).unions
      = (r.unions.foldl (reparentUnionStep r.class_like r.namespaces) (r, [])).2.foldl
          (fun l2 rm => l2.erase rm)
          (r.unions.foldl (reparentUnionStep r.class_like r.namespaces) (r, [])).1.unions :=
    rfl
  rw [hru, unionFold_root_unions, sr]
  constructor
  · intro cl0 hm
    obtain ⟨hpar, hmem⟩ := sm1 cl0 hm
    refine ⟨hpar, hmem, ?_⟩
    apply eraseFold_not_mem _ _ _ hnd
    simp only [List.nil_append]
    rw [List.mem_filter]
    exact ⟨hu, by rw [hm]; rfl⟩
  · intro hmc
    obtain ⟨hns, _⟩ := sm2 hmc
    refine ⟨?_, fun n0 hm => (sm2 hmc).1 n0 hm⟩
    apply eraseFold_mem _ _ _ hu
    simp only [List.nil_append]
    rw [List.mem_filter]
    rintro ⟨_, habs⟩
    rw [hmc] at habs
    exact absurd habs (by simp)

/-- C4 counterexample: union `A::B::U` with a registered class named `A::B`
(and namespace `A`) is attached to the *namespace*, not the class, and stays
in the top-level union collection — the class match never fires because only
the bare segment `B` is compared against class names. -/
theorem C4_counterexample :
    ¬ (∀ (r : Root), ∀ u ∈ r.unions, ∀ cl ∈ r.class_like,
        (getNode r u).name = "A::B::U" → (getNode r cl).name = "A::B" →
        (getNode (reparentUnions r) u).parent = some cl ∧
        u ∉ (reparentUnions r).unions) := by
  intro h
  have hh := h c4Root 2 (by decide) 1 (by decide) (by decide) (by decide)
  exact absurd hh.1 (by decide)

/-- C4 witness: the union is adopted by the class literally named `B`. -/
theorem C4_witness :
    (getNode (reparentUnions c4WitnessRoot) 2).parent = some 1 ∧
    2 ∈ (getNode (reparentUnions c4WitnessRoot) 1).children ∧
    2 ∉ (reparentUnions c4WitnessRoot).unions :=
  (C4_amended c4WitnessRoot (by decide) (by decide) (by decide) (by decide) 2
    (by decide)).1 1 (by decide)

theorem foldl_fixed {α β : Type} (f : β → α → β) (l : List α) (b : β)
    (h : ∀ x ∈ l, f b x = b) : l.foldl f b = b := by
  induction l with
  | nil => rfl
  | cons x rest ih =>
    rw [List.foldl_cons, h x (List.mem_cons_self _ _)]
    exact ih (fun y hy => h y (List.mem_cons_of_mem _ hy))

theorem setNode_getNode_self (r : Root) (i : Nat) :
    setNode r i (getNode r i) = r := by
  unfold setNode getNode
  have hmk : ∀ (nodes : List Node), nodes.set i (nodes.getD i (mkNode "" "" ""))
      = nodes := by
    intro nodes
    apply List.ext_getElem?
    intro j
    by_cases hij : j = i
    · subst hij
      by_cases hlt : j < nodes.length
      · rw [List.getElem?_set_self hlt]
        rw [List.getD_eq_getElem?_getD]
        rw [List.getElem?_eq_getElem hlt]
        rfl
      · rw [List.set_eq_of_length_le (Nat.le_of_not_lt hlt)]
    · rw [List.getElem?_set_ne (fun hh => hij hh.symm)]
  rw [hmk]

/-- A registry with no top-level unions is untouched by the union pass. -/
theorem reparentUnions_id (r : Root) (h : r.unions = []) : reparentUnions r = r := by
  unfold reparentUnions
  rw [h]
  rfl

/-- A registry in which no class-like node's prefix names another class-like
node is untouched by the class-like pass. -/
theorem reparentClassLike_id (r : Root)
    (h : ∀ cl ∈ r.class_like, classLikeMatch r r.class_like cl = none) :
    reparentClassLike r = r := by
  unfold reparentClassLike
  rw [foldl_fixed _ _ _ (fun cl hcl => by
    show reparentClassLikeStep r.class_like (r, []) cl = (r, [])
    unfold reparentClassLikeStep
    rw [h cl hcl])]
  rfl

/-- A registry in which no processed directory finds a parent is untouched by
the directory pass. -/
theorem reparentDirectories_id (r : Root)
    (h : ∀ p ∈ (((pySort (dirRankLt r) (r.dirs.map (fun d => (dirRank r d, d)))).reverse).takeWhile
        (fun p => !(decide (p.1 < 2)))),
      dirMatch r ((pySort (dirRankLt r) (r.dirs.map (fun d => (dirRank r d, d)))).reverse) p
        = none) :
    reparentDirectories r = r := by
  simp only [reparentDirectories]
  rw [foldl_fixed _ _ _ (fun p hp => by
    show reparentDirsStep _ (r, []) p = (r, [])
    unfold reparentDirsStep
    rw [h p hp])]
  rfl

/-- A registry in which every namespace child already carries its prefix is
untouched by the renaming pass. -/
theorem renameToNamespaceScopes_id (r : Root)
    (h : ∀ n ∈ r.namespaces, ∀ c ∈ (getNode r n).children,
      pyInStr ((getNode r n).name ++ "::") (getNode r c).name = true) :
    renameToNamespaceScopes r = r := by
  unfold renameToNamespaceScopes
  apply foldl_fixed
  intro n hn
  show renameNamespaceChildren r n = r
  unfold renameNamespaceChildren
  apply foldl_fixed
  intro c hc
  unfold renameChild
  rw [if_pos (h n hn c hc)]

/-- A registry in which no top-level namespace has a namespace parent is
untouched by the namespace-collapse pass. -/
theorem reparentNamespaces_id (r : Root)
    (h : ∀ n ∈ r.namespaces, ∀ p, (getNode r n).parent = some p →
      (getNode r p).kind ≠ "namespace") :
    reparentNamespaces r = r := by
  unfold reparentNamespaces
  rw [foldl_fixed _ _ ([] : List Nat) (fun n hn => by
    match hp : (getNode r n).parent with
    | none => simp [hp]
    | some p =>
        simp only [hp]
        rw [if_neg]
        simp only [Bool.and_eq_true, beq_iff_eq]
        rintro ⟨hk, _⟩
        exact h n hn p hp hk)]
  rfl

/-- A registry whose registered nodes all have duplicate-free child lists is
untouched by the de-duplication pass. -/
theorem dedupChildrenAll_id (r : Root)
    (h : ∀ i ∈ r.all_nodes, (getNode r i).children.dedup = (getNode r i).children) :
    dedupChildrenAll r = r := by
  unfold dedupChildrenAll
  apply foldl_fixed
  intro i hi
  show modifyNode r i _ = r
  unfold modifyNode
  rw [show (fun n => { n with children := n.children.dedup }) (getNode r i)
      = getNode r i from by
    show ({ getNode r i with children := (getNode r i).children.dedup }) = getNode r i
    rw [h i hi]]
  exact setNode_getNode_self r i

theorem classLikeMatch_mem (r : Root) (cl_list : List Nat) (cl pcl : Nat)
    (h : classLikeMatch r cl_list cl = some pcl) : pcl ∈ cl_list := by
  simp only [classLikeMatch] at h
  split at h
  · exact List.mem_of_find?_eq_some h
  · exact absurd h (by simp)

theorem classLikeMatch_congr (r1 r2 : Root) (cl_list : List Nat) (cl : Nat)
    (h : ∀ i, (getNode r1 i).name = (getNode r2 i).name) :
    classLikeMatch r1 cl_list cl = classLikeMatch r2 cl_list cl := by
  simp only [classLikeMatch, h cl]
  split
  · exact find?_congr _ _ _ (fun a _ => by rw [h a])
  · rfl

theorem classLikeMatch_none_mono (r : Root) (l1 l2 : List Nat) (cl : Nat)
    (hsub : ∀ x ∈ l1, x ∈ l2) (h : classLikeMatch r l2 cl = none) :
    classLikeMatch r l1 cl = none := by
  simp only [classLikeMatch] at h ⊢
  split
  · rename_i hlen
    rw [if_pos hlen] at h
    rw [List.find?_eq_none] at h ⊢
    exact fun x hx => h x (hsub x hx)
  · rfl

theorem clStep_fields (cl_list : List Nat) (acc : Root × List Nat) (cl : Nat) :
    (reparentClassLikeStep cl_list acc cl).1.unions = acc.1.unions ∧
    (reparentClassLikeStep cl_list acc cl).1.namespaces = acc.1.namespaces ∧
    (reparentClassLikeStep cl_list acc cl).1.dirs = acc.1.dirs ∧
    (reparentClassLikeStep cl_list acc cl).1.all_nodes = acc.1.all_nodes ∧
    (reparentClassLikeStep cl_list acc cl).1.class_like = acc.1.class_like ∧
    (reparentClassLikeStep cl_list acc cl).1.files = acc.1.files := by
  unfold reparentClassLikeStep
  split <;> exact ⟨rfl, rfl, rfl, rfl, rfl, rfl⟩

theorem clStep_name (cl_list : List Nat) (acc : Root × List Nat) (cl i : Nat) :
    (getNode (reparentClassLikeStep cl_list acc cl).1 i).name
      = (getNode acc.1 i).name := by
  unfold reparentClassLikeStep
  split
  · rw [setParent_name, appendChild_name]
  · rfl

theorem clStep_kind (cl_list : List Nat) (acc : Root × List Nat) (cl i : Nat) :
    (getNode (reparentClassLikeStep cl_list acc cl).1 i).kind
      = (getNode acc.1 i).kind := by
  unfold reparentClassLikeStep
  split
  · rw [setParent_kind, appendChild_kind]
  · rfl

theorem clStep_len (cl_list : List Nat) (acc : Root × List Nat) (cl : Nat) :
    (reparentClassLikeStep cl_list acc cl).1.nodes.length = acc.1.nodes.length := by
  unfold reparentClassLikeStep
  split
  · rw [nodes_length_setParent, nodes_length_appendChild]
  · rfl

theorem clStep_parent_ne (cl_list : List Nat) (acc : Root × List Nat) (cl i : Nat)
    (h : i ≠ cl) : (getNode (reparentClassLikeStep cl_list acc cl).1 i).parent
      = (getNode acc.1 i).parent := by
  unfold reparentClassLikeStep
  split
  · rw [getNode_setParent_ne _ _ _ _ h, appendChild_parent]
  · rfl

theorem clStep_children_ne (cl_list : List Nat) (acc : Root × List Nat) (cl i : Nat)
    (h : i ∉ cl_list) :
    (getNode (reparentClassLikeStep cl_list acc cl).1 i).children
      = (getNode acc.1 i).children := by
  unfold reparentClassLikeStep
  split
  · rename_i pcl hm
    have hne : i ≠ pcl := fun hh => h (hh ▸ classLikeMatch_mem _ _ _ _ hm)
    rw [setParent_children, getNode_appendChild_ne _ _ _ _ hne]
  · rfl

theorem clStep_removals (cl_list : List Nat) (acc : Root × List Nat) (cl x : Nat)
    (h : x ∈ acc.2) : x ∈ (reparentClassLikeStep cl_list acc cl).2 := by
  unfold reparentClassLikeStep
  split
  · exact List.mem_append_left _ h
  · exact h

theorem clStep_removals_self (cl_list : List Nat) (acc : Root × List Nat) (cl : Nat)
    (h : (classLikeMatch acc.1 cl_list cl).isSome = true) :
    cl ∈ (reparentClassLikeStep cl_list acc cl).2 := by
  unfold reparentClassLikeStep
  split
  · simp
  · rename_i hm
    rw [hm] at h
    exact absurd h (by simp)

/-- Invariants of the class-like loop: names, kinds, sizes, the root's other
collections, parents and children of nodes outside the class set are all
stable, and every matched class lands in the removal list. -/
theorem clFold_spec (cl_list cs : List Nat) (acc : Root × List Nat) :
    (∀ i, (getNode (cs.foldl (reparentClassLikeStep cl_list) acc).1 i).name
      = (getNode acc.1 i).name) ∧
    (∀ i, (getNode (cs.foldl (reparentClassLikeStep cl_list) acc).1 i).kind
      = (getNode acc.1 i).kind) ∧
    ((cs.foldl (reparentClassLikeStep cl_list) acc).1.nodes.length
      = acc.1.nodes.length) ∧
    (∀ i, i ∉ cs → (getNode (cs.foldl (reparentClassLikeStep cl_list) acc).1 i).parent
      = (getNode acc.1 i).parent) ∧
    (∀ i, i ∉ cl_list →
      (getNode (cs.foldl (reparentClassLikeStep cl_list) acc).1 i).children
        = (getNode acc.1 i).children) ∧
    ((cs.foldl (reparentClassLikeStep cl_list) acc).1.unions = acc.1.unions ∧
     (cs.foldl (reparentClassLikeStep cl_list) acc).1.namespaces = acc.1.namespaces ∧
     (cs.foldl (reparentClassLikeStep cl_list) acc).1.dirs = acc.1.dirs ∧
     (cs.foldl (reparentClassLikeStep cl_list) acc).1.all_nodes = acc.1.all_nodes ∧
     (cs.foldl (reparentClassLikeStep cl_list) acc).1.class_like = acc.1.class_like ∧
     (cs.foldl (reparentClassLikeStep cl_list) acc).1.files = acc.1.files) ∧
    (∀ x ∈ acc.2, x ∈ (cs.foldl (reparentClassLikeStep cl_list) acc).2) ∧
    (∀ cl ∈ cs, (classLikeMatch acc.1 cl_list cl).isSome = true →
      cl ∈ (cs.foldl (reparentClassLikeStep cl_list) acc).2) := by
  induction cs generalizing acc with
  | nil =>
    exact ⟨fun i => rfl, fun i => rfl, rfl, fun i _ => rfl, fun i _ => rfl,
      ⟨rfl, rfl, rfl, rfl, rfl, rfl⟩, fun x h => h,
      fun cl h => absurd h (List.not_mem_nil cl)⟩
  | cons c0 rest ih =>
    obtain ⟨ihn, ihk, ihl, ihp, ihc, ihf, ihr, ihm⟩ :=
      ih (reparentClassLikeStep cl_list acc c0)
    rw [List.foldl_cons]
    refine ⟨?_, ?_, ?_, ?_, ?_, ?_, ?_, ?_⟩
    · intro i
      rw [ihn i, clStep_name]
    · intro i
      rw [ihk i, clStep_kind]
    · rw [ihl, clStep_len]
    · intro i hi
      rw [ihp i (fun hh => hi (List.mem_cons_of_mem _ hh)),
        clStep_parent_ne _ _ _ _ (fun hh => hi (by rw [hh]; exact List.mem_cons_self _ _))]
    · intro i hi
      rw [ihc i hi, clStep_children_ne _ _ _ _ hi]
    · obtain ⟨f1, f2, f3, f4, f5, f6⟩ := clStep_fields cl_list acc c0
      obtain ⟨g1, g2, g3, g4, g5, g6⟩ := ihf
      exact ⟨g1.trans f1, g2.trans f2, g3.trans f3, g4.trans f4, g5.trans f5, g6.trans f6⟩
    · intro x hx
      exact ihr x (clStep_removals _ _ _ _ hx)
    · intro cl hcl hm
      rcases List.mem_cons.mp hcl with hc0 | hcr
      · subst hc0
        exact ihr cl (clStep_removals_self _ _ _ hm)
      · apply ihm cl hcr
        rw [classLikeMatch_congr _ acc.1 _ _ (clStep_name cl_list acc c0)]
        exact hm

theorem guardedEraseFold_eq (rems l : List Nat) :
    rems.foldl (fun l2 rm => if rm ∈ l2 then l2.erase rm else l2) l
      = rems.foldl (fun l2 rm => l2.erase rm) l := by
  have hf : (fun (l2 : List Nat) rm => if rm ∈ l2 then l2.erase rm else l2)
      = (fun l2 rm => l2.erase rm) := by
    funext l2 rm
    split
    · rfl
    · exact (List.erase_of_not_mem (by assumption)).symm
  rw [hf]

/-- Summary of the class-like pass for the idempotence argument: everything
except matched-class parents, prefix-class children and the class collection
is untouched, and every surviving top-level class has no prefix parent among
the original class set. -/
theorem reparentClassLike_spec (r : Root) (hnd : r.class_like.Nodup) :
    (∀ i, (getNode (reparentClassLike r) i).name = (getNode r i).name) ∧
    (∀ i, (getNode (reparentClassLike r) i).kind = (getNode r i).kind) ∧
    ((reparentClassLike r).nodes.length = r.nodes.length) ∧
    (∀ i, i ∉ r.class_like → (getNode (reparentClassLike r) i).parent
      = (getNode r i).parent) ∧
    (∀ i, i ∉ r.class_like → (getNode (reparentClassLike r) i).children
      = (getNode r i).children) ∧
    ((reparentClassLike r).unions = r.unions ∧
     (reparentClassLike r).namespaces = r.namespaces ∧
     (reparentClassLike r).dirs = r.dirs ∧
     (reparentClassLike r).all_nodes = r.all_nodes ∧
     (reparentClassLike r).files = r.files) ∧
    (∀ cl ∈ (reparentClassLike r).class_like,
      cl ∈ r.class_like ∧ classLikeMatch r r.class_like cl = none) := by
  obtain ⟨sn, sk, sl, sp, sc, ⟨f1, f2, f3, f4, f5, f6⟩, sr, sm⟩ :=
    clFold_spec r.class_like r.class_like (r, [])
  have hgn : ∀ i, getNode (reparentClassLike r) i
      = getNode (r.class_like.foldl (reparentClassLikeStep r.class_like) (r, [])).1 i :=
    fun i => rfl
  have hcl : (reparentClassLike r).class_like
      = (r.class_like.foldl (reparentClassLikeStep r.class_like) (r, [])).2.foldl
          (fun l2 rm => if rm ∈ l2 then l2.erase rm else l2)
          (r.class_like.foldl (reparentClassLikeStep r.class_like) (r, [])).1.class_like :=
    rfl
  refine ⟨fun i => by rw [hgn i, sn i],
    fun i => by rw [hgn i, sk i],
    sl,
    fun i hi => by rw [hgn i, sp i hi],
    fun i hi => by rw [hgn i, sc i hi],
    ⟨f1, f2, f3, f4, f6⟩,
    ?_⟩
  intro cl hmem
  rw [hcl, guardedEraseFold_eq, f5] at hmem
  have hin : cl ∈ r.class_like := eraseFold_subset _ _ _ hmem
  refine ⟨hin, ?_⟩
  by_cases hm : (classLikeMatch r r.class_like cl).isSome = true
  · exact absurd hmem (eraseFold_not_mem _ _ _ hnd (sm cl hin hm))
  · rw [Option.not_isSome_iff_eq_none] at hm
    exact hm

theorem dirMatch_mem (r : Root) (trav : List (Nat × Nat)) (p q : Nat × Nat)
    (h : dirMatch r trav p = some q) : q ∈ trav :=
  List.mem_of_find?_eq_some h

theorem dirMatch_congr (r1 r2 : Root) (trav : List (Nat × Nat)) (p : Nat × Nat)
    (h : ∀ i, (getNode r1 i).name = (getNode r2 i).name) :
    dirMatch r1 trav p = dirMatch r2 trav p := by
  unfold dirMatch
  rw [h p.2]
  exact find?_congr _ _ _ (fun a _ => by rw [h a.2])

theorem dirMatch_none_mono (r : Root) (t1 t2 : List (Nat × Nat)) (p : Nat × Nat)
    (hsub : ∀ x ∈ t1, x ∈ t2) (h : dirMatch r t2 p = none) :
    dirMatch r t1 p = none := by
  unfold dirMatch at h ⊢
  rw [List.find?_eq_none] at h ⊢
  exact fun x hx => h x (hsub x hx)

theorem dirStep_fields (trav : List (Nat × Nat)) (acc : Root × List Nat)
    (p : Nat × Nat) :
    (reparentDirsStep trav acc p).1.unions = acc.1.unions ∧
    (reparentDirsStep trav acc p).1.namespaces = acc.1.namespaces ∧
    (reparentDirsStep trav acc p).1.dirs = acc.1.dirs ∧
    (reparentDirsStep trav acc p).1.all_nodes = acc.1.all_nodes ∧
    (reparentDirsStep trav acc p).1.class_like = acc.1.class_like ∧
    (reparentDirsStep trav acc p).1.files = acc.1.files := by
  unfold reparentDirsStep
  split <;> exact ⟨rfl, rfl, rfl, rfl, rfl, rfl⟩

theorem dirStep_name (trav : List (Nat × Nat)) (acc : Root × List Nat)
    (p : Nat × Nat) (i : Nat) :
    (getNode (reparentDirsStep trav acc p).1 i).name = (getNode acc.1 i).name := by
  unfold reparentDirsStep
  split
  · rw [setParent_name, appendChild_name]
  · rfl

theorem dirStep_kind (trav : List (Nat × Nat)) (acc : Root × List Nat)
    (p : Nat × Nat) (i : Nat) :
    (getNode (reparentDirsStep trav acc p).1 i).kind = (getNode acc.1 i).kind := by
  unfold reparentDirsStep
  split
  · rw [setParent_kind, appendChild_kind]
  · rfl

theorem dirStep_len (trav : List (Nat × Nat)) (acc : Root × List Nat) (p : Nat × Nat) :
    (reparentDirsStep trav acc p).1.nodes.length = acc.1.nodes.length := by
  unfold reparentDirsStep
  split
  · rw [nodes_length_setParent, nodes_length_appendChild]
  · rfl

theorem dirStep_parent_ne (trav : List (Nat × Nat)) (acc : Root × List Nat)
    (p : Nat × Nat) (i : Nat) (h : i ≠ p.2) :
    (getNode (reparentDirsStep trav acc p).1 i).parent = (getNode acc.1 i).parent := by
  unfold reparentDirsStep
  split
  · rw [getNode_setParent_ne _ _ _ _ h, appendChild_parent]
  · rfl

theorem dirStep_children_ne (trav : List (Nat × Nat)) (acc : Root × List Nat)
    (p : Nat × Nat) (i : Nat) (h : ∀ q ∈ trav, i ≠ q.2) :
    (getNode (reparentDirsStep trav acc p).1 i).children
      = (getNode acc.1 i).children := by
  unfold reparentDirsStep
  split
  · rename_i q hm
    rw [setParent_children,
      getNode_appendChild_ne _ _ _ _ (h q (dirMatch_mem _ _ _ _ hm))]
  · rfl

theorem dirStep_removals (trav : List (Nat × Nat)) (acc : Root × List Nat)
    (p : Nat × Nat) (x : Nat) (h : x ∈ acc.2) :
    x ∈ (reparentDirsStep trav acc p).2 := by
  unfold reparentDirsStep
  split
  · split
    · exact h
    · exact List.mem_append_left _ h
  · exact h

theorem dirStep_removals_self (trav : List (Nat × Nat)) (acc : Root × List Nat)
    (p : Nat × Nat) (h : (dirMatch acc.1 trav p).isSome = true) :
    p.2 ∈ (reparentDirsStep trav acc p).2 := by
  unfold reparentDirsStep
  split
  · split
    · assumption
    · simp
  · rename_i hm
    rw [hm] at h
    exact absurd h (by simp)

/-- Invariants of the directory loop, mirroring `clFold_spec`. -/
theorem dirFold_spec (trav cs0 : List (Nat × Nat)) (acc : Root × List Nat) :
    (∀ i, (getNode (cs0.foldl (reparentDirsStep trav) acc).1 i).name
      = (getNode acc.1 i).name) ∧
    (∀ i, (getNode (cs0.foldl (reparentDirsStep trav) acc).1 i).kind
      = (getNode acc.1 i).kind) ∧
    ((cs0.foldl (reparentDirsStep trav) acc).1.nodes.length = acc.1.nodes.length) ∧
    (∀ i, (∀ p ∈ cs0, i ≠ p.2) →
      (getNode (cs0.foldl (reparentDirsStep trav) acc).1 i).parent
        = (getNode acc.1 i).parent) ∧
    (∀ i, (∀ q ∈ trav, i ≠ q.2) →
      (getNode (cs0.foldl (reparentDirsStep trav) acc).1 i).children
        = (getNode acc.1 i).children) ∧
    ((cs0.foldl (reparentDirsStep trav) acc).1.unions = acc.1.unions ∧
     (cs0.foldl (reparentDirsStep trav) acc).1.namespaces = acc.1.namespaces ∧
     (cs0.foldl (reparentDirsStep trav) acc).1.dirs = acc.1.dirs ∧
     (cs0.foldl (reparentDirsStep trav) acc).1.all_nodes = acc.1.all_nodes ∧
     (cs0.foldl (reparentDirsStep trav) acc).1.class_like = acc.1.class_like ∧
     (cs0.foldl (reparentDirsStep trav) acc).1.files = acc.1.files) ∧
    (∀ x ∈ acc.2, x ∈ (cs0.foldl (reparentDirsStep trav) acc).2) ∧
    (∀ p ∈ cs0, (dirMatch acc.1 trav p).isSome = true →
      p.2 ∈ (cs0.foldl (reparentDirsStep trav) acc).2) := by
  induction cs0 generalizing acc with
  | nil =>
    exact ⟨fun i => rfl, fun i => rfl, rfl, fun i _ => rfl, fun i _ => rfl,
      ⟨rfl, rfl, rfl, rfl, rfl, rfl⟩, fun x h => h,
      fun p h => absurd h (List.not_mem_nil p)⟩
  | cons p0 rest ih =>
    obtain ⟨ihn, ihk, ihl, ihp, ihc, ihf, ihr, ihm⟩ := ih (reparentDirsStep trav acc p0)
    rw [List.foldl_cons]
    refine ⟨?_, ?_, ?_, ?_, ?_, ?_, ?_, ?_⟩
    · intro i
      rw [ihn i, dirStep_name]
    · intro i
      rw [ihk i, dirStep_kind]
    · rw [ihl, dirStep_len]
    · intro i hi
      rw [ihp i (fun p hp => hi p (List.mem_cons_of_mem _ hp)),
        dirStep_parent_ne _ _ _ _ (hi p0 (List.mem_cons_self _ _))]
    · intro i hi
      rw [ihc i hi, dirStep_children_ne _ _ _ _ hi]
    · obtain ⟨f1, f2, f3, f4, f5, f6⟩ := dirStep_fields trav acc p0
      obtain ⟨g1, g2, g3, g4, g5, g6⟩ := ihf
      exact ⟨g1.trans f1, g2.trans f2, g3.trans f3, g4.trans f4, g5.trans f5, g6.trans f6⟩
    · intro x hx
      exact ihr x (dirStep_removals _ _ _ _ hx)
    · intro p hp hm
      rcases List.mem_cons.mp hp with hp0 | hpr
      · subst hp0
        exact ihr p.2 (dirStep_removals_self _ _ _ hm)
      · apply ihm p hpr
        rw [dirMatch_congr _ acc.1 _ _ (dirStep_name trav acc p0)]
        exact hm

theorem stableInsert_mem {α : Type} (lt : α → α → Bool) (x y : α) (l : List α) :
    y ∈ stableInsert lt x l ↔ y = x ∨ y ∈ l := by
  induction l with
  | nil => simp [stableInsert]
  | cons z zs ih =>
    unfold stableInsert
    split
    · simp [or_comm, or_assoc, or_left_comm]
    · rw [List.mem_cons, ih, List.mem_cons]
      tauto

theorem pySort_mem {α : Type} (lt : α → α → Bool) (x : α) (l : List α) :
    x ∈ pySort lt l ↔ x ∈ l := by
  have haux : ∀ (l2 : List α) (acc : List α),
      x ∈ l2.foldl (fun a y => stableInsert lt y a) acc ↔ x ∈ acc ∨ x ∈ l2 := by
    intro l2
    induction l2 with
    | nil => simp
    | cons z zs ih =>
      intro acc
      rw [List.foldl_cons, ih, stableInsert_mem]
      simp only [List.mem_cons]
      tauto
  rw [pySort, haux]
  simp

theorem stableInsert_rankPairwise (lt : Nat × Nat → Nat × Nat → Bool)
    (hle : ∀ a b, lt a b = true → a.1 ≤ b.1)
    (hge : ∀ a b, lt a b = false → b.1 ≤ a.1)
    (x : Nat × Nat) (l : List (Nat × Nat))
    (h : l.Pairwise (fun a b => a.1 ≤ b.1)) :
    (stableInsert lt x l).Pairwise (fun a b => a.1 ≤ b.1) := by
  induction l with
  | nil => simp [stableInsert]
  | cons z zs ih =>
    unfold stableInsert
    obtain ⟨hz, hzs⟩ := List.pairwise_cons.mp h
    split
    · rename_i hlt
      refine List.pairwise_cons.mpr ⟨?_, h⟩
      intro b hb
      rcases List.mem_cons.mp hb with hbz | hbzs
      · subst hbz
        exact hle x b hlt
      · exact Nat.le_trans (hle x z hlt) (hz b hbzs)
    · rename_i hnlt
      refine List.pairwise_cons.mpr ⟨?_, ih hzs⟩
      intro b hb
      rcases (stableInsert_mem lt x b zs).mp hb with hbx | hbzs
      · subst hbx
        exact hge b z (by simpa using hnlt)
      · exact hz b hbzs

theorem pySort_rankPairwise (lt : Nat × Nat → Nat × Nat → Bool)
    (hle : ∀ a b, lt a b = true → a.1 ≤ b.1)
    (hge : ∀ a b, lt a b = false → b.1 ≤ a.1)
    (l : List (Nat × Nat)) :
    (pySort lt l).Pairwise (fun a b => a.1 ≤ b.1) := by
  have haux : ∀ (l2 : List (Nat × Nat)) (acc : List (Nat × Nat)),
      acc.Pairwise (fun a b => a.1 ≤ b.1) →
      (l2.foldl (fun a y => stableInsert lt y a) acc).Pairwise (fun a b => a.1 ≤ b.1) := by
    intro l2
    induction l2 with
    | nil => exact fun acc h => h
    | cons z zs ih =>
      intro acc hacc
      rw [List.foldl_cons]
      exact ih _ (stableInsert_rankPairwise lt hle hge z acc hacc)
  exact haux l [] (List.Pairwise.nil)

theorem dirRankLt_le (r : Root) (a b : Nat × Nat) (h : dirRankLt r a b = true) :
    a.1 ≤ b.1 := by
  unfold dirRankLt at h
  split at h
  · exact Nat.le_of_lt (by assumption)
  · split at h
    · exact absurd h (by simp)
    · omega

theorem dirRankLt_ge (r : Root) (a b : Nat × Nat) (h : dirRankLt r a b = false) :
    b.1 ≤ a.1 := by
  unfold dirRankLt at h
  split at h
  · exact absurd h (by simp)
  · split at h
    · exact Nat.le_of_lt (by assumption)
    · omega

/-- In a rank-descending list, `takeWhile (rank ≥ 2)` keeps every entry of
rank at least two. -/
theorem takeWhile_rank_complete (l : List (Nat × Nat))
    (hp : l.Pairwise (fun a b : Nat × Nat => b.1 ≤ a.1))
    (p : Nat × Nat) (hmem : p ∈ l) (hrank : 2 ≤ p.1) :
    p ∈ l.takeWhile (fun q => !(decide (q.1 < 2))) := by
  induction l with
  | nil => exact absurd hmem (List.not_mem_nil p)
  | cons z zs ih =>
    obtain ⟨hz, hzs⟩ := List.pairwise_cons.mp hp
    rcases List.mem_cons.mp hmem with hpz | hpzs
    · subst hpz
      rw [List.takeWhile_cons, if_pos (by simpa using Nat.not_lt.mpr hrank)]
      exact List.mem_cons_self _ _
    · have hzrank : 2 ≤ z.1 := Nat.le_trans hrank (hz p hpzs)
      rw [List.takeWhile_cons, if_pos (by simpa using Nat.not_lt.mpr hzrank)]
      exact List.mem_cons_of_mem _ (ih hzs hpzs)

/-- Summary of the directory pass for the idempotence argument. -/
theorem reparentDirectories_spec (r : Root) (hnd : r.dirs.Nodup) :
    (∀ i, (getNode (reparentDirectories r) i).name = (getNode r i).name) ∧
    (∀ i, (getNode (reparentDirectories r) i).kind = (getNode r i).kind) ∧
    ((reparentDirectories r).nodes.length = r.nodes.length) ∧
    (∀ i, i ∉ r.dirs → (getNode (reparentDirectories r) i).parent
      = (getNode r i).parent) ∧
    (∀ i, i ∉ r.dirs → (getNode (reparentDirectories r) i).children
      = (getNode r i).children) ∧
    ((reparentDirectories r).unions = r.unions ∧
     (reparentDirectories r).namespaces = r.namespaces ∧
     (reparentDirectories r).class_like = r.class_like ∧
     (reparentDirectories r).all_nodes = r.all_nodes ∧
     (reparentDirectories r).files = r.files) ∧
    (∀ d ∈ (reparentDirectories r).dirs, d ∈ r.dirs ∧
      (2 ≤ dirRank r d →
        dirMatch r ((pySort (dirRankLt r) (r.dirs.map (fun x => (dirRank r x, x)))).reverse)
          (dirRank r d, d) = none)) := by
  obtain ⟨sn, sk, sl, sp, sc, ⟨f1, f2, f3, f4, f5, f6⟩, sr, sm⟩ :=
    dirFold_spec ((pySort (dirRankLt r) (r.dirs.map (fun x => (dirRank r x, x)))).reverse)
      (((pySort (dirRankLt r) (r.dirs.map (fun x => (dirRank r x, x)))).reverse).takeWhile
        (fun q => !(decide (q.1 < 2))))
      (r, [])
  have htravdirs : ∀ q ∈ (pySort (dirRankLt r)
      (r.dirs.map (fun x => (dirRank r x, x)))).reverse, q.2 ∈ r.dirs := by
    intro q hq
    rw [List.mem_reverse, pySort_mem] at hq
    obtain ⟨d, hd, hqd⟩ := List.mem_map.mp hq
    rw [← hqd]
    exact hd
  have hgn : ∀ i, getNode (reparentDirectories r) i
      = getNode ((((pySort (dirRankLt r) (r.dirs.map (fun x => (dirRank r x, x)))).reverse).takeWhile
          (fun q => !(decide (q.1 < 2)))).foldl
          (reparentDirsStep ((pySort (dirRankLt r)
            (r.dirs.map (fun x => (dirRank r x, x)))).reverse)) (r, [])).1 i :=
    fun i => rfl
  refine ⟨fun i => by rw [hgn i, sn i],
    fun i => by rw [hgn i, sk i],
    sl,
    ?_, ?_, ⟨f1, f2, f5, f4, f6⟩, ?_⟩
  · intro i hi
    rw [hgn i]
    apply sp i
    intro p hp
    have hptrav := (List.takeWhile_sublist _).subset hp
    intro hh
    exact hi (hh ▸ htravdirs p hptrav)
  · intro i hi
    rw [hgn i]
    apply sc i
    intro q hq hh
    exact hi (hh ▸ htravdirs q hq)
  · intro d hmem
    have hdirs0 : (reparentDirectories r).dirs
        = ((((pySort (dirRankLt r) (r.dirs.map (fun x => (dirRank r x, x)))).reverse).takeWhile
            (fun q => !(decide (q.1 < 2)))).foldl
            (reparentDirsStep ((pySort (dirRankLt r)
              (r.dirs.map (fun x => (dirRank r x, x)))).reverse)) (r, [])).2.foldl
            (fun l2 rm => l2.erase rm)
            ((((pySort (dirRankLt r) (r.dirs.map (fun x => (dirRank r x, x)))).reverse).takeWhile
            (fun q => !(decide (q.1 < 2)))).foldl
            (reparentDirsStep ((pySort (dirRankLt r)
              (r.dirs.map (fun x => (dirRank r x, x)))).reverse)) (r, [])).1.dirs := rfl
    rw [hdirs0, f3] at hmem
    have hin : d ∈ r.dirs := eraseFold_subset _ _ _ hmem
    refine ⟨hin, fun hrank => ?_⟩
    have hranks : (dirRank r d, d) ∈ r.dirs.map (fun x => (dirRank r x, x)) :=
      List.mem_map_of_mem _ hin
    have htrav : (dirRank r d, d) ∈ (pySort (dirRankLt r)
        (r.dirs.map (fun x => (dirRank r x, x)))).reverse := by
      rw [List.mem_reverse, pySort_mem]
      exact hranks
    have hpair : ((pySort (dirRankLt r)
        (r.dirs.map (fun x => (dirRank r x, x)))).reverse).Pairwise
          (fun a b : Nat × Nat => b.1 ≤ a.1) := by
      rw [List.pairwise_reverse]
      exact pySort_rankPairwise _ (dirRankLt_le r) (dirRankLt_ge r) _
    have hproc := takeWhile_rank_complete _ hpair (dirRank r d, d) htrav hrank
    by_cases hm : (dirMatch r ((pySort (dirRankLt r)
        (r.dirs.map (fun x => (dirRank r x, x)))).reverse) (dirRank r d, d)).isSome = true
    · exact absurd hmem (eraseFold_not_mem _ _ _ hnd (sm _ hproc hm))
    · rw [Option.not_isSome_iff_eq_none] at hm
      exact hm

theorem getNode_oob (r : Root) (i : Nat) (h : r.nodes.length ≤ i) :
    getNode r i = mkNode "" "" "" := by
  unfold getNode
  rw [List.getD_eq_getElem?_getD, List.getElem?_eq_none h]
  rfl

theorem nodeLt_congr (a a1 b b1 : Node) (hna : a.name = a1.name)
    (hka : a.kind = a1.kind) (hnb : b.name = b1.name) (hkb : b.kind = b1.kind) :
    nodeLt a b = nodeLt a1 b1 := by
  unfold nodeLt
  rw [hna, hka, hnb, hkb]

theorem nsRemovalsFold_mono (r : Root) (ns : List Nat) (acc : List Nat) (x : Nat)
    (h : x ∈ acc) :
    x ∈ ns.foldl (fun rem n =>
      match (getNode r n).parent with
      | some p =>
          if (getNode r p).kind == "namespace" && !(rem.contains n) then rem ++ [n]
          else rem
      | none => rem) acc := by
  induction ns generalizing acc with
  | nil => exact h
  | cons n0 rest ih =>
    rw [List.foldl_cons]
    apply ih
    split
    · split
      · exact List.mem_append_left _ h
      · exact h
    · exact h

theorem nsRemovalsFold_mem (r : Root) (ns : List Nat) (acc : List Nat) (n p : Nat)
    (hn : n ∈ ns) (hp : (getNode r n).parent = some p)
    (hk : (getNode r p).kind = "namespace") :
    n ∈ ns.foldl (fun rem m =>
      match (getNode r m).parent with
      | some q =>
          if (getNode r q).kind == "namespace" && !(rem.contains m) then rem ++ [m]
          else rem
      | none => rem) acc := by
  induction ns generalizing acc with
  | nil => exact absurd hn (List.not_mem_nil n)
  | cons n0 rest ih =>
    rw [List.foldl_cons]
    rcases List.mem_cons.mp hn with hn0 | hnr
    · subst hn0
      by_cases hc : acc.contains n = true
      · apply nsRemovalsFold_mono
        split
        · split
          · exact List.mem_append_left _ (by simpa using hc)
          · simpa using hc
        · simpa using hc
      · have hcond : ((getNode r p).kind == "namespace" && !(acc.contains n)) = true := by
          simp only [hk, beq_self_eq_true, Bool.true_and, Bool.not_eq_true]
          simpa using hc
        apply nsRemovalsFold_mono
        simp only [hp]
        rw [if_pos hcond]
        simp
    · exact ih _ hnr

/-- Summary of the namespace-collapse pass: nodes are untouched, only the
namespace collection shrinks, and every surviving namespace has no namespace
parent. -/
theorem reparentNamespaces_spec (r : Root) (hnd : r.namespaces.Nodup) :
    (∀ i, getNode (reparentNamespaces r) i = getNode r i) ∧
    ((reparentNamespaces r).unions = r.unions ∧
     (reparentNamespaces r).class_like = r.class_like ∧
     (reparentNamespaces r).dirs = r.dirs ∧
     (reparentNamespaces r).all_nodes = r.all_nodes ∧
     (reparentNamespaces r).files = r.files ∧
     (reparentNamespaces r).nodes = r.nodes) ∧
    (∀ n ∈ (reparentNamespaces r).namespaces, n ∈ r.namespaces ∧
      (∀ p, (getNode r n).parent = some p → (getNode r p).kind ≠ "namespace")) := by
  refine ⟨fun i => rfl, ⟨rfl, rfl, rfl, rfl, rfl, rfl⟩, ?_⟩
  intro n hmem
  have hsub : n ∈ r.namespaces := eraseFold_subset _ _ _ hmem
  refine ⟨hsub, ?_⟩
  intro p hp hk
  exact absurd hmem (eraseFold_not_mem _ _ _ hnd
    (nsRemovalsFold_mem r r.namespaces [] n p hsub hp hk))

theorem dedupStep_children_self (r : Root) (i : Nat) :
    (getNode (modifyNode r i (fun n => { n with children := n.children.dedup })) i).children
      = (getNode r i).children.dedup := by
  by_cases hlt : i < r.nodes.length
  · rw [getNode_modifyNode_self _ _ _ hlt]
  · unfold modifyNode setNode getNode
    rw [List.set_eq_of_length_le (Nat.le_of_not_lt hlt)]
    show (r.nodes.getD i (mkNode "" "" "")).children
      = (r.nodes.getD i (mkNode "" "" "")).children.dedup
    rw [List.getD_eq_getElem?_getD, List.getElem?_eq_none (Nat.le_of_not_lt hlt)]
    rfl

/-- Invariants of the de-duplication loop: every field but `children` is
untouched, the root collections are untouched, and the children of every
visited node are de-duplicated. -/
theorem dedupFold_spec (is : List Nat) (r : Root) :
    (∀ i, (getNode (is.foldl (fun r2 j => modifyNode r2 j (fun n =>
        { n with children := n.children.dedup })) r) i).name = (getNode r i).name) ∧
    (∀ i, (getNode (is.foldl (fun r2 j => modifyNode r2 j (fun n =>
        { n with children := n.children.dedup })) r) i).kind = (getNode r i).kind) ∧
    (∀ i, (getNode (is.foldl (fun r2 j => modifyNode r2 j (fun n =>
        { n with children := n.children.dedup })) r) i).parent = (getNode r i).parent) ∧
    (∀ i, (getNode (is.foldl (fun r2 j => modifyNode r2 j (fun n =>
        { n with children := n.children.dedup })) r) i).def_in_file
      = (getNode r i).def_in_file) ∧
    ((is.foldl (fun r2 j => modifyNode r2 j (fun n =>
        { n with children := n.children.dedup })) r).nodes.length = r.nodes.length) ∧
    ((is.foldl (fun r2 j => modifyNode r2 j (fun n =>
        { n with children := n.children.dedup })) r).unions = r.unions ∧
     (is.foldl (fun r2 j => modifyNode r2 j (fun n =>
        { n with children := n.children.dedup })) r).namespaces = r.namespaces ∧
     (is.foldl (fun r2 j => modifyNode r2 j (fun n =>
        { n with children := n.children.dedup })) r).class_like = r.class_like ∧
     (is.foldl (fun r2 j => modifyNode r2 j (fun n =>
        { n with children := n.children.dedup })) r).dirs = r.dirs ∧
     (is.foldl (fun r2 j => modifyNode r2 j (fun n =>
        { n with children := n.children.dedup })) r).all_nodes = r.all_nodes ∧
     (is.foldl (fun r2 j => modifyNode r2 j (fun n =>
        { n with children := n.children.dedup })) r).files = r.files) ∧
    (∀ i ∈ is, (getNode (is.foldl (fun r2 j => modifyNode r2 j (fun n =>
        { n with children := n.children.dedup })) r) i).children
      = (getNode r i).children.dedup) ∧
    (∀ i, i ∉ is → (getNode (is.foldl (fun r2 j => modifyNode r2 j (fun n =>
        { n with children := n.children.dedup })) r) i).children
      = (getNode r i).children) := by
  induction is generalizing r with
  | nil =>
    exact ⟨fun i => rfl, fun i => rfl, fun i => rfl, fun i => rfl, rfl,
      ⟨rfl, rfl, rfl, rfl, rfl, rfl⟩, fun i h => absurd h (List.not_mem_nil i),
      fun i _ => rfl⟩
  | cons i0 rest ih =>
    obtain ⟨ihn, ihk, ihp, ihd, ihl, ihf, ihm, iho⟩ :=
      ih (modifyNode r i0 (fun n => { n with children := n.children.dedup }))
    rw [List.foldl_cons]
    have hstepn : ∀ i, (getNode (modifyNode r i0 (fun n =>
        { n with children := n.children.dedup })) i).name = (getNode r i).name :=
      getNode_modifyNode_field Node.name r i0 _ (fun n => rfl)
    have hstepk : ∀ i, (getNode (modifyNode r i0 (fun n =>
        { n with children := n.children.dedup })) i).kind = (getNode r i).kind :=
      getNode_modifyNode_field Node.kind r i0 _ (fun n => rfl)
    have hstepp : ∀ i, (getNode (modifyNode r i0 (fun n =>
        { n with children := n.children.dedup })) i).parent = (getNode r i).parent :=
      getNode_modifyNode_field Node.parent r i0 _ (fun n => rfl)
    have hstepd : ∀ i, (getNode (modifyNode r i0 (fun n =>
        { n with children := n.children.dedup })) i).def_in_file
        = (getNode r i).def_in_file :=
      getNode_modifyNode_field Node.def_in_file r i0 _ (fun n => rfl)
    refine ⟨fun i => (ihn i).trans (hstepn i),
      fun i => (ihk i).trans (hstepk i),
      fun i => (ihp i).trans (hstepp i),
      fun i => (ihd i).trans (hstepd i),
      ihl.trans (nodes_length_modifyNode _ _ _),
      ⟨ihf.1, ihf.2.1, ihf.2.2.1, ihf.2.2.2.1, ihf.2.2.2.2.1, ihf.2.2.2.2.2⟩,
      ?_, ?_⟩
    · intro i hi
      by_cases hir : i ∈ rest
      · rw [ihm i hir]
        by_cases hii : i = i0
        · subst hii
          rw [dedupStep_children_self, List.dedup_idem]
        · rw [getNode_modifyNode_ne _ _ _ _ hii]
      · rcases List.mem_cons.mp hi with hii | hir2
        · subst hii
          rw [iho i hir, dedupStep_children_self]
        · exact absurd hir2 hir
    · intro i hi
      have hii : i ≠ i0 := fun hh => hi (by rw [hh]; exact List.mem_cons_self _ _)
      have hir : i ∉ rest := fun hh => hi (List.mem_cons_of_mem _ hh)
      rw [iho i hir, getNode_modifyNode_ne _ _ _ _ hii]

theorem mem_takeWhile_pred {α : Type} (p : α → Bool) (l : List α) (a : α)
    (h : a ∈ l.takeWhile p) : p a = true := by
  induction l with
  | nil => exact absurd h (List.not_mem_nil a)
  | cons x rest ih =>
    rw [List.takeWhile_cons] at h
    split at h
    · rcases List.mem_cons.mp h with hax | har
      · subst hax
        assumption
      · exact ih har
    · exact absurd h (List.not_mem_nil a)

theorem dirRank_congr (r1 r2 : Root) (d : Nat)
    (h : (getNode r1 d).name = (getNode r2 d).name) : dirRank r1 d = dirRank r2 d := by
  unfold dirRank
  rw [h]

theorem dirRankLt_congr (r1 r2 : Root)
    (hn : ∀ i, (getNode r1 i).name = (getNode r2 i).name)
    (hk : ∀ i, (getNode r1 i).kind = (getNode r2 i).kind) :
    dirRankLt r1 = dirRankLt r2 := by
  funext a b
  unfold dirRankLt
  rw [nodeLt_congr (getNode r1 a.2) (getNode r2 a.2) (getNode r1 b.2) (getNode r2 b.2)
    (hn a.2) (hk a.2) (hn b.2) (hk b.2)]

/-- C7: the reparenting engine is NOT idempotent.  On `c7Root` (namespace `A`
with nested namespace `A::B` and union `A::B::U`) the first run attaches the
union to `A::B` and removes `A::B` from the namespace collection; the second
run, no longer finding namespace `A::B`, re-attaches the union to `A`, so the
union's parent differs between the first and second run. -/
theorem C7_counterexample :
    ¬ (∀ r : Root, reparentAll (reparentAll r) = reparentAll r) := fun h =>
  absurd (congrArg (fun rr => (getNode rr 2).parent) (h c7Root)) (by decide)

set_option maxHeartbeats 1600000 in
/-- C7 (amended): the reparenting engine is idempotent on well-formed
registries — no pending unions, every namespace child already carrying its
namespace's scope in its name, kind-consistent namespace/class-like/directory
collections, and duplicate-free collections.  On such a registry a second run
of the five sub-passes plus child de-duplication changes nothing at all (full
registry equality, hence parents, names, children and every per-kind
collection are preserved exactly).  Without these hypotheses idempotence
fails, as the companion counterexample shows. -/
theorem C7_amended (r : Root)
    (h1 : r.unions = [])
    (h2 : ∀ n ∈ r.namespaces, ∀ c ∈ (getNode r n).children,
      pyInStr ((getNode r n).name ++ "::") (getNode r c).name = true)
    (hk1 : ∀ i ∈ r.namespaces, (getNode r i).kind = "namespace")
    (hk2 : ∀ i ∈ r.class_like,
      (getNode r i).kind = "class" ∨ (getNode r i).kind = "struct")
    (hk3 : ∀ i ∈ r.dirs, (getNode r i).kind = "dir")
    (hn1 : r.class_like.Nodup) (hn2 : r.dirs.Nodup) (hn3 : r.namespaces.Nodup) :
    reparentAll (reparentAll r) = reparentAll r := by
  have hns_ncl : ∀ n ∈ r.namespaces, n ∉ r.class_like := by
    intro n hn hcl
    rcases hk2 n hcl with h | h <;> rw [hk1 n hn] at h <;>
      exact absurd h (by decide)
  have hns_ndir : ∀ n ∈ r.namespaces, n ∉ r.dirs := by
    intro n hn hd
    have hkd := hk3 n hd
    rw [hk1 n hn] at hkd
    exact absurd hkd (by decide)
  obtain ⟨CLn, CLk, CLl, CLp, CLc, ⟨CLu, CLns, CLd, CLa, CLf⟩, CLm⟩ :=
    reparentClassLike_spec r hn1
  have hndirs_rc : (reparentClassLike r).dirs.Nodup := by rw [CLd]; exact hn2
  obtain ⟨DSn, DSk, DSl, DSp, DSc, ⟨DSu, DSns, DScl, DSa, DSf⟩, DSm⟩ :=
    reparentDirectories_spec (reparentClassLike r) hndirs_rc
  have hRDn : ∀ i, (getNode (reparentDirectories (reparentClassLike r)) i).name
      = (getNode r i).name := fun i => by rw [DSn i, CLn i]
  have hRDc_ns : ∀ n ∈ r.namespaces,
      (getNode (reparentDirectories (reparentClassLike r)) n).children
        = (getNode r n).children := by
    intro n hn
    rw [DSc n (by rw [CLd]; exact hns_ndir n hn), CLc n (hns_ncl n hn)]
  have hrename : renameToNamespaceScopes (reparentDirectories (reparentClassLike r))
      = reparentDirectories (reparentClassLike r) := by
    apply renameToNamespaceScopes_id
    intro n hn c hc
    rw [DSns, CLns] at hn
    rw [hRDc_ns n hn] at hc
    rw [hRDn n, hRDn c]
    exact h2 n hn c hc
  have hR1 : reparentAll r = dedupChildrenAll (reparentNamespaces
      (reparentDirectories (reparentClassLike r))) := by
    unfold reparentAll
    rw [reparentUnions_id r h1, hrename]
  have hndns_rd : (reparentDirectories (reparentClassLike r)).namespaces.Nodup := by
    rw [DSns, CLns]; exact hn3
  obtain ⟨NSg, ⟨NSu, NScl, NSd, NSa, NSf, NSnodes⟩, NSm⟩ :=
    reparentNamespaces_spec (reparentDirectories (reparentClassLike r)) hndns_rd
  obtain ⟨DDn, DDk, DDp, DDd, DDl, ⟨DDu, DDns, DDcl, DDdir, DDa, DDf⟩, DDm, DDo⟩ :=
    dedupFold_spec (reparentNamespaces (reparentDirectories
      (reparentClassLike r))).all_nodes
      (reparentNamespaces (reparentDirectories (reparentClassLike r)))
  have hdca : dedupChildrenAll (reparentNamespaces (reparentDirectories
      (reparentClassLike r)))
      = (reparentNamespaces (reparentDirectories
          (reparentClassLike r))).all_nodes.foldl
          (fun r2 j => modifyNode r2 j (fun n =>
            { n with children := n.children.dedup }))
          (reparentNamespaces (reparentDirectories (reparentClassLike r))) := rfl
  have hR1n : ∀ i, (getNode (reparentAll r) i).name = (getNode r i).name := by
    intro i
    rw [hR1, hdca, DDn i, NSg i, DSn i, CLn i]
  have hR1k : ∀ i, (getNode (reparentAll r) i).kind = (getNode r i).kind := by
    intro i
    rw [hR1, hdca, DDk i, NSg i, DSk i, CLk i]
  have hR1u : (reparentAll r).unions = [] := by
    rw [hR1, hdca, DDu, NSu, DSu, CLu, h1]
  have hR1cl : (reparentAll r).class_like = (reparentClassLike r).class_like := by
    rw [hR1, hdca, DDcl, NScl, DScl]
  have hR1d : (reparentAll r).dirs
      = (reparentDirectories (reparentClassLike r)).dirs := by
    rw [hR1, hdca, DDdir, NSd]
  have hR1ns : (reparentAll r).namespaces
      = (reparentNamespaces (reparentDirectories
          (reparentClassLike r))).namespaces := by
    rw [hR1, hdca, DDns]
  have hR1a : (reparentAll r).all_nodes = r.all_nodes := by
    rw [hR1, hdca, DDa, NSa, DSa, CLa]
  have hR1c_ns : ∀ n ∈ r.namespaces, ∀ c, c ∈ (getNode (reparentAll r) n).children →
      c ∈ (getNode r n).children := by
    intro n hn c hc
    rw [hR1, hdca] at hc
    by_cases hmem : n ∈ (reparentNamespaces (reparentDirectories
        (reparentClassLike r))).all_nodes
    · rw [DDm n hmem] at hc
      have hc2 := List.mem_dedup.mp hc
      rw [NSg n, hRDc_ns n hn] at hc2
      exact hc2
    · rw [DDo n hmem, NSg n, hRDc_ns n hn] at hc
      exact hc
  have hR1p_ns : ∀ n ∈ r.namespaces, (getNode (reparentAll r) n).parent
      = (getNode (reparentDirectories (reparentClassLike r)) n).parent := by
    intro n hn
    rw [hR1, hdca, DDp n, NSg n]
  have hdirRankR1 : ∀ d, dirRank (reparentAll r) d = dirRank r d :=
    fun d => dirRank_congr _ _ d (hR1n d)
  have hdirRankRC : ∀ d, dirRank (reparentClassLike r) d = dirRank r d :=
    fun d => dirRank_congr _ _ d (CLn d)
  have hdirLtRC : dirRankLt (reparentClassLike r) = dirRankLt r :=
    dirRankLt_congr _ _ CLn CLk
  have hmapRC : (fun x => (dirRank (reparentClassLike r) x, x))
      = (fun x => (dirRank r x, x)) := by
    funext x; rw [hdirRankRC x]
  have s1 : reparentUnions (reparentAll r) = reparentAll r :=
    reparentUnions_id _ hR1u
  have s2 : reparentClassLike (reparentAll r) = reparentAll r := by
    apply reparentClassLike_id
    intro cl hcl
    rw [hR1cl] at hcl
    obtain ⟨hclr, hnone⟩ := CLm cl hcl
    rw [classLikeMatch_congr (reparentAll r) r _ cl hR1n]
    apply classLikeMatch_none_mono r _ r.class_like cl _ hnone
    intro x hx
    rw [hR1cl] at hx
    exact (CLm x hx).1
  have s3 : reparentDirectories (reparentAll r) = reparentAll r := by
    apply reparentDirectories_id
    intro p hp
    have hpred := mem_takeWhile_pred _ _ p hp
    have hmem2 : p ∈ ((pySort (dirRankLt (reparentAll r))
        ((reparentAll r).dirs.map (fun d => (dirRank (reparentAll r) d, d)))).reverse) :=
      (List.takeWhile_sublist _).subset hp
    rw [List.mem_reverse, pySort_mem] at hmem2
    obtain ⟨d, hd, hpd⟩ := List.mem_map.mp hmem2
    subst hpd
    have hrank2 : 2 ≤ dirRank (reparentAll r) d := by
      simp only [Bool.not_eq_true'] at hpred
      exact Nat.le_of_not_lt (of_decide_eq_false hpred)
    rw [hdirRankR1 d] at hrank2
    rw [hR1d] at hd
    obtain ⟨hdrc, hmatch⟩ := DSm d hd
    rw [hdirRankRC d, CLd, hdirLtRC, hmapRC,
      dirMatch_congr (reparentClassLike r) r _ _ CLn] at hmatch
    have hmr := hmatch hrank2
    rw [hdirRankR1 d, dirMatch_congr (reparentAll r) r _ _ hR1n]
    apply dirMatch_none_mono r _
      ((pySort (dirRankLt r) (r.dirs.map (fun x => (dirRank r x, x)))).reverse) _ _ hmr
    intro q hq
    rw [List.mem_reverse, pySort_mem] at hq
    obtain ⟨d2, hd2, hqd⟩ := List.mem_map.mp hq
    rw [List.mem_reverse, pySort_mem]
    apply List.mem_map.mpr
    refine ⟨d2, ?_, ?_⟩
    · rw [hR1d] at hd2
      rw [← CLd]
      exact (DSm d2 hd2).1
    · rw [← hqd, hdirRankR1 d2]
  have s4 : renameToNamespaceScopes (reparentAll r) = reparentAll r := by
    apply renameToNamespaceScopes_id
    intro n hn c hc
    rw [hR1ns] at hn
    obtain ⟨hnrd, _⟩ := NSm n hn
    rw [DSns, CLns] at hnrd
    rw [hR1n n, hR1n c]
    exact h2 n hnrd c (hR1c_ns n hnrd c hc)
  have s5 : reparentNamespaces (reparentAll r) = reparentAll r := by
    apply reparentNamespaces_id
    intro n hn p hp
    rw [hR1ns] at hn
    obtain ⟨hnrd, hguard⟩ := NSm n hn
    have hnr := hnrd
    rw [DSns, CLns] at hnr
    rw [hR1p_ns n hnr] at hp
    have hkguard := hguard p hp
    rw [DSk p, CLk p] at hkguard
    rw [hR1k p]
    exact hkguard
  have s6 : dedupChildrenAll (reparentAll r) = reparentAll r := by
    apply dedupChildrenAll_id
    intro i hi
    rw [hR1a] at hi
    rw [hR1, hdca]
    have hmem : i ∈ (reparentNamespaces (reparentDirectories
        (reparentClassLike r))).all_nodes := by
      rw [NSa, DSa, CLa]; exact hi
    rw [DDm i hmem, List.dedup_idem]
  calc reparentAll (reparentAll r)
      = dedupChildrenAll (reparentNamespaces (renameToNamespaceScopes
          (reparentDirectories (reparentClassLike
            (reparentUnions (reparentAll r)))))) := rfl
    _ = reparentAll r := by rw [s1, s2, s3, s4, s5, s6]

theorem C7_witness :
    reparentAll (reparentAll c7WitnessRoot) = reparentAll c7WitnessRoot :=
  C7_amended c7WitnessRoot rfl (by decide) (by decide) (by decide) (by decide)
    (by decide) (by decide) (by decide)

theorem foldl_inv {α β : Type} (step : α → β → α) (P : α → Prop)
    (l : List β) (acc : α) (h : P acc) (hstep : ∀ a b, P a → P (step a b)) :
    P (l.foldl step acc) := by
  induction l generalizing acc with
  | nil => exact h
  | cons x xs ih => exact ih (step acc x) (hstep acc x h)

/-- The edge invariant transfers along any transformation that keeps the
arena size and every parent field, and only grows (as sets) the children
lists. -/
theorem parentChildInv_of_frame_mem (r r2 : Root)
    (hlen : r2.nodes.length = r.nodes.length)
    (hp : ∀ i, (getNode r2 i).parent = (getNode r i).parent)
    (hc : ∀ q x, x ∈ (getNode r q).children → x ∈ (getNode r2 q).children)
    (h : parentChildInv r) : parentChildInv r2 := by
  intro i hi q hq
  rw [hlen] at hi
  rw [Option.mem_def, hp i] at hq
  exact hc q i (h i hi q (Option.mem_def.mpr hq))

/-- The common adoption idiom of every reparenting operation — append the
child to the parent's list, then assign the parent pointer — preserves the
edge invariant whenever the new parent exists in the arena. -/
theorem parentChildInv_adopt (r : Root) (p c : Nat) (hp : p < r.nodes.length)
    (h : parentChildInv r) :
    parentChildInv (setParent (appendChild r p c) c (some p)) := by
  intro i hi q hq
  rw [nodes_length_setParent, nodes_length_appendChild] at hi
  rw [Option.mem_def] at hq
  rw [setParent_children]
  by_cases hic : i = c
  · rw [hic] at hq hi ⊢
    rw [getNode_setParent_self _ _ _ (by rw [nodes_length_appendChild]; exact hi)] at hq
    have hqp : p = q := Option.some.inj hq
    subst hqp
    rw [getNode_appendChild_self r p c hp]
    exact List.mem_append_right _ (List.mem_singleton.mpr rfl)
  · rw [getNode_setParent_ne _ _ _ _ hic, appendChild_parent] at hq
    exact appendChild_children_mono r p c q i (h i hi q (Option.mem_def.mpr hq))

theorem foldl_inv_mem {α β : Type} (step : α → β → α) (P : α → Prop) :
    ∀ (l : List β) (acc : α), P acc →
    (∀ a b, b ∈ l → P a → P (step a b)) → P (l.foldl step acc) := by
  intro l
  induction l with
  | nil => exact fun acc h _ => h
  | cons x xs ih =>
    intro acc h hstep
    exact ih (step acc x) (hstep acc x (List.mem_cons_self x xs) h)
      (fun a b hb => hstep a b (List.mem_cons_of_mem x hb))

theorem unionStep_top_fields (cl_list ns_list : List Nat) (acc : Root × List Nat)
    (u : Nat) :
    (reparentUnionStep cl_list ns_list acc u).1.class_like = acc.1.class_like ∧
    (reparentUnionStep cl_list ns_list acc u).1.namespaces = acc.1.namespaces ∧
    (reparentUnionStep cl_list ns_list acc u).1.dirs = acc.1.dirs ∧
    (reparentUnionStep cl_list ns_list acc u).1.all_nodes = acc.1.all_nodes ∧
    (reparentUnionStep cl_list ns_list acc u).1.files = acc.1.files := by
  unfold reparentUnionStep
  split
  · exact ⟨rfl, rfl, rfl, rfl, rfl⟩
  · split
    · exact ⟨rfl, rfl, rfl, rfl, rfl⟩
    · exact ⟨rfl, rfl, rfl, rfl, rfl⟩

theorem unionStep_inv (cl_list ns_list : List Nat) (acc : Root × List Nat) (u : Nat)
    (hcl : ∀ i ∈ cl_list, i < acc.1.nodes.length)
    (hns : ∀ i ∈ ns_list, i < acc.1.nodes.length)
    (h : parentChildInv acc.1) :
    parentChildInv (reparentUnionStep cl_list ns_list acc u).1 := by
  unfold reparentUnionStep
  split
  · rename_i cl hm
    exact parentChildInv_adopt _ _ _ (hcl cl (unionClassMatch_mem _ _ _ _ hm)) h
  · split
    · rename_i n hm
      exact parentChildInv_adopt _ _ _ (hns n (unionNsMatch_mem _ _ _ _ hm)) h
    · exact h

/-- Arena size and the collections untouched by the union pass survive it. -/
theorem reparentUnions_frame0 (r : Root) :
    (reparentUnions r).nodes.length = r.nodes.length ∧
    (reparentUnions r).class_like = r.class_like ∧
    (reparentUnions r).namespaces = r.namespaces ∧
    (reparentUnions r).dirs = r.dirs ∧
    (reparentUnions r).all_nodes = r.all_nodes ∧
    (reparentUnions r).files = r.files := by
  have hfold := foldl_inv (reparentUnionStep r.class_like r.namespaces)
    (fun acc : Root × List Nat => acc.1.nodes.length = r.nodes.length ∧
      acc.1.class_like = r.class_like ∧ acc.1.namespaces = r.namespaces ∧
      acc.1.dirs = r.dirs ∧ acc.1.all_nodes = r.all_nodes ∧ acc.1.files = r.files)
    r.unions (r, []) ⟨rfl, rfl, rfl, rfl, rfl, rfl⟩ (fun a b hPa => by
      obtain ⟨h1, h2, h3, h4, h5, h6⟩ := hPa
      obtain ⟨g1, g2, g3, g4, g5⟩ := unionStep_top_fields r.class_like r.namespaces a b
      exact ⟨(unionStep_len _ _ _ _).trans h1, g1.trans h2, g2.trans h3,
        g3.trans h4, g4.trans h5, g5.trans h6⟩)
  exact hfold

theorem reparentUnions_inv (r : Root)
    (hcl : ∀ i ∈ r.class_like, i < r.nodes.length)
    (hns : ∀ i ∈ r.namespaces, i < r.nodes.length)
    (h : parentChildInv r) : parentChildInv (reparentUnions r) := by
  have hfold := foldl_inv (reparentUnionStep r.class_like r.namespaces)
    (fun acc : Root × List Nat =>
      acc.1.nodes.length = r.nodes.length ∧ parentChildInv acc.1)
    r.unions (r, []) ⟨rfl, h⟩ (fun a b hPa =>
      ⟨(unionStep_len _ _ _ _).trans hPa.1,
       unionStep_inv _ _ a b (fun i hi => by rw [hPa.1]; exact hcl i hi)
         (fun i hi => by rw [hPa.1]; exact hns i hi) hPa.2⟩)
  intro i hi q hq
  exact hfold.2 i hi q hq

theorem clStep_inv (cl_list : List Nat) (acc : Root × List Nat) (cl : Nat)
    (hcl : ∀ i ∈ cl_list, i < acc.1.nodes.length)
    (h : parentChildInv acc.1) :
    parentChildInv (reparentClassLikeStep cl_list acc cl).1 := by
  unfold reparentClassLikeStep
  split
  · rename_i pcl hm
    exact parentChildInv_adopt _ _ _ (hcl pcl (classLikeMatch_mem _ _ _ _ hm)) h
  · exact h

/-- Arena size and the collections untouched by the class-like pass survive
it. -/
theorem reparentClassLike_frame0 (r : Root) :
    (reparentClassLike r).nodes.length = r.nodes.length ∧
    (reparentClassLike r).namespaces = r.namespaces ∧
    (reparentClassLike r).dirs = r.dirs ∧
    (reparentClassLike r).unions = r.unions ∧
    (reparentClassLike r).all_nodes = r.all_nodes ∧
    (reparentClassLike r).files = r.files := by
  have hfold := foldl_inv (reparentClassLikeStep r.class_like)
    (fun acc : Root × List Nat => acc.1.nodes.length = r.nodes.length ∧
      acc.1.namespaces = r.namespaces ∧ acc.1.dirs = r.dirs ∧
      acc.1.unions = r.unions ∧ acc.1.all_nodes = r.all_nodes ∧
      acc.1.files = r.files)
    r.class_like (r, []) ⟨rfl, rfl, rfl, rfl, rfl, rfl⟩ (fun a b hPa => by
      obtain ⟨h1, h2, h3, h4, h5, h6⟩ := hPa
      obtain ⟨g1, g2, g3, g4, g5, g6⟩ := clStep_fields r.class_like a b
      exact ⟨(clStep_len _ _ _).trans h1, g2.trans h2, g3.trans h3,
        g1.trans h4, g4.trans h5, g6.trans h6⟩)
  exact hfold

theorem reparentClassLike_inv (r : Root)
    (hcl : ∀ i ∈ r.class_like, i < r.nodes.length)
    (h : parentChildInv r) : parentChildInv (reparentClassLike r) := by
  have hfold := foldl_inv (reparentClassLikeStep r.class_like)
    (fun acc : Root × List Nat =>
      acc.1.nodes.length = r.nodes.length ∧ parentChildInv acc.1)
    r.class_like (r, []) ⟨rfl, h⟩ (fun a b hPa =>
      ⟨(clStep_len _ _ _).trans hPa.1,
       clStep_inv _ a b (fun i hi => by rw [hPa.1]; exact hcl i hi) hPa.2⟩)
  intro i hi q hq
  exact hfold.2 i hi q hq

theorem dirStep_inv (trav : List (Nat × Nat)) (acc : Root × List Nat) (p : Nat × Nat)
    (htrav : ∀ x ∈ trav, x.2 < acc.1.nodes.length)
    (h : parentChildInv acc.1) :
    parentChildInv (reparentDirsStep trav acc p).1 := by
  unfold reparentDirsStep
  split
  · rename_i q hm
    exact parentChildInv_adopt _ _ _ (htrav q (dirMatch_mem _ _ _ _ hm)) h
  · exact h

/-- Arena size and the collections untouched by the directory pass survive
it. -/
theorem reparentDirectories_frame0 (r : Root) :
    (reparentDirectories r).nodes.length = r.nodes.length ∧
    (reparentDirectories r).namespaces = r.namespaces ∧
    (reparentDirectories r).class_like = r.class_like ∧
    (reparentDirectories r).unions = r.unions ∧
    (reparentDirectories r).all_nodes = r.all_nodes ∧
    (reparentDirectories r).files = r.files := by
  have hfold := foldl_inv
    (reparentDirsStep ((pySort (dirRankLt r)
      (r.dirs.map (fun d => (dirRank r d, d)))).reverse))
    (fun acc : Root × List Nat => acc.1.nodes.length = r.nodes.length ∧
      acc.1.namespaces = r.namespaces ∧ acc.1.class_like = r.class_like ∧
      acc.1.unions = r.unions ∧ acc.1.all_nodes = r.all_nodes ∧
      acc.1.files = r.files)
    (((pySort (dirRankLt r) (r.dirs.map (fun d => (dirRank r d, d)))).reverse).takeWhile
      (fun p => !(decide (p.1 < 2))))
    (r, []) ⟨rfl, rfl, rfl, rfl, rfl, rfl⟩ (fun a b hPa => by
      obtain ⟨h1, h2, h3, h4, h5, h6⟩ := hPa
      obtain ⟨g1, g2, g3, g4, g5, g6⟩ := dirStep_fields _ a b
      exact ⟨(dirStep_len _ _ _).trans h1, g2.trans h2, g5.trans h3,
        g1.trans h4, g4.trans h5, g6.trans h6⟩)
  exact hfold

theorem reparentDirectories_inv (r : Root)
    (hd : ∀ i ∈ r.dirs, i < r.nodes.length)
    (h : parentChildInv r) : parentChildInv (reparentDirectories r) := by
  have htrav : ∀ x ∈ (pySort (dirRankLt r)
      (r.dirs.map (fun d => (dirRank r d, d)))).reverse, x.2 < r.nodes.length := by
    intro x hx
    rw [List.mem_reverse, pySort_mem] at hx
    obtain ⟨d, hdm, hxd⟩ := List.mem_map.mp hx
    rw [← hxd]
    exact hd d hdm
  have hfold := foldl_inv
    (reparentDirsStep ((pySort (dirRankLt r)
      (r.dirs.map (fun d => (dirRank r d, d)))).reverse))
    (fun acc : Root × List Nat =>
      acc.1.nodes.length = r.nodes.length ∧ parentChildInv acc.1)
    (((pySort (dirRankLt r) (r.dirs.map (fun d => (dirRank r d, d)))).reverse).takeWhile
      (fun p => !(decide (p.1 < 2))))
    (r, []) ⟨rfl, h⟩ (fun a b hPa =>
      ⟨(dirStep_len _ _ _).trans hPa.1,
       dirStep_inv _ a b (fun x hx => by rw [hPa.1]; exact htrav x hx) hPa.2⟩)
  intro i hi q hq
  exact hfold.2 i hi q hq

theorem setNodeName_parent (r : Root) (j : Nat) (s : String) (i : Nat) :
    (getNode (setNodeName r j s) i).parent = (getNode r i).parent :=
  getNode_modifyNode_field Node.parent r j (fun n => { n with name := s })
    (fun n => rfl) i

theorem setNodeName_children (r : Root) (j : Nat) (s : String) (i : Nat) :
    (getNode (setNodeName r j s) i).children = (getNode r i).children :=
  getNode_modifyNode_field Node.children r j (fun n => { n with name := s })
    (fun n => rfl) i

theorem renameChild_parent (ns0 : String) (r : Root) (c i : Nat) :
    (getNode (renameChild ns0 r c) i).parent = (getNode r i).parent := by
  unfold renameChild
  split
  · rfl
  · exact setNodeName_parent r c _ i

theorem renameChild_children (ns0 : String) (r : Root) (c i : Nat) :
    (getNode (renameChild ns0 r c) i).children = (getNode r i).children := by
  unfold renameChild
  split
  · rfl
  · exact setNodeName_children r c _ i

theorem renameChild_len (ns0 : String) (r : Root) (c : Nat) :
    (renameChild ns0 r c).nodes.length = r.nodes.length := by
  unfold renameChild
  split
  · rfl
  · exact nodes_length_setNode _ _ _

/-- The renaming pass only rewrites names: arena size, parents and children
are untouched. -/
theorem renamePass_frame (r : Root) :
    (renameToNamespaceScopes r).nodes.length = r.nodes.length ∧
    (∀ i, (getNode (renameToNamespaceScopes r) i).parent = (getNode r i).parent) ∧
    (∀ i, (getNode (renameToNamespaceScopes r) i).children
      = (getNode r i).children) := by
  unfold renameToNamespaceScopes
  refine foldl_inv renameNamespaceChildren
    (fun r2 => r2.nodes.length = r.nodes.length ∧
      (∀ i, (getNode r2 i).parent = (getNode r i).parent) ∧
      (∀ i, (getNode r2 i).children = (getNode r i).children))
    r.namespaces r ⟨rfl, fun i => rfl, fun i => rfl⟩ ?_
  intro a b hPa
  obtain ⟨h1, h2, h3⟩ := hPa
  unfold renameNamespaceChildren
  refine foldl_inv (renameChild ((getNode a b).name ++ "::"))
    (fun r2 => r2.nodes.length = r.nodes.length ∧
      (∀ i, (getNode r2 i).parent = (getNode r i).parent) ∧
      (∀ i, (getNode r2 i).children = (getNode r i).children))
    (getNode a b).children a ⟨h1, h2, h3⟩ ?_
  intro a2 b2 hP2
  obtain ⟨g1, g2, g3⟩ := hP2
  exact ⟨(renameChild_len _ _ _).trans g1,
    fun i => (renameChild_parent _ _ _ i).trans (g2 i),
    fun i => (renameChild_children _ _ _ i).trans (g3 i)⟩

theorem renamePass_inv (r : Root) (h : parentChildInv r) :
    parentChildInv (renameToNamespaceScopes r) := by
  obtain ⟨f1, f2, f3⟩ := renamePass_frame r
  exact parentChildInv_of_frame_mem r _ f1 f2 (fun q x hx => by rw [f3 q]; exact hx) h

theorem reparentNamespaces_inv (r : Root) (h : parentChildInv r) :
    parentChildInv (reparentNamespaces r) := by
  intro i hi q hq
  exact h i hi q hq

theorem dedupChildrenAll_inv (r : Root) (h : parentChildInv r) :
    parentChildInv (dedupChildrenAll r) := by
  obtain ⟨DDn, DDk, DDp, DDd, DDl, DDf, DDm, DDo⟩ := dedupFold_spec r.all_nodes r
  have he : dedupChildrenAll r = r.all_nodes.foldl (fun r2 j => modifyNode r2 j
      (fun n => { n with children := n.children.dedup })) r := rfl
  rw [he]
  refine parentChildInv_of_frame_mem r _ DDl DDp ?_ h
  intro q x hx
  by_cases hqm : q ∈ r.all_nodes
  · rw [DDm q hqm]
    exact List.mem_dedup.mpr hx
  · rw [DDo q hqm]
    exact hx

/-- The whole reparenting engine preserves the edge invariant, provided the
adoption sources (class-like, namespace and directory collections) refer
into the arena. -/
theorem reparentAll_inv (r : Root)
    (hcl : ∀ i ∈ r.class_like, i < r.nodes.length)
    (hns : ∀ i ∈ r.namespaces, i < r.nodes.length)
    (hd : ∀ i ∈ r.dirs, i < r.nodes.length)
    (h : parentChildInv r) : parentChildInv (reparentAll r) := by
  obtain ⟨u1, u2, u3, u4, u5, u6⟩ := reparentUnions_frame0 r
  have h1 := reparentUnions_inv r hcl hns h
  have h2 := reparentClassLike_inv (reparentUnions r)
    (fun i hi => by rw [u1]; exact hcl i (by rw [← u2]; exact hi)) h1
  obtain ⟨c1, c2, c3, c4, c5, c6⟩ := reparentClassLike_frame0 (reparentUnions r)
  have h3 := reparentDirectories_inv (reparentClassLike (reparentUnions r))
    (fun i hi => by
      rw [c1, u1]
      exact hd i (by rw [← u4, ← c3]; exact hi)) h2
  have h4 := renamePass_inv _ h3
  have h5 := reparentNamespaces_inv _ h4
  have h6 := dedupChildrenAll_inv _ h5
  exact h6

/-- Allocating a fresh node (whose `parent` is unset) preserves the edge
invariant. -/
theorem parentChildInv_pushNode (r : Root) (n : Node) (hn : n.parent = none)
    (h : parentChildInv r) : parentChildInv (pushNode r n) := by
  intro i hi q hq
  rw [nodes_length_pushNode] at hi
  by_cases hlt : i < r.nodes.length
  · rw [getNode_pushNode_lt _ _ _ hlt] at hq
    have hmem := h i hlt q hq
    by_cases hqlt : q < r.nodes.length
    · rw [getNode_pushNode_lt _ _ _ hqlt]
      exact hmem
    · rw [getNode_oob r q (Nat.le_of_not_lt hqlt)] at hmem
      exact absurd hmem (List.not_mem_nil i)
  · have hieq : i = r.nodes.length :=
      Nat.le_antisymm (Nat.le_of_lt_succ hi) (Nat.le_of_not_lt hlt)
    rw [hieq, getNode_pushNode_self] at hq
    rw [hn] at hq
    exact absurd hq (by simp)

theorem parentChildInv_track (r : Root) (j : Nat) (h : parentChildInv r) :
    parentChildInv (trackNodeIfUnseen r j) :=
  parentChildInv_of_frame_mem r _ (by rw [trackNodeIfUnseen_nodes])
    (fun i => by rw [getNode_trackNodeIfUnseen])
    (fun q x hx => by rw [getNode_trackNodeIfUnseen]; exact hx) h

theorem parentChildInv_setDefInFile (r : Root) (j : Nat) (f : Option Nat)
    (h : parentChildInv r) : parentChildInv (setDefInFile r j f) :=
  parentChildInv_of_frame_mem r _ (nodes_length_setDefInFile r j f)
    (setDefInFile_parent r j f)
    (fun q x hx => by rw [setDefInFile_children]; exact hx) h

theorem parentChildInv_appendChild (r : Root) (p c : Nat) (h : parentChildInv r) :
    parentChildInv (appendChild r p c) :=
  parentChildInv_of_frame_mem r _ (nodes_length_appendChild r p c)
    (appendChild_parent r p c)
    (fun q x hx => appendChild_children_mono r p c q x hx) h

/-- The discovery-order adoption idiom — assign the parent pointer first,
then append the child — also preserves the edge invariant. -/
theorem parentChildInv_adopt2 (r : Root) (p c : Nat) (hp : p < r.nodes.length)
    (h : parentChildInv r) :
    parentChildInv (appendChild (setParent r c (some p)) p c) := by
  intro i hi q hq
  rw [nodes_length_appendChild, nodes_length_setParent] at hi
  rw [Option.mem_def, appendChild_parent] at hq
  by_cases hic : i = c
  · rw [hic] at hq hi ⊢
    rw [getNode_setParent_self _ _ _ hi] at hq
    have hqp : p = q := Option.some.inj hq
    subst hqp
    rw [getNode_appendChild_self _ _ _ (by rw [nodes_length_setParent]; exact hp)]
    rw [setParent_children]
    exact List.mem_append_right _ (List.mem_singleton.mpr rfl)
  · rw [getNode_setParent_ne _ _ _ _ hic] at hq
    have hmem := h i hi q (Option.mem_def.mpr hq)
    apply appendChild_children_mono
    rw [setParent_children]
    exact hmem

theorem discoverMember_eq (k : String) (cid : Nat) (r : Root) (m : Member) :
    discoverMember k cid r m
      = appendChild (if k == "namespace"
          then setParent (trackNodeIfUnseen
            (pushNode r (mkNode m.name m.kind m.refid)) r.nodes.length)
            r.nodes.length (some cid)
          else setDefInFile (trackNodeIfUnseen
            (pushNode r (mkNode m.name m.kind m.refid)) r.nodes.length)
            r.nodes.length (some cid))
        cid r.nodes.length := rfl

theorem discoverMember_len (k : String) (cid : Nat) (r : Root) (m : Member) :
    (discoverMember k cid r m).nodes.length = r.nodes.length + 1 := by
  rw [discoverMember_eq, nodes_length_appendChild]
  split
  · rw [nodes_length_setParent, trackNodeIfUnseen_nodes, nodes_length_pushNode]
  · rw [nodes_length_setDefInFile, trackNodeIfUnseen_nodes, nodes_length_pushNode]

/-- Registering one member preserves the edge invariant whenever the owning
compound exists in the arena: a namespace owner both adopts the member as
parent and lists it as a child, any other owner only lists it. -/
theorem discoverMember_inv (k : String) (cid : Nat) (r : Root) (m : Member)
    (hcid : cid < r.nodes.length) (h : parentChildInv r) :
    parentChildInv (discoverMember k cid r m) := by
  have hbase : parentChildInv (trackNodeIfUnseen
      (pushNode r (mkNode m.name m.kind m.refid)) r.nodes.length) :=
    parentChildInv_track _ _ (parentChildInv_pushNode r _ rfl h)
  rw [discoverMember_eq]
  by_cases hk : (k == "namespace") = true
  · rw [if_pos hk]
    refine parentChildInv_adopt2 _ cid r.nodes.length ?_ hbase
    rw [trackNodeIfUnseen_nodes, nodes_length_pushNode]
    exact Nat.lt_succ_of_lt hcid
  · rw [if_neg hk]
    exact parentChildInv_appendChild _ _ _
      (parentChildInv_setDefInFile _ _ _ hbase)

theorem discoverCompound_eq (r : Root) (c : Compound) :
    discoverCompound r c
      = (if c.kind == "namespace" || c.kind == "file"
          then c.members.foldl (discoverMember c.kind r.nodes.length)
            (trackNodeIfUnseen (pushNode r (mkNode c.name c.kind c.refid))
              r.nodes.length)
          else trackNodeIfUnseen (pushNode r (mkNode c.name c.kind c.refid))
            r.nodes.length) := rfl

/-- Registering one compound and its members preserves the edge invariant. -/
theorem discoverCompound_inv (r : Root) (c : Compound) (h : parentChildInv r) :
    parentChildInv (discoverCompound r c) := by
  have hbase : parentChildInv (trackNodeIfUnseen
      (pushNode r (mkNode c.name c.kind c.refid)) r.nodes.length) :=
    parentChildInv_track _ _ (parentChildInv_pushNode r _ rfl h)
  have hblen : r.nodes.length < (trackNodeIfUnseen
      (pushNode r (mkNode c.name c.kind c.refid)) r.nodes.length).nodes.length := by
    rw [trackNodeIfUnseen_nodes, nodes_length_pushNode]
    exact Nat.lt_succ_self _
  rw [discoverCompound_eq]
  split
  · have hfold := foldl_inv (discoverMember c.kind r.nodes.length)
      (fun r2 => r.nodes.length < r2.nodes.length ∧ parentChildInv r2)
      c.members _ ⟨hblen, hbase⟩ (fun a b hPa =>
        ⟨by rw [discoverMember_len]; exact Nat.lt_succ_of_lt hPa.1,
         discoverMember_inv _ _ a b hPa.1 hPa.2⟩)
    exact hfold.2
  · exact hbase

/-- The whole discovery traversal preserves the edge invariant. -/
theorem discoverIndex_inv (r : Root) (idx : List Compound) (h : parentChildInv r) :
    parentChildInv (discoverIndex r idx) :=
  foldl_inv discoverCompound parentChildInv idx r h
    (fun a b hPa => discoverCompound_inv a b hPa)

theorem parentChildInv_emptyRoot : parentChildInv emptyRoot := by
  intro i hi q hq
  exact absurd hi (Nat.not_lt_zero i)

theorem resolveMissingFileDefs_inv (r : Root)
    (listings : List (Nat × List (String × String))) (h : parentChildInv r) :
    parentChildInv (resolveMissingFileDefs r listings) := by
  unfold resolveMissingFileDefs assignLoop
  refine foldl_inv _ parentChildInv (missingPairs r) r h ?_
  intro a b hPa
  dsimp only
  split
  · exact parentChildInv_setDefInFile a b.2 _ hPa
  · exact hPa

theorem checkChildStep_parent (fid : Nat)
    (acc : Root × List (String × String × String)) (cid i : Nat) :
    (getNode (checkChildStep fid acc cid).1 i).parent = (getNode acc.1 i).parent := by
  unfold checkChildStep
  split
  · exact setDefInFile_parent acc.1 cid (some fid) i
  · split
    · rfl
    · rfl

theorem checkChildStep_len (fid : Nat)
    (acc : Root × List (String × String × String)) (cid : Nat) :
    (checkChildStep fid acc cid).1.nodes.length = acc.1.nodes.length := by
  unfold checkChildStep
  split
  · exact nodes_length_setDefInFile acc.1 cid (some fid)
  · split
    · rfl
    · rfl

theorem fileDefConsistency_inv (r : Root) (h : parentChildInv r) :
    parentChildInv (fileDefConsistency r).1 := by
  unfold fileDefConsistency
  refine foldl_inv checkFileChildren
    (fun acc : Root × List (String × String × String) => parentChildInv acc.1)
    r.files (r, []) h ?_
  intro a b hPa
  unfold checkFileChildren
  refine foldl_inv (checkChildStep b)
    (fun acc : Root × List (String × String × String) => parentChildInv acc.1)
    (getNode a.1 b).children a hPa ?_
  intro a2 b2 hP2
  exact parentChildInv_of_frame_mem a2.1 _ (checkChildStep_len b a2 b2)
    (checkChildStep_parent b a2 b2)
    (fun q x hx => by rw [checkChildStep_children]; exact hx) hP2

/-- `list(set(...))`-free adoption bound: appending an in-range child keeps
every recorded child index in range. -/
theorem childrenBound_adopt (r : Root) (p c : Nat) (hp : p < r.nodes.length)
    (hc : c < r.nodes.length) (h : childrenBound r) :
    childrenBound (setParent (appendChild r p c) c (some p)) := by
  intro i hi x hx
  rw [nodes_length_setParent, nodes_length_appendChild] at hi ⊢
  rw [setParent_children] at hx
  by_cases hip : i = p
  · rw [hip, getNode_appendChild_self r p c hp] at hx
    rcases List.mem_append.mp hx with hx1 | hx2
    · exact h p hp x hx1
    · rw [List.mem_singleton.mp hx2]
      exact hc
  · rw [getNode_appendChild_ne r p c i hip] at hx
    exact h i hi x hx

/-- Invariants of the directory-search loop: the arena size and the
directory collection survive, child indices stay in range, and the edge
invariant is preserved — for every fuel value. -/
theorem fppLoop_bundle (f : Nat) (dp : String) : ∀ (fuel : Nat) (r : Root)
    (stack : List Nat),
    (∀ d ∈ stack, d < r.nodes.length) → f < r.nodes.length →
    childrenBound r → parentChildInv r →
    ((fppLoop f dp fuel r stack).nodes.length = r.nodes.length ∧
     (fppLoop f dp fuel r stack).dirs = r.dirs ∧
     childrenBound (fppLoop f dp fuel r stack) ∧
     parentChildInv (fppLoop f dp fuel r stack)) := by
  intro fuel
  induction fuel with
  | zero => exact fun r stack _ _ hcb h => ⟨rfl, rfl, hcb, h⟩
  | succ n ih =>
    intro r stack hst hf hcb h
    match stack with
    | [] => exact ⟨rfl, rfl, hcb, h⟩
    | d :: rest =>
      simp only [fppLoop]
      split
      · split
        · refine ⟨?_, rfl, ?_, ?_⟩
          · rw [nodes_length_setParent, nodes_length_appendChild]
          · exact childrenBound_adopt r d f (hst d (List.mem_cons_self d rest)) hf hcb
          · exact parentChildInv_adopt r d f (hst d (List.mem_cons_self d rest)) h
        · refine ih r _ ?_ hf hcb h
          intro d2 hd2
          rw [List.mem_reverse, List.mem_filter] at hd2
          exact hcb d (hst d (List.mem_cons_self d rest)) d2 hd2.1
      · exact ih r rest (fun d2 hd2 => hst d2 (List.mem_cons_of_mem d hd2)) hf hcb h

/-- `filePostProcess` preserves the edge invariant for every fuel value,
provided the directory and file collections and all recorded children refer
into the arena. -/
theorem filePostProcess_inv (fuel : Nat) (r : Root)
    (hd : ∀ i ∈ r.dirs, i < r.nodes.length)
    (hf : ∀ i ∈ r.files, i < r.nodes.length)
    (hcb : childrenBound r) (h : parentChildInv r) :
    parentChildInv (filePostProcess fuel r) := by
  unfold filePostProcess
  refine (foldl_inv_mem (filePostProcessStep fuel)
    (fun r2 => r2.nodes.length = r.nodes.length ∧ r2.dirs = r.dirs ∧
      childrenBound r2 ∧ parentChildInv r2) r.files r ⟨rfl, rfl, hcb, h⟩ ?_).2.2.2
  intro a b hb hPa
  obtain ⟨hlen, hdirs, hcb2, hp2⟩ := hPa
  simp only [filePostProcessStep]
  split
  · exact ⟨hlen, hdirs, hcb2, hp2⟩
  · have hst : ∀ d ∈ a.dirs.reverse, d < a.nodes.length := by
      intro d hdm
      rw [List.mem_reverse, hdirs] at hdm
      rw [hlen]
      exact hd d hdm
    have hfb : b < a.nodes.length := by
      rw [hlen]
      exact hf b hb
    obtain ⟨l1, l2, l3, l4⟩ := fppLoop_bundle b _ fuel a a.dirs.reverse hst hfb hcb2 hp2
    exact ⟨l1.trans hlen, l2.trans hdirs, l3, l4⟩

theorem modifyNode_oob (r : Root) (i : Nat) (f : Node → Node)
    (h : r.nodes.length ≤ i) : modifyNode r i f = r := by
  unfold modifyNode setNode
  rw [List.set_eq_of_length_le h]

/-- `typeSort` only permutes children lists: arena size and parents are
untouched and child membership is preserved, for every fuel value. -/
theorem typeSortGo_frame : ∀ (fuel : Nat) (r : Root) (i : Nat),
    ((typeSortGo fuel r i).nodes.length = r.nodes.length) ∧
    (∀ j, (getNode (typeSortGo fuel r i) j).parent = (getNode r j).parent) ∧
    (∀ q x, x ∈ (getNode r q).children → x ∈ (getNode (typeSortGo fuel r i) q).children) := by
  intro fuel
  induction fuel with
  | zero => exact fun r i => ⟨rfl, fun j => rfl, fun q x hx => hx⟩
  | succ n ih =>
    intro r i
    simp only [typeSortGo]
    have hm1 : (modifyNode r i (fun n0 =>
        { n0 with children := sortIdxList r n0.children })).nodes.length
        = r.nodes.length := nodes_length_setNode _ _ _
    have hm2 : ∀ j, (getNode (modifyNode r i (fun n0 =>
        { n0 with children := sortIdxList r n0.children })) j).parent
        = (getNode r j).parent :=
      getNode_modifyNode_field Node.parent r i
        (fun n0 => { n0 with children := sortIdxList r n0.children }) (fun n0 => rfl)
    have hm3 : ∀ q x, x ∈ (getNode r q).children →
        x ∈ (getNode (modifyNode r i (fun n0 =>
          { n0 with children := sortIdxList r n0.children })) q).children := by
      intro q x hx
      by_cases hq : q = i
      · subst hq
        by_cases hlt : q < r.nodes.length
        · rw [getNode_modifyNode_self _ _ _ hlt]
          show x ∈ sortIdxList r (getNode r q).children
          unfold sortIdxList
          exact (pySort_mem _ _ _).mpr hx
        · rw [modifyNode_oob _ _ _ (Nat.le_of_not_lt hlt)]
          exact hx
      · rw [getNode_modifyNode_ne _ _ _ _ hq]
        exact hx
    refine foldl_inv (typeSortGo n)
      (fun r3 => (r3.nodes.length = r.nodes.length) ∧
        (∀ j, (getNode r3 j).parent = (getNode r j).parent) ∧
        (∀ q x, x ∈ (getNode r q).children → x ∈ (getNode r3 q).children))
      _ _ ⟨hm1, hm2, hm3⟩ ?_
    intro a b hPa
    obtain ⟨p1, p2, p3⟩ := hPa
    obtain ⟨g1, g2, g3⟩ := ih a b
    exact ⟨g1.trans p1, fun j => (g2 j).trans (p2 j),
      fun q x hx => g3 q x (p3 q x hx)⟩

theorem typeSortFold_inv (fuel : Nat) (l : List Nat) (r : Root)
    (h : parentChildInv r) : parentChildInv (l.foldl (typeSortGo fuel) r) := by
  refine foldl_inv (typeSortGo fuel) parentChildInv l r h ?_
  intro a b hPa
  obtain ⟨f1, f2, f3⟩ := typeSortGo_frame fuel a b
  exact parentChildInv_of_frame_mem a _ f1 f2 f3 hPa

/-- The ordering engine preserves the edge invariant for every fuel value:
collection sorts do not touch the arena and deep sorts only permute
children. -/
theorem sortInternals_inv (fuel : Nat) (r : Root) (h : parentChildInv r) :
    parentChildInv (sortInternals fuel r) := by
  simp only [sortInternals, deepSortList]
  exact typeSortFold_inv fuel _ _ (typeSortFold_inv fuel _ _ (typeSortFold_inv fuel _ _
    (typeSortFold_inv fuel _ _ (typeSortFold_inv fuel _ _ h))))

/-- C10: parent/child edge consistency.  After every pass of the pipeline,
every registered node whose `parent` field is set is an element of that
parent's `children` list: the discovery traversal establishes the invariant
from an empty registry (every parent assignment is paired with an append to
the new parent's children), every reparenting sub-pass plus the child
de-duplication preserves it (on registries whose adoption-source collections
refer into the arena), the missing-file resolver and the def-file
consistency check only touch `def_in_file`, the file post-process pairs its
parent assignment with a children append, and the ordering engine only
permutes children lists. -/
theorem C10_parent_child_consistency :
    (∀ idx : List Compound, parentChildInv (discoverIndex emptyRoot idx)) ∧
    (∀ r : Root,
      (∀ i ∈ r.class_like, i < r.nodes.length) →
      (∀ i ∈ r.namespaces, i < r.nodes.length) →
      (∀ i ∈ r.dirs, i < r.nodes.length) →
      parentChildInv r → parentChildInv (reparentAll r)) ∧
    (∀ (r : Root) (listings : List (Nat × List (String × String))),
      parentChildInv r → parentChildInv (resolveMissingFileDefs r listings)) ∧
    (∀ r : Root, parentChildInv r → parentChildInv (fileDefConsistency r).1) ∧
    (∀ (fuel : Nat) (r : Root),
      (∀ i ∈ r.dirs, i < r.nodes.length) →
      (∀ i ∈ r.files, i < r.nodes.length) →
      childrenBound r → parentChildInv r →
      parentChildInv (filePostProcess fuel r)) ∧
    (∀ (fuel : Nat) (r : Root), parentChildInv r →
      parentChildInv (sortInternals fuel r)) :=
  ⟨fun idx => discoverIndex_inv emptyRoot idx parentChildInv_emptyRoot,
   fun r h1 h2 h3 h => reparentAll_inv r h1 h2 h3 h,
   fun r listings h => resolveMissingFileDefs_inv r listings h,
   fun r h => fileDefConsistency_inv r h,
   fun fuel r h1 h2 hcb h => filePostProcess_inv fuel r h1 h2 hcb h,
   fun fuel r h => sortInternals_inv fuel r h⟩

theorem C10_witness :
    parentChildInv (reparentAll c10WitnessRoot) ∧
    parentChildInv (resolveMissingFileDefs c10WitnessRoot []) ∧
    parentChildInv (fileDefConsistency c10WitnessRoot).1 ∧
    parentChildInv (filePostProcess 6 c10WitnessRoot) ∧
    parentChildInv (sortInternals 6 c10WitnessRoot) :=
  ⟨C10_parent_child_consistency.2.1 c10WitnessRoot (by decide) (by decide)
     (by decide) (by decide),
   C10_parent_child_consistency.2.2.1 c10WitnessRoot [] (by decide),
   C10_parent_child_consistency.2.2.2.1 c10WitnessRoot (by decide),
   C10_parent_child_consistency.2.2.2.2.1 6 c10WitnessRoot (by decide) (by decide)
     (by decide) (by decide),
   C10_parent_child_consistency.2.2.2.2.2 6 c10WitnessRoot (by decide)⟩
